import Mathlib

/-!
Verification development for the hash-map suite in src/ds/hash/src
(schashmap.hpp, lphashmap.hpp, ckhashmap.hpp, sip.hpp, hasher.hpp).

The C++ classes are templated over a key type K (equality-comparable),
a value type V and a hasher H with hash : K -> u64.  The embedding keeps
K and V as type parameters with decidable equality on K, and models a
hasher instance as a function K -> Nat (the 64-bit range plays no role:
every use is hash(key) % capacity).  Machine integers are modelled as
Nat with explicit reduction modulo 2^64 where overflow matters (SipHash
state words).  Fallible operations (C++ throw) return Option.

The load-factor comparisons in the source are double comparisons against
0.75 / 0.7 / 0.5; they are modelled by the exact rational comparisons
4*(s+1) > 3*c, 10*(s+1) > 7*c and 2*(s+1) > c.  For 0.75 and 0.5 the
double comparison is exact; for 0.7 the two can differ only when the
quotient falls within one ulp of 0.7, which requires capacities around
2^53 slots.
-/

/-! ## SipHash-1-3 (src/ds/hash/src/sip.hpp) -/

/-- Truncation to 64 bits, the implicit wrap-around of C++ `uint64_t`. -/
def w64 (x : Nat) : Nat := x % 2 ^ 64

/-- `Sip13Hasher::rotl`: `(x << b) | (x >> (64 - b))` on `uint64_t`. -/
def rotl (x b : Nat) : Nat := ((x <<< b) % 2 ^ 64) ||| (x >>> (64 - b))

/-- The four SipHash state words `v0..v3`. -/
structure SipState where
  v0 : Nat
  v1 : Nat
  v2 : Nat
  v3 : Nat
deriving Repr, DecidableEq

/-- `Sip13Hasher::sipround`: the eight add/rotate/XOR steps, in source
order, with rotation amounts 13, 32, 16, 21, 17, 32. -/
def sipround (s : SipState) : SipState :=
  let v0 := w64 (s.v0 + s.v1)
  let v1 := rotl s.v1 13
  let v1 := v1 ^^^ v0
  let v0 := rotl v0 32
  let v2 := w64 (s.v2 + s.v3)
  let v3 := rotl s.v3 16
  let v3 := v3 ^^^ v2
  let v0 := w64 (v0 + v3)
  let v3 := rotl v3 21
  let v3 := v3 ^^^ v0
  let v2 := w64 (v2 + v1)
  let v1 := rotl v1 17
  let v1 := v1 ^^^ v2
  let v2 := rotl v2 32
  ⟨v0, v1, v2, v3⟩

/-- Little-endian word assembly: `m |= p[i] << (i * 8)` over the given
bytes, starting at bit position `sh`. -/
def leWordAux : List Nat → Nat → Nat
  | [], _ => 0
  | b :: rest, sh => (b <<< sh) ||| leWordAux rest (sh + 8)

/-- A (up to) 8-byte little-endian word from a byte list. -/
def leWord (l : List Nat) : Nat := leWordAux l 0

/-- One message-word absorption of `Sip13Hasher::hash`:
`v3 ^= m; sipround(...); v0 ^= m`. -/
def sipCompress (s : SipState) (m : Nat) : SipState :=
  let s1 := sipround { s with v3 := s.v3 ^^^ m }
  { s1 with v0 := s1.v0 ^^^ m }

/-- The full-word loop of `Sip13Hasher::hash`: the pointer `p` walks 8
bytes at a time for `len / 8` iterations; the returned list is the
remaining tail bytes. -/
def sipChunkLoop : SipState → List Nat → Nat → SipState × List Nat
  | st, bs, 0 => (st, bs)
  | st, bs, n + 1 => sipChunkLoop (sipCompress st (leWord (bs.take 8))) (bs.drop 8) n

/-- The initial state of `Sip13Hasher::hash`: the four domain constants
XORed with the seeds `k0`, `k1`. -/
def sipInit (k0 k1 : Nat) : SipState :=
  ⟨0x736f6d6570736575 ^^^ w64 k0, 0x646f72616e646f6d ^^^ w64 k1,
   0x6c7967656e657261 ^^^ w64 k0, 0x7465646279746573 ^^^ w64 k1⟩

/-- The finalization of `Sip13Hasher::hash`:
`v2 ^= 0xff`, three siprounds, XOR of all four words. -/
def sipFinalize (s : SipState) : Nat :=
  let s1 := sipround (sipround (sipround { s with v2 := s.v2 ^^^ 0xff }))
  s1.v0 ^^^ s1.v1 ^^^ s1.v2 ^^^ s1.v3

/-- `Sip13Hasher::hash` (src/ds/hash/src/sip.hpp lines 39-84), on the
byte view of the key.  The padding word is `((uint64_t)len) << 56` (a
64-bit truncating shift) ORed with the tail bytes at their little-endian
positions. -/
def sipHash (k0 k1 : Nat) (bytes : List Nat) : Nat :=
  let len := bytes.length
  let r := sipChunkLoop (sipInit k0 k1) bytes (len / 8)
  let b := ((len <<< 56) % 2 ^ 64) ||| leWord r.2
  sipFinalize (sipCompress r.1 b)

/-- Modelled from the claim wording (the specification the source is
checked against): process the input as full 8-byte little-endian words,
each absorbed by XOR into the fourth word, one mixing round, XOR into
the first word; then the padding word holding the 0-7 trailing bytes at
their little-endian positions with the total input length modulo 256 in
the most significant byte, absorbed the same way; then finalize. -/
def sipSpecBody (len : Nat) : SipState → List Nat → Nat
  | st, b0 :: b1 :: b2 :: b3 :: b4 :: b5 :: b6 :: b7 :: rest =>
      sipSpecBody len (sipCompress st (leWord [b0, b1, b2, b3, b4, b5, b6, b7])) rest
  | st, tail =>
      sipFinalize (sipCompress st (((len % 256) <<< 56) ||| leWord tail))

/-- The specification-side SipHash-1-3 of a byte sequence under seeds
`(k0, k1)`. -/
def sipHashSpec (k0 k1 : Nat) (bytes : List Nat) : Nat :=
  sipSpecBody bytes.length (sipInit k0 k1) bytes

/-! ## Linear-probing map (src/ds/hash/src/lphashmap.hpp) -/

/-- One slot of the open-addressed table: `EntryState` with the key and
value of an `Occupied` or `Deleted` (tombstoned) entry.  A
default-constructed entry is `Empty`; the key and value of a non-
`Occupied` slot are never read by the source, so `empty` carries none. -/
inductive LpSlot (K V : Type) where
  | empty : LpSlot K V
  | occupied (key : K) (value : V) : LpSlot K V
  | deleted (key : K) (value : V) : LpSlot K V
deriving Repr, DecidableEq

/-- `LpHashMap`: table, hasher, `size_count`, `capacity`, `deleted_count`. -/
structure LpMap (K V : Type) where
  table : List (LpSlot K V)
  hasher : K → Nat
  size_count : Nat
  capacity : Nat
  deleted_count : Nat

variable {K V : Type} [DecidableEq K]

/-- `LpHashMap::LpHashMap(initial_capacity)`; the default argument is
`INITIAL_CAPACITY = 16`. -/
def lpNew (hasher : K → Nat) (initial_capacity : Nat) : LpMap K V :=
  { table := List.replicate initial_capacity .empty
    hasher := hasher
    size_count := 0
    capacity := initial_capacity
    deleted_count := 0 }

/-- `LpHashMap::get_hash`: `hasher.hash(key) % capacity`. -/
def lpGetHash (m : LpMap K V) (key : K) : Nat := m.hasher key % m.capacity

/-- Does this slot hold `key` as an `Occupied` entry? -/
def lpSlotKeyIs (s : LpSlot K V) (key : K) : Bool :=
  match s with
  | .occupied k _ => k = key
  | _ => false

/-- Is the slot `Occupied`? -/
def lpIsOccupied (s : LpSlot K V) : Bool :=
  match s with
  | .occupied _ _ => true
  | _ => false

/-- Is the slot `Deleted`? -/
def lpIsDeleted (s : LpSlot K V) : Bool :=
  match s with
  | .deleted _ _ => true
  | _ => false

/-- The do-while of `LpHashMap::find_slot_for_insert`: stop at the first
non-`Occupied` slot or at an `Occupied` slot holding `key`; the fuel is
the number of remaining probes before the index returns to the start
(`none` models `throw std::runtime_error("Hash table is full")`). -/
def lpFindInsertAux (m : LpMap K V) (key : K) : Nat → Nat → Option Nat
  | _, 0 => none
  | idx, fuel + 1 =>
    match m.table.getD idx .empty with
    | .occupied k _ =>
        if k = key then some idx
        else lpFindInsertAux m key ((idx + 1) % m.capacity) fuel
    | _ => some idx

/-- `LpHashMap::find_slot_for_insert`. -/
def lpFindSlotForInsert (m : LpMap K V) (key : K) : Option Nat :=
  lpFindInsertAux m key (lpGetHash m key) m.capacity

/-- The do-while of `LpHashMap::find_slot_for_lookup`: an `Empty` slot
terminates unsuccessfully, an `Occupied` slot with a matching key
terminates successfully, anything else (including `Deleted`) continues;
returning to the start index (fuel exhausted) is unsuccessful. -/
def lpFindLookupAux (m : LpMap K V) (key : K) : Nat → Nat → Option Nat
  | _, 0 => none
  | idx, fuel + 1 =>
    match m.table.getD idx .empty with
    | .empty => none
    | .occupied k _ =>
        if k = key then some idx
        else lpFindLookupAux m key ((idx + 1) % m.capacity) fuel
    | .deleted _ _ => lpFindLookupAux m key ((idx + 1) % m.capacity) fuel

/-- `LpHashMap::find_slot_for_lookup` (`none` models the C++ return
value `capacity`, i.e. not found). -/
def lpFindSlotForLookup (m : LpMap K V) (key : K) : Option Nat :=
  lpFindLookupAux m key (lpGetHash m key) m.capacity

/-- `LpHashMap::inner_insert`: update in place on a key match, otherwise
overwrite the found slot with a fresh `Occupied` entry, decrementing
`deleted_count` if it was a tombstone and incrementing `size_count`. -/
def lpInnerInsert (m : LpMap K V) (key : K) (value : V) : Option (LpMap K V) :=
  match lpFindSlotForInsert m key with
  | none => none
  | some idx =>
    match m.table.getD idx .empty with
    | .occupied k _ =>
        if k = key then
          some { m with table := m.table.set idx (.occupied k value) }
        else
          some { m with table := m.table.set idx (.occupied key value)
                        size_count := m.size_count + 1 }
    | .deleted _ _ =>
        some { m with table := m.table.set idx (.occupied key value)
                      size_count := m.size_count + 1
                      deleted_count := m.deleted_count - 1 }
    | .empty =>
        some { m with table := m.table.set idx (.occupied key value)
                      size_count := m.size_count + 1 }

/-- The reinsertion loop of `LpHashMap::rehash` over the old table's
entries, in index order, skipping non-`Occupied` slots. -/
def lpReinsert : LpMap K V → List (LpSlot K V) → Option (LpMap K V)
  | m, [] => some m
  | m, .occupied k v :: rest => (lpInnerInsert m k v).bind (lpReinsert · rest)
  | m, .empty :: rest => lpReinsert m rest
  | m, .deleted _ _ :: rest => lpReinsert m rest

/-- `LpHashMap::rehash`: double capacity, fresh table, zero counters,
reinsert every `Occupied` entry. -/
def lpRehash (m : LpMap K V) : Option (LpMap K V) :=
  lpReinsert
    { m with capacity := m.capacity * 2
             table := List.replicate (m.capacity * 2) .empty
             size_count := 0
             deleted_count := 0 }
    m.table

/-- The load-factor trigger of `LpHashMap::insert`:
`(size+1)/capacity > 0.7 || (size+deleted)/capacity > 0.7`, in exact
arithmetic. -/
def lpTrigger (m : LpMap K V) : Bool :=
  decide (10 * (m.size_count + 1) > 7 * m.capacity) ||
  decide (10 * (m.size_count + m.deleted_count) > 7 * m.capacity)

/-- `LpHashMap::insert`. -/
def lpInsert (m : LpMap K V) (key : K) (value : V) : Option (LpMap K V) :=
  (if lpTrigger m then lpRehash m else some m).bind (lpInnerInsert · key value)

/-- `LpHashMap::at` (`none` models `throw std::out_of_range`). -/
def lpAt (m : LpMap K V) (key : K) : Option V :=
  match lpFindSlotForLookup m key with
  | some idx =>
    match m.table.getD idx .empty with
    | .occupied _ v => some v
    | .deleted _ v => some v
    | .empty => none
  | none => none

/-- `LpHashMap::contains_key`. -/
def lpContains (m : LpMap K V) (key : K) : Bool :=
  (lpFindSlotForLookup m key).isSome

/-- `LpHashMap::remove`: tombstone the found slot, returning the removed
value; `none` in the first component reports absence. -/
def lpRemove (m : LpMap K V) (key : K) : Option V × LpMap K V :=
  match lpFindSlotForLookup m key with
  | some idx =>
    match m.table.getD idx .empty with
    | .occupied k v =>
        (some v,
         { m with table := m.table.set idx (.deleted k v)
                  deleted_count := m.deleted_count + 1
                  size_count := m.size_count - 1 })
    | _ => (none, m)
  | none => (none, m)

/-- `LpHashMap::clear`: set every slot's state to `Empty`. -/
def lpClear (m : LpMap K V) : LpMap K V :=
  { m with table := m.table.map (fun _ => .empty)
           size_count := 0
           deleted_count := 0 }

/-- `LpHashMap::operator[]` with `d` modelling the default-constructed
value `V{}`; returns the referenced value and the updated map, `none`
models either propagated throw. -/
def lpBracket (m : LpMap K V) (key : K) (d : V) : Option (V × LpMap K V) :=
  match lpFindSlotForLookup m key with
  | some idx =>
    match m.table.getD idx .empty with
    | .occupied _ v => some (v, m)
    | .deleted _ v => some (v, m)
    | .empty => none
  | none =>
    (lpInsert m key d).bind fun m1 =>
      match lpFindSlotForLookup m1 key with
      | some idx =>
        match m1.table.getD idx .empty with
        | .occupied _ v => some (v, m1)
        | .deleted _ v => some (v, m1)
        | .empty => none
      | none => none

/-! ## Separate-chaining map (src/ds/hash/src/schashmap.hpp) -/

/-- `ScHashMap`: vector of buckets (entry lists), hasher, `size_count`,
`capacity`. -/
structure ScMap (K V : Type) where
  buckets : List (List (K × V))
  hasher : K → Nat
  size_count : Nat
  capacity : Nat

/-- `ScHashMap::ScHashMap(initial_capacity)`; default 16. -/
def scNew (hasher : K → Nat) (initial_capacity : Nat) : ScMap K V :=
  { buckets := List.replicate initial_capacity []
    hasher := hasher
    size_count := 0
    capacity := initial_capacity }

/-- `ScHashMap::get_bucket_index`. -/
def scBucketIndex (m : ScMap K V) (key : K) : Nat := m.hasher key % m.capacity

/-- The bucket scan of `ScHashMap::inner_insert`: overwrite the value of
the first entry with a matching key, else append; the flag reports
whether a new entry was appended. -/
def scBucketUpsert : List (K × V) → K → V → List (K × V) × Bool
  | [], key, value => ([(key, value)], true)
  | (k, v) :: rest, key, value =>
    if k = key then ((k, value) :: rest, false)
    else
      let r := scBucketUpsert rest key value
      ((k, v) :: r.1, r.2)

/-- `ScHashMap::inner_insert`. -/
def scInnerInsert (m : ScMap K V) (key : K) (value : V) : ScMap K V :=
  let idx := scBucketIndex m key
  let r := scBucketUpsert (m.buckets.getD idx []) key value
  { m with buckets := m.buckets.set idx r.1
           size_count := if r.2 then m.size_count + 1 else m.size_count }

/-- The reinsertion loops of `ScHashMap::resize`, bucket by bucket. -/
def scReinsert : ScMap K V → List (List (K × V)) → ScMap K V
  | m, [] => m
  | m, b :: rest => scReinsert (b.foldl (fun acc e => scInnerInsert acc e.1 e.2) m) rest

/-- `ScHashMap::resize`: double capacity, fresh buckets, reinsert all. -/
def scResize (m : ScMap K V) : ScMap K V :=
  scReinsert
    { m with capacity := m.capacity * 2
             buckets := List.replicate (m.capacity * 2) []
             size_count := 0 }
    m.buckets

/-- The load-factor trigger of `ScHashMap::insert`:
`(size+1)/capacity > 0.75`, in exact arithmetic. -/
def scTrigger (m : ScMap K V) : Bool :=
  decide (4 * (m.size_count + 1) > 3 * m.capacity)

/-- `ScHashMap::insert`. -/
def scInsert (m : ScMap K V) (key : K) (value : V) : ScMap K V :=
  scInnerInsert (if scTrigger m then scResize m else m) key value

/-- The bucket scan of `ScHashMap::at` / `contains_key`. -/
def scBucketFind : List (K × V) → K → Option V
  | [], _ => none
  | (k, v) :: rest, key => if k = key then some v else scBucketFind rest key

/-- `ScHashMap::at` (`none` models `throw std::out_of_range`). -/
def scAt (m : ScMap K V) (key : K) : Option V :=
  scBucketFind (m.buckets.getD (scBucketIndex m key) []) key

/-- `ScHashMap::contains_key`. -/
def scContains (m : ScMap K V) (key : K) : Bool :=
  (scAt m key).isSome

/-- The erase scan of `ScHashMap::remove`: remove the first entry with a
matching key, returning its value. -/
def scBucketRemove : List (K × V) → K → Option V × List (K × V)
  | [], _ => (none, [])
  | (k, v) :: rest, key =>
    if k = key then (some v, rest)
    else
      let r := scBucketRemove rest key
      (r.1, (k, v) :: r.2)

/-- `ScHashMap::remove`. -/
def scRemove (m : ScMap K V) (key : K) : Option V × ScMap K V :=
  let idx := scBucketIndex m key
  let r := scBucketRemove (m.buckets.getD idx []) key
  match r.1 with
  | some v =>
      (some v, { m with buckets := m.buckets.set idx r.2
                        size_count := m.size_count - 1 })
  | none => (none, m)

/-- `ScHashMap::clear`. -/
def scClear (m : ScMap K V) : ScMap K V :=
  { m with buckets := m.buckets.map (fun _ => []), size_count := 0 }

/-- `ScHashMap::operator[]` with `d` modelling `V{}`; `none` models the
defensive `throw std::runtime_error` after a failed re-lookup. -/
def scBracket (m : ScMap K V) (key : K) (d : V) : Option (V × ScMap K V) :=
  match scBucketFind (m.buckets.getD (scBucketIndex m key) []) key with
  | some v => some (v, m)
  | none =>
    let m1 := scInsert m key d
    match scBucketFind (m1.buckets.getD (scBucketIndex m1 key) []) key with
    | some v => some (v, m1)
    | none => none

/-! ## Cuckoo map (src/ds/hash/src/ckhashmap.hpp)

A slot of either table is `Option (K × V)` (`none` = not occupied).
`CkHashMap` re-seeds both hashers from the process random source at
construction and at every rehash; the model carries the supply of
hasher instances as a stream `seeds : Nat → K → Nat` together with the
index `epoch` of the next instance to draw, so each `create_hasher()`
call consumes one stream element. -/

/-- `CkHashMap`. -/
structure CkMap (K V : Type) where
  table1 : List (Option (K × V))
  table2 : List (Option (K × V))
  hasher1 : K → Nat
  hasher2 : K → Nat
  size_count : Nat
  capacity : Nat
  seeds : Nat → K → Nat
  epoch : Nat

/-- `CkHashMap::CkHashMap(initial_capacity)`; default 16.  The two
constructor calls to `create_hasher()` draw stream elements 0 and 1. -/
def ckNew (seeds : Nat → K → Nat) (initial_capacity : Nat) : CkMap K V :=
  { table1 := List.replicate initial_capacity none
    table2 := List.replicate initial_capacity none
    hasher1 := seeds 0
    hasher2 := seeds 1
    size_count := 0
    capacity := initial_capacity
    seeds := seeds
    epoch := 2 }

/-- `CkHashMap::get_hash1`. -/
def ckHash1 (m : CkMap K V) (key : K) : Nat := m.hasher1 key % m.capacity

/-- `CkHashMap::get_hash2`. -/
def ckHash2 (m : CkMap K V) (key : K) : Nat := m.hasher2 key % m.capacity

/-- Does the slot hold an occupied entry with this key? -/
def ckSlotKeyIs (s : Option (K × V)) (key : K) : Bool :=
  match s with
  | some kv => kv.1 = key
  | none => false

/-- The eviction walk of `CkHashMap::inner_insert` (the `for` loop over
at most `capacity` iterations): place the current entry if its slot in
the active table is free, else swap it with the occupant and switch
tables.  Returns the mutated map and the C++ return value; on `false`
the in-flight current entry is dropped. -/
def ckEvict : CkMap K V → K × V → Bool → Nat → CkMap K V × Bool
  | m, _, _, 0 => (m, false)
  | m, cur, true, fuel + 1 =>
    let p1 := ckHash1 m cur.1
    match m.table1.getD p1 none with
    | none =>
        ({ m with table1 := m.table1.set p1 (some cur)
                  size_count := m.size_count + 1 }, true)
    | some old =>
        ckEvict { m with table1 := m.table1.set p1 (some cur) } old false fuel
  | m, cur, false, fuel + 1 =>
    let p2 := ckHash2 m cur.1
    match m.table2.getD p2 none with
    | none =>
        ({ m with table2 := m.table2.set p2 (some cur)
                  size_count := m.size_count + 1 }, true)
    | some old =>
        ckEvict { m with table2 := m.table2.set p2 (some cur) } old true fuel

/-- `CkHashMap::inner_insert`: update in place if the key is at either
canonical position; place into a free canonical slot; else run the
eviction walk starting with table1. -/
def ckInnerInsert (m : CkMap K V) (key : K) (value : V) : CkMap K V × Bool :=
  let pos1 := ckHash1 m key
  let pos2 := ckHash2 m key
  if ckSlotKeyIs (m.table1.getD pos1 none) key then
    ({ m with table1 := m.table1.set pos1 (some (key, value)) }, true)
  else if ckSlotKeyIs (m.table2.getD pos2 none) key then
    ({ m with table2 := m.table2.set pos2 (some (key, value)) }, true)
  else if (m.table1.getD pos1 none).isNone then
    ({ m with table1 := m.table1.set pos1 (some (key, value))
              size_count := m.size_count + 1 }, true)
  else if (m.table2.getD pos2 none).isNone then
    ({ m with table2 := m.table2.set pos2 (some (key, value))
              size_count := m.size_count + 1 }, true)
  else
    ckEvict m (key, value) true m.capacity

/-- The reinsertion loop of `CkHashMap::rehash` over one old table; the
boolean result of each `inner_insert` call is discarded, exactly as in
the source. -/
def ckReinsert : CkMap K V → List (Option (K × V)) → CkMap K V
  | m, [] => m
  | m, none :: rest => ckReinsert m rest
  | m, some kv :: rest => ckReinsert (ckInnerInsert m kv.1 kv.2).1 rest

/-- `CkHashMap::rehash`: double capacity, fresh tables, two freshly
drawn hasher instances, reinsert both old tables. -/
def ckRehash (m : CkMap K V) : CkMap K V :=
  ckReinsert
    (ckReinsert
      { m with capacity := m.capacity * 2
               table1 := List.replicate (m.capacity * 2) none
               table2 := List.replicate (m.capacity * 2) none
               size_count := 0
               hasher1 := m.seeds m.epoch
               hasher2 := m.seeds (m.epoch + 1)
               epoch := m.epoch + 2 }
      m.table1)
    m.table2

/-- The retry loop of `CkHashMap::insert`:
`while (!inner_insert(key, value) && attempts < 8) { rehash(); ++attempts; }`.
The loop terminates because `attempts` is bounded by
`MAX_REHASH_ATTEMPTS = 8`; to make that bound structural, `rem` carries
`8 - attempts` (so the guard `attempts < 8` is `rem > 0`), and the two
arguments always move in lockstep.  Returns the final map, the final
value of `attempts`, and whether the last `inner_insert` call
succeeded. -/
def ckInsertLoop (key : K) (value : V) : CkMap K V → Nat → Nat → CkMap K V × Nat × Bool
  | m, attempts, 0 =>
    let r := ckInnerInsert m key value
    (r.1, attempts, r.2)
  | m, attempts, rem + 1 =>
    let r := ckInnerInsert m key value
    if r.2 then (r.1, attempts, true)
    else ckInsertLoop key value (ckRehash r.1) (attempts + 1) rem

/-- The load-factor trigger of `CkHashMap::insert`:
`(size+1)/capacity > 0.5`, in exact arithmetic. -/
def ckTrigger (m : CkMap K V) : Bool :=
  decide (2 * (m.size_count + 1) > m.capacity)

/-- `CkHashMap::insert`: optional load-triggered rehash, then the retry
loop; `none` models `throw std::runtime_error(...)` when
`attempts >= MAX_REHASH_ATTEMPTS` after the loop. -/
def ckInsert (m : CkMap K V) (key : K) (value : V) : Option (CkMap K V) :=
  let m0 := if ckTrigger m then ckRehash m else m
  let r := ckInsertLoop key value m0 0 8
  if r.2.1 ≥ 8 then none else some r.1

/-- `CkHashMap::at` (`none` models `throw std::out_of_range`). -/
def ckAt (m : CkMap K V) (key : K) : Option V :=
  let s1 := m.table1.getD (ckHash1 m key) none
  if ckSlotKeyIs s1 key then s1.map Prod.snd
  else
    let s2 := m.table2.getD (ckHash2 m key) none
    if ckSlotKeyIs s2 key then s2.map Prod.snd
    else none

/-- `CkHashMap::contains_key`. -/
def ckContains (m : CkMap K V) (key : K) : Bool :=
  ckSlotKeyIs (m.table1.getD (ckHash1 m key) none) key ||
  ckSlotKeyIs (m.table2.getD (ckHash2 m key) none) key

/-- `CkHashMap::remove`. -/
def ckRemove (m : CkMap K V) (key : K) : Option V × CkMap K V :=
  let pos1 := ckHash1 m key
  let s1 := m.table1.getD pos1 none
  if ckSlotKeyIs s1 key then
    (s1.map Prod.snd,
     { m with table1 := m.table1.set pos1 none, size_count := m.size_count - 1 })
  else
    let pos2 := ckHash2 m key
    let s2 := m.table2.getD pos2 none
    if ckSlotKeyIs s2 key then
      (s2.map Prod.snd,
       { m with table2 := m.table2.set pos2 none, size_count := m.size_count - 1 })
    else (none, m)

/-- `CkHashMap::clear`. -/
def ckClear (m : CkMap K V) : CkMap K V :=
  { m with table1 := m.table1.map (fun _ => none)
           table2 := m.table2.map (fun _ => none)
           size_count := 0 }

/-- `CkHashMap::operator[]` with `d` modelling `V{}`.  Note that the
source re-checks the positions `pos1`, `pos2` computed before the
insert, with the pre-insert hashers and capacity. -/
def ckBracket (m : CkMap K V) (key : K) (d : V) : Option (V × CkMap K V) :=
  let pos1 := ckHash1 m key
  let pos2 := ckHash2 m key
  let s1 := m.table1.getD pos1 none
  if ckSlotKeyIs s1 key then s1.map (fun kv => (kv.2, m))
  else
    let s2 := m.table2.getD pos2 none
    if ckSlotKeyIs s2 key then s2.map (fun kv => (kv.2, m))
    else
      (ckInsert m key d).bind fun m1 =>
        let t1 := m1.table1.getD pos1 none
        if ckSlotKeyIs t1 key then t1.map (fun kv => (kv.2, m1))
        else
          let t2 := m1.table2.getD pos2 none
          if ckSlotKeyIs t2 key then t2.map (fun kv => (kv.2, m1))
          else none

/-! ## Operation sequences

The public mutating operations, shared by the three variants; `idx`
is the indexing accessor `operator[]` with `d` modelling the
default-constructed `V{}`.  (`at`, `contains_key`, `size`, `empty`,
`load_factor` and `bucket_count` are `const` and cannot change the
state, so sequences of mutators reach every reachable state.) -/
inductive MapOp (K V : Type) where
  | ins (k : K) (v : V) : MapOp K V
  | del (k : K) : MapOp K V
  | clr : MapOp K V
  | idx (k : K) (d : V) : MapOp K V

/-- One public mutating operation on an `LpHashMap` (`none`: it threw). -/
def lpStep (m : LpMap K V) : MapOp K V → Option (LpMap K V)
  | .ins k v => lpInsert m k v
  | .del k => some (lpRemove m k).2
  | .clr => some (lpClear m)
  | .idx k d => (lpBracket m k d).map Prod.snd

/-- A sequence of public operations on an `LpHashMap`. -/
def lpRun : LpMap K V → List (MapOp K V) → Option (LpMap K V)
  | m, [] => some m
  | m, op :: rest => (lpStep m op).bind (lpRun · rest)

/-- One public mutating operation on an `ScHashMap`. -/
def scStep (m : ScMap K V) : MapOp K V → Option (ScMap K V)
  | .ins k v => some (scInsert m k v)
  | .del k => some (scRemove m k).2
  | .clr => some (scClear m)
  | .idx k d => (scBracket m k d).map Prod.snd

/-- A sequence of public operations on an `ScHashMap`. -/
def scRun : ScMap K V → List (MapOp K V) → Option (ScMap K V)
  | m, [] => some m
  | m, op :: rest => (scStep m op).bind (scRun · rest)

/-- One public mutating operation on a `CkHashMap` (`none`: it threw). -/
def ckStep (m : CkMap K V) : MapOp K V → Option (CkMap K V)
  | .ins k v => ckInsert m k v
  | .del k => some (ckRemove m k).2
  | .clr => some (ckClear m)
  | .idx k d => (ckBracket m k d).map Prod.snd

/-- A sequence of public operations on a `CkHashMap`. -/
def ckRun : CkMap K V → List (MapOp K V) → Option (CkMap K V)
  | m, [] => some m
  | m, op :: rest => (ckStep m op).bind (ckRun · rest)

/-! ## List helper lemmas -/

lemma getD_set_self {α : Type _} (l : List α) (i : Nat) (a d : α) (h : i < l.length) :
    (l.set i a).getD i d = a := by
  simp [List.getD, List.getElem?_set, h]

lemma getD_set_ne {α : Type _} (l : List α) {i j : Nat} (a d : α) (h : i ≠ j) :
    (l.set i a).getD j d = l.getD j d := by
  simp [List.getD, List.getElem?_set, h]

lemma getD_replicate_self {α : Type _} (n i : Nat) (a : α) :
    (List.replicate n a).getD i a = a := by
  rcases Nat.lt_or_ge i n with h | h
  · simp [List.getD, List.getElem?_replicate, h]
  · rw [List.getD, List.get?_eq_none.mpr (by simpa using h)]
    rfl

lemma lt_length_of_getD_ne {α : Type _} {l : List α} {i : Nat} {d : α}
    (h : l.getD i d ≠ d) : i < l.length := by
  by_contra hc
  rw [List.getD, List.get?_eq_none.mpr (by omega)] at h
  exact h rfl

lemma countP_set_balance {α : Type _} (p : α → Bool) (l : List α) (i : Nat) (a d : α)
    (h : i < l.length) :
    (l.set i a).countP p + (if p (l.getD i d) then 1 else 0) =
    l.countP p + (if p a then 1 else 0) := by
  induction l generalizing i with
  | nil => simp at h
  | cons x xs ih =>
    cases i with
    | zero => simp [List.countP_cons]; omega
    | succ n =>
      simp only [List.set, List.countP_cons, List.getD_cons_succ]
      have := ih n (by simpa using h)
      omega

lemma countP_pos_of_getD {α : Type _} (l : List α) (p : α → Bool) (i : Nat) (d : α)
    (h : p (l.getD i d) = true) (hd : p d = false) : 0 < l.countP p := by
  rcases Nat.lt_or_ge i l.length with hi | hi
  · rw [List.countP_pos_iff]
    refine ⟨l.getD i d, ?_, h⟩
    rw [List.getD_eq_getElem l d hi]
    exact List.getElem_mem hi
  · rw [List.getD, List.get?_eq_none.mpr (by omega)] at h
    simp [hd] at h

lemma two_le_countP_of_getD {α : Type _} (l : List α) (p : α → Bool) (i j : Nat) (d : α)
    (hij : i ≠ j) (hi : p (l.getD i d) = true) (hj : p (l.getD j d) = true)
    (hd : p d = false) : 2 ≤ l.countP p := by
  have hil : i < l.length := by
    by_contra hc
    rw [List.getD, List.get?_eq_none.mpr (by omega)] at hi
    simp [hd] at hi
  have hjl : j < l.length := by
    by_contra hc
    rw [List.getD, List.get?_eq_none.mpr (by omega)] at hj
    simp [hd] at hj
  induction l generalizing i j with
  | nil => simp at hil
  | cons x xs ih =>
    cases i with
    | zero =>
      cases j with
      | zero => exact absurd rfl hij
      | succ n =>
        simp only [List.getD_cons_zero] at hi
        simp only [List.getD_cons_succ] at hj
        have h1 : 0 < xs.countP p := countP_pos_of_getD xs p n d hj hd
        rw [List.countP_cons, hi, if_pos rfl]
        omega
    | succ n =>
      cases j with
      | zero =>
        simp only [List.getD_cons_zero] at hj
        simp only [List.getD_cons_succ] at hi
        have h1 : 0 < xs.countP p := countP_pos_of_getD xs p n d hi hd
        rw [List.countP_cons, hj, if_pos rfl]
        omega
      | succ r =>
        simp only [List.getD_cons_succ] at hi hj
        have h1 := ih n r (by omega) hi hj (by simpa using hil) (by simpa using hjl)
        rw [List.countP_cons]
        omega

lemma map_sum_set_balance {α : Type _} (f : α → Nat) (l : List α) (i : Nat) (a d : α)
    (h : i < l.length) :
    ((l.set i a).map f).sum + f (l.getD i d) = (l.map f).sum + f a := by
  induction l generalizing i with
  | nil => simp at h
  | cons x xs ih =>
    cases i with
    | zero => simp; omega
    | succ n =>
      simp only [List.set, List.map_cons, List.sum_cons, List.getD_cons_succ]
      have := ih n (by simpa using h)
      omega

lemma probe_ne_of_lt {cap idx t : Nat} (hidx : idx < cap) (ht0 : 0 < t) (ht : t < cap) :
    (idx + t) % cap ≠ idx := by
  rcases Nat.lt_or_ge (idx + t) cap with h | h
  · rw [Nat.mod_eq_of_lt h]
    omega
  · have h2 : idx + t - cap < cap := by omega
    have : (idx + t) % cap = idx + t - cap := by
      rw [Nat.mod_eq_sub_mod h, Nat.mod_eq_of_lt h2]
    omega

/-- The index distance from `start` to `i` along the wrapping probe
sequence modulo `cap`. -/
def probeDist (cap start i : Nat) : Nat :=
  if start ≤ i then i - start else i + cap - start

lemma probe_add_dist {cap start i : Nat} (hs : start < cap) (hi : i < cap) :
    (start + probeDist cap start i) % cap = i := by
  unfold probeDist
  split
  · rw [Nat.mod_eq_of_lt (by omega)]
    omega
  · have h1 : start + (i + cap - start) = i + cap := by omega
    rw [h1, Nat.add_mod_right, Nat.mod_eq_of_lt hi]

lemma probeDist_lt {cap start i : Nat} (hs : start < cap) (hi : i < cap) :
    probeDist cap start i < cap := by
  unfold probeDist
  split <;> omega

/-! ## Linear-probing map: probe lemmas -/

lemma lpFindLookupAux_zero (m : LpMap K V) (key : K) (idx : Nat) :
    lpFindLookupAux m key idx 0 = none := rfl

lemma lpFindLookupAux_empty {m : LpMap K V} {key : K} {idx : Nat} (fuel : Nat)
    (h : m.table.getD idx .empty = .empty) :
    lpFindLookupAux m key idx (fuel + 1) = none := by
  simp only [lpFindLookupAux, h]

lemma lpFindLookupAux_occ_hit {m : LpMap K V} {key : K} {idx : Nat} {k : K} {v : V}
    (fuel : Nat) (h : m.table.getD idx .empty = .occupied k v) (hk : k = key) :
    lpFindLookupAux m key idx (fuel + 1) = some idx := by
  simp only [lpFindLookupAux, h, hk, if_pos]

lemma lpFindLookupAux_occ_miss {m : LpMap K V} {key : K} {idx : Nat} {k : K} {v : V}
    (fuel : Nat) (h : m.table.getD idx .empty = .occupied k v) (hk : k ≠ key) :
    lpFindLookupAux m key idx (fuel + 1) =
      lpFindLookupAux m key ((idx + 1) % m.capacity) fuel := by
  simp only [lpFindLookupAux, h, if_neg hk]

lemma lpFindLookupAux_del {m : LpMap K V} {key : K} {idx : Nat} {k : K} {v : V}
    (fuel : Nat) (h : m.table.getD idx .empty = .deleted k v) :
    lpFindLookupAux m key idx (fuel + 1) =
      lpFindLookupAux m key ((idx + 1) % m.capacity) fuel := by
  simp only [lpFindLookupAux, h]

lemma lpFindInsertAux_occ_hit {m : LpMap K V} {key : K} {idx : Nat} {k : K} {v : V}
    (fuel : Nat) (h : m.table.getD idx .empty = .occupied k v) (hk : k = key) :
    lpFindInsertAux m key idx (fuel + 1) = some idx := by
  simp only [lpFindInsertAux, h, hk, if_pos]

lemma lpFindInsertAux_occ_miss {m : LpMap K V} {key : K} {idx : Nat} {k : K} {v : V}
    (fuel : Nat) (h : m.table.getD idx .empty = .occupied k v) (hk : k ≠ key) :
    lpFindInsertAux m key idx (fuel + 1) =
      lpFindInsertAux m key ((idx + 1) % m.capacity) fuel := by
  simp only [lpFindInsertAux, h, if_neg hk]

lemma lpFindInsertAux_free {m : LpMap K V} {key : K} {idx : Nat} (fuel : Nat)
    (h : lpIsOccupied (m.table.getD idx .empty) = false) :
    lpFindInsertAux m key idx (fuel + 1) = some idx := by
  rcases hs : m.table.getD idx .empty with _ | ⟨k, v⟩ | ⟨k, v⟩
  · simp only [lpFindInsertAux, hs]
  · rw [hs] at h
    simp [lpIsOccupied] at h
  · simp only [lpFindInsertAux, hs]

/-- Well-formedness of an `LpHashMap` state: the table has `capacity`
slots and the capacity is positive. -/
def lpWf (m : LpMap K V) : Prop := m.table.length = m.capacity ∧ 0 < m.capacity

lemma lpFindInsertAux_shape (m : LpMap K V) (key : K) :
    ∀ fuel idx i, idx < m.capacity → lpFindInsertAux m key idx fuel = some i →
      ∃ s, s < fuel ∧ i = (idx + s) % m.capacity ∧
        ∀ t, t < s → lpIsOccupied (m.table.getD ((idx + t) % m.capacity) .empty) = true ∧
          lpSlotKeyIs (m.table.getD ((idx + t) % m.capacity) .empty) key = false := by
  intro fuel
  induction fuel with
  | zero => intro idx i _ h; simp [lpFindInsertAux] at h
  | succ f ih =>
    intro idx i hidx h
    have hcap : 0 < m.capacity := by omega
    rcases hs : m.table.getD idx .empty with _ | ⟨k, v⟩ | ⟨k, v⟩
    · rw [lpFindInsertAux_free f (by rw [hs]; rfl)] at h
      refine ⟨0, by omega, ?_, by omega⟩
      rw [← Option.some_inj.mp h, Nat.add_zero, Nat.mod_eq_of_lt hidx]
    · by_cases hk : k = key
      · rw [lpFindInsertAux_occ_hit f hs hk] at h
        refine ⟨0, by omega, ?_, by omega⟩
        rw [← Option.some_inj.mp h, Nat.add_zero, Nat.mod_eq_of_lt hidx]
      · rw [lpFindInsertAux_occ_miss f hs hk] at h
        obtain ⟨s, hsf, hi, hpre⟩ := ih ((idx + 1) % m.capacity) i (Nat.mod_lt _ hcap) h
        refine ⟨s + 1, by omega, ?_, ?_⟩
        · rw [hi, Nat.mod_add_mod]
          ring_nf
        · intro t ht
          rcases t with _ | t
          · rw [Nat.add_zero, Nat.mod_eq_of_lt hidx, hs]
            constructor
            · rfl
            · simp [lpSlotKeyIs, hk]
          · have := hpre t (by omega)
            rwa [Nat.mod_add_mod, show (idx + 1 + t) = idx + (t + 1) by ring] at this
    · rw [lpFindInsertAux_free f (by rw [hs]; rfl)] at h
      refine ⟨0, by omega, ?_, by omega⟩
      rw [← Option.some_inj.mp h, Nat.add_zero, Nat.mod_eq_of_lt hidx]

lemma lpFindInsert_lookup_set (m : LpMap K V) (key : K) (v : V)
    (hlen : m.table.length = m.capacity) :
    ∀ fuel idx i, idx < m.capacity → fuel ≤ m.capacity →
      lpFindInsertAux m key idx fuel = some i →
      ∀ (m2 : LpMap K V), m2.capacity = m.capacity →
        m2.table = m.table.set i (.occupied key v) →
        lpFindLookupAux m2 key idx fuel = some i := by
  intro fuel
  induction fuel with
  | zero => intro idx i _ _ h; simp [lpFindInsertAux] at h
  | succ f ih =>
    intro idx i hidx hfuel h m2 hc2 ht2
    have hcap : 0 < m.capacity := by omega
    have hgd2 : ∀ j, j ≠ i → m2.table.getD j .empty = m.table.getD j .empty := by
      intro j hj
      rw [ht2]
      exact getD_set_ne _ _ _ (fun hh => hj hh.symm)
    rcases hs : m.table.getD idx .empty with _ | ⟨k, vv⟩ | ⟨k, vv⟩
    · rw [lpFindInsertAux_free f (by rw [hs]; rfl)] at h
      obtain rfl : idx = i := Option.some_inj.mp h
      have : m2.table.getD idx .empty = .occupied key v := by
        rw [ht2]
        exact getD_set_self _ _ _ _ (by omega)
      exact lpFindLookupAux_occ_hit f this rfl
    · by_cases hk : k = key
      · rw [lpFindInsertAux_occ_hit f hs hk] at h
        obtain rfl : idx = i := Option.some_inj.mp h
        have : m2.table.getD idx .empty = .occupied key v := by
          rw [ht2]
          exact getD_set_self _ _ _ _ (by omega)
        exact lpFindLookupAux_occ_hit f this rfl
      · rw [lpFindInsertAux_occ_miss f hs hk] at h
        have hne : i ≠ idx := by
          obtain ⟨s, hsf, hi, _⟩ :=
            lpFindInsertAux_shape m key f ((idx + 1) % m.capacity) i (Nat.mod_lt _ hcap) h
          rw [hi, Nat.mod_add_mod, show (idx + 1 + s) = idx + (1 + s) by ring]
          exact probe_ne_of_lt hidx (by omega) (by omega)
        have hslot2 : m2.table.getD idx .empty = .occupied k vv := by
          rw [hgd2 idx (fun hh => hne hh.symm), hs]
        rw [lpFindLookupAux_occ_miss f hslot2 hk, hc2]
        exact ih ((idx + 1) % m.capacity) i (Nat.mod_lt _ hcap) (by omega) h m2 hc2 ht2
    · rw [lpFindInsertAux_free f (by rw [hs]; rfl)] at h
      obtain rfl : idx = i := Option.some_inj.mp h
      have : m2.table.getD idx .empty = .occupied key v := by
        rw [ht2]
        exact getD_set_self _ _ _ _ (by omega)
      exact lpFindLookupAux_occ_hit f this rfl

lemma lpInnerInsert_table {m : LpMap K V} {k : K} {v : V} {m2 : LpMap K V}
    (h : lpInnerInsert m k v = some m2) :
    ∃ i, lpFindSlotForInsert m k = some i ∧
      m2.table = m.table.set i (.occupied k v) ∧
      m2.capacity = m.capacity ∧ m2.hasher = m.hasher ∧
      m2.size_count ≤ m.size_count + 1 ∧ m.size_count ≤ m2.size_count := by
  unfold lpInnerInsert at h
  rcases hf : lpFindSlotForInsert m k with _ | i
  · rw [hf] at h
    exact absurd h (by simp)
  · rw [hf] at h
    simp only [] at h
    refine ⟨i, rfl, ?_⟩
    rcases hs : m.table.getD i .empty with _ | ⟨k0, v0⟩ | ⟨k0, v0⟩ <;> rw [hs] at h <;>
      simp only [] at h
    · obtain rfl := Option.some_inj.mp h.symm
      simp
    · by_cases hk : k0 = k
      · rw [if_pos hk] at h
        obtain rfl := Option.some_inj.mp h.symm
        subst hk
        simp
      · rw [if_neg hk] at h
        obtain rfl := Option.some_inj.mp h.symm
        simp
    · obtain rfl := Option.some_inj.mp h.symm
      simp

omit [DecidableEq K] in
lemma lpGetHash_congr {m m2 : LpMap K V} (key : K)
    (hc : m2.capacity = m.capacity) (hh : m2.hasher = m.hasher) :
    lpGetHash m2 key = lpGetHash m key := by
  unfold lpGetHash
  rw [hc, hh]

lemma lpInnerInsert_at {m : LpMap K V} {k : K} {v : V} {m2 : LpMap K V}
    (hwf : lpWf m) (h : lpInnerInsert m k v = some m2) :
    lpAt m2 k = some v ∧ lpContains m2 k = true := by
  obtain ⟨i, hfind, htab, hcap, hhash, _, _⟩ := lpInnerInsert_table h
  have hstart : lpGetHash m k < m.capacity := Nat.mod_lt _ hwf.2
  have hlook : lpFindLookupAux m2 k (lpGetHash m k) m.capacity = some i :=
    lpFindInsert_lookup_set m k v hwf.1 m.capacity (lpGetHash m k) i hstart
      (le_refl _) hfind m2 hcap htab
  have hi : i < m.capacity := by
    obtain ⟨s, _, hi, _⟩ :=
      lpFindInsertAux_shape m k m.capacity (lpGetHash m k) i hstart hfind
    rw [hi]
    exact Nat.mod_lt _ hwf.2
  have hfull : lpFindSlotForLookup m2 k = some i := by
    unfold lpFindSlotForLookup
    rw [lpGetHash_congr k hcap hhash, hcap]
    exact hlook
  have hslot : m2.table.getD i .empty = .occupied k v := by
    rw [htab]
    exact getD_set_self _ _ _ _ (by rw [hwf.1]; exact hi)
  constructor
  · simp only [lpAt, hfull, hslot]
  · simp only [lpContains, hfull, Option.isSome_some]

lemma lpReinsert_fields {l : List (LpSlot K V)} :
    ∀ {m m2 : LpMap K V}, lpReinsert m l = some m2 →
      m2.capacity = m.capacity ∧ m2.hasher = m.hasher ∧
      m2.table.length = m.table.length := by
  induction l with
  | nil =>
    intro m m2 h
    obtain rfl := Option.some_inj.mp h.symm
    exact ⟨rfl, rfl, rfl⟩
  | cons s rest ih =>
    intro m m2 h
    rcases s with _ | ⟨k, v⟩ | ⟨k, v⟩
    · exact ih h
    · rw [lpReinsert] at h
      rcases hmid : lpInnerInsert m k v with _ | mmid
      · rw [hmid] at h
        exact absurd h (by simp)
      · rw [hmid] at h
        simp only [Option.some_bind] at h
        obtain ⟨i, _, htab, hcap, hhash, _, _⟩ := lpInnerInsert_table hmid
        obtain ⟨h1, h2, h3⟩ := ih h
        refine ⟨h1.trans hcap, h2.trans hhash, h3.trans ?_⟩
        rw [htab, List.length_set]
    · exact ih h

lemma lpRehash_fields {m m2 : LpMap K V} (h : lpRehash m = some m2) :
    m2.capacity = m.capacity * 2 ∧ m2.hasher = m.hasher ∧
    m2.table.length = m.capacity * 2 := by
  unfold lpRehash at h
  obtain ⟨h1, h2, h3⟩ := lpReinsert_fields h
  refine ⟨h1, h2, ?_⟩
  rw [h3]
  exact List.length_replicate _ _

lemma lpInsert_at {m : LpMap K V} {k : K} {v : V} {m2 : LpMap K V}
    (hwf : lpWf m) (h : lpInsert m k v = some m2) :
    lpAt m2 k = some v ∧ lpContains m2 k = true := by
  unfold lpInsert at h
  by_cases ht : lpTrigger m
  · rw [ht] at h
    simp only [if_pos] at h
    rcases hre : lpRehash m with _ | m1
    · rw [hre] at h
      exact absurd h (by simp)
    · rw [hre] at h
      simp only [Option.some_bind] at h
      obtain ⟨h1, _, h3⟩ := lpRehash_fields hre
      exact lpInnerInsert_at ⟨by rw [h3, h1], by rw [h1]; have := hwf.2; omega⟩ h
  · rw [Bool.not_eq_true] at ht
    rw [ht] at h
    simp only [Bool.false_eq_true, if_false, Option.some_bind] at h
    exact lpInnerInsert_at hwf h

lemma lpFindLookupAux_found (m : LpMap K V) (key : K) :
    ∀ fuel idx i, lpFindLookupAux m key idx fuel = some i →
      ∃ v0, m.table.getD i .empty = .occupied key v0 := by
  intro fuel
  induction fuel with
  | zero => intro idx i h; simp [lpFindLookupAux] at h
  | succ f ih =>
    intro idx i h
    rcases hs : m.table.getD idx .empty with _ | ⟨k, v⟩ | ⟨k, v⟩
    · rw [lpFindLookupAux_empty f hs] at h
      exact absurd h (by simp)
    · by_cases hk : k = key
      · rw [lpFindLookupAux_occ_hit f hs hk] at h
        obtain rfl : idx = i := Option.some_inj.mp h
        subst hk
        exact ⟨v, hs⟩
      · rw [lpFindLookupAux_occ_miss f hs hk] at h
        exact ih _ _ h
    · rw [lpFindLookupAux_del f hs] at h
      exact ih _ _ h

lemma lpFindSlotForLookup_found {m : LpMap K V} {key : K} {i : Nat}
    (h : lpFindSlotForLookup m key = some i) :
    ∃ v0, m.table.getD i .empty = .occupied key v0 :=
  lpFindLookupAux_found m key m.capacity (lpGetHash m key) i h

lemma lpFindLookupAux_tombstone (m m3 : LpMap K V) (k1 k2 : K) (v1 : V) (j : Nat)
    (hne : k1 ≠ k2)
    (hcap : m3.capacity = m.capacity)
    (htab : m3.table = m.table.set j (.deleted k1 v1))
    (hj : m.table.getD j .empty = .occupied k1 v1) :
    ∀ fuel idx, lpFindLookupAux m3 k2 idx fuel = lpFindLookupAux m k2 idx fuel := by
  intro fuel
  induction fuel with
  | zero => intro idx; rfl
  | succ f ih =>
    intro idx
    have hjlen : j < m.table.length := lt_length_of_getD_ne (by rw [hj]; simp)
    by_cases hij : idx = j
    · subst hij
      have h3 : m3.table.getD idx .empty = .deleted k1 v1 := by
        rw [htab]
        exact getD_set_self _ _ _ _ hjlen
      rw [lpFindLookupAux_del f h3, lpFindLookupAux_occ_miss f hj hne, hcap]
      exact ih _
    · have h3 : m3.table.getD idx .empty = m.table.getD idx .empty := by
        rw [htab]
        exact getD_set_ne _ _ _ (fun hh => hij hh.symm)
      rcases hs : m.table.getD idx .empty with _ | ⟨k, v⟩ | ⟨k, v⟩
      · rw [lpFindLookupAux_empty f hs, lpFindLookupAux_empty f (h3.trans hs)]
      · by_cases hk : k = k2
        · rw [lpFindLookupAux_occ_hit f hs hk, lpFindLookupAux_occ_hit f (h3.trans hs) hk]
        · rw [lpFindLookupAux_occ_miss f hs hk, lpFindLookupAux_occ_miss f (h3.trans hs) hk,
            hcap]
          exact ih _
      · rw [lpFindLookupAux_del f hs, lpFindLookupAux_del f (h3.trans hs), hcap]
        exact ih _

lemma lpRemove_transparent (m : LpMap K V) (k1 k2 : K) (hne : k1 ≠ k2) :
    lpAt (lpRemove m k1).2 k2 = lpAt m k2 ∧
    lpContains (lpRemove m k1).2 k2 = lpContains m k2 := by
  rcases hf : lpFindSlotForLookup m k1 with _ | j
  · have hsame : (lpRemove m k1).2 = m := by
      simp only [lpRemove, hf]
    rw [hsame]
    exact ⟨rfl, rfl⟩
  · obtain ⟨v1, hj⟩ := lpFindSlotForLookup_found hf
    have hrem : (lpRemove m k1).2.table = m.table.set j (.deleted k1 v1) ∧
        (lpRemove m k1).2.capacity = m.capacity ∧
        (lpRemove m k1).2.hasher = m.hasher := by
      simp only [lpRemove, hf, hj]
      exact ⟨trivial, trivial, trivial⟩
    obtain ⟨htab, hcap, hhash⟩ := hrem
    have hlook : ∀ fuel idx,
        lpFindLookupAux (lpRemove m k1).2 k2 idx fuel = lpFindLookupAux m k2 idx fuel :=
      lpFindLookupAux_tombstone m _ k1 k2 v1 j hne hcap htab hj
    have hfull : lpFindSlotForLookup (lpRemove m k1).2 k2 = lpFindSlotForLookup m k2 := by
      unfold lpFindSlotForLookup
      rw [lpGetHash_congr k2 hcap hhash, hcap]
      exact hlook _ _
    constructor
    · rcases hf2 : lpFindSlotForLookup m k2 with _ | i
      · have hA : lpAt m k2 = none := by simp only [lpAt, hf2]
        have hB : lpAt (lpRemove m k1).2 k2 = none := by
          simp only [lpAt, hfull, hf2]
        rw [hA, hB]
      · obtain ⟨v2, hi⟩ := lpFindSlotForLookup_found hf2
        have hij : i ≠ j := by
          intro hh
          rw [hh, hj] at hi
          exact hne (LpSlot.occupied.inj hi).1
        have hslotB : (lpRemove m k1).2.table.getD i .empty = .occupied k2 v2 := by
          rw [htab, getD_set_ne _ _ _ (fun hh => hij hh.symm)]
          exact hi
        have hA : lpAt m k2 = some v2 := by simp only [lpAt, hf2, hi]
        have hB : lpAt (lpRemove m k1).2 k2 = some v2 := by
          simp only [lpAt, hfull, hf2, hslotB]
        rw [hA, hB]
    · unfold lpContains
      rw [hfull]

/-! ## Chaining map lemmas -/

/-- Well-formedness of an `ScHashMap` state. -/
def scWf (m : ScMap K V) : Prop := m.buckets.length = m.capacity ∧ 0 < m.capacity

lemma scBucketUpsert_find (b : List (K × V)) (k : K) (v : V) :
    scBucketFind (scBucketUpsert b k v).1 k = some v := by
  induction b with
  | nil => simp [scBucketUpsert, scBucketFind]
  | cons e rest ih =>
    rcases e with ⟨k0, v0⟩
    by_cases hk : k0 = k
    · simp [scBucketUpsert, scBucketFind, hk]
    · simp only [scBucketUpsert, if_neg hk]
      simp only [scBucketFind, if_neg hk]
      exact ih

lemma scFoldInsert_fields (b : List (K × V)) :
    ∀ m : ScMap K V,
      (b.foldl (fun acc e => scInnerInsert acc e.1 e.2) m).capacity = m.capacity ∧
      (b.foldl (fun acc e => scInnerInsert acc e.1 e.2) m).hasher = m.hasher ∧
      (b.foldl (fun acc e => scInnerInsert acc e.1 e.2) m).buckets.length =
        m.buckets.length := by
  induction b with
  | nil => intro m; exact ⟨rfl, rfl, rfl⟩
  | cons e rest ih =>
    intro m
    obtain ⟨h1, h2, h3⟩ := ih (scInnerInsert m e.1 e.2)
    rw [List.foldl_cons]
    refine ⟨h1.trans rfl, h2.trans rfl, h3.trans ?_⟩
    simp [scInnerInsert, List.length_set]

lemma scReinsert_fields (l : List (List (K × V))) :
    ∀ m : ScMap K V,
      (scReinsert m l).capacity = m.capacity ∧
      (scReinsert m l).hasher = m.hasher ∧
      (scReinsert m l).buckets.length = m.buckets.length := by
  induction l with
  | nil => intro m; exact ⟨rfl, rfl, rfl⟩
  | cons b rest ih =>
    intro m
    rw [scReinsert]
    obtain ⟨h1, h2, h3⟩ := ih (b.foldl (fun acc e => scInnerInsert acc e.1 e.2) m)
    obtain ⟨g1, g2, g3⟩ := scFoldInsert_fields b m
    exact ⟨h1.trans g1, h2.trans g2, h3.trans g3⟩

lemma scInnerInsert_at {m : ScMap K V} (hwf : scWf m) (k : K) (v : V) :
    scAt (scInnerInsert m k v) k = some v := by
  have hidx : scBucketIndex m k < m.capacity := Nat.mod_lt _ hwf.2
  have hidx2 : scBucketIndex (scInnerInsert m k v) k = scBucketIndex m k := rfl
  unfold scAt
  rw [hidx2]
  have : (scInnerInsert m k v).buckets.getD (scBucketIndex m k) [] =
      (scBucketUpsert (m.buckets.getD (scBucketIndex m k) []) k v).1 := by
    simp only [scInnerInsert]
    exact getD_set_self _ _ _ _ (by rw [hwf.1]; exact hidx)
  rw [this]
  exact scBucketUpsert_find _ k v

lemma scInsert_at {m : ScMap K V} (hwf : scWf m) (k : K) (v : V) :
    scAt (scInsert m k v) k = some v ∧ scContains (scInsert m k v) k = true := by
  have hmain : scAt (scInsert m k v) k = some v := by
    unfold scInsert
    by_cases ht : scTrigger m
    · rw [if_pos ht]
      obtain ⟨h1, _, h3⟩ := scReinsert_fields m.buckets
        { m with capacity := m.capacity * 2
                 buckets := List.replicate (m.capacity * 2) []
                 size_count := 0 }
      refine scInnerInsert_at ⟨?_, ?_⟩ k v
      · show (scResize m).buckets.length = (scResize m).capacity
        unfold scResize
        rw [h1, h3]
        simp
      · show 0 < (scResize m).capacity
        unfold scResize
        rw [h1]
        simp only []
        have := hwf.2
        omega
    · rw [if_neg ht]
      exact scInnerInsert_at hwf k v
  refine ⟨hmain, ?_⟩
  unfold scContains
  rw [hmain]
  rfl

/-! ## Cuckoo map: invariants -/

/-- Number of occupied slots over both tables. -/
def ckOcc (m : CkMap K V) : Nat :=
  m.table1.countP Option.isSome + m.table2.countP Option.isSome

/-- Number of occupied slots holding key `q`, over both tables. -/
def ckKeyCount (m : CkMap K V) (q : K) : Nat :=
  m.table1.countP (fun s => ckSlotKeyIs s q) + m.table2.countP (fun s => ckSlotKeyIs s q)

/-- Well-formedness: both tables have `capacity` slots, capacity positive. -/
def ckWf (m : CkMap K V) : Prop :=
  m.table1.length = m.capacity ∧ m.table2.length = m.capacity ∧ 0 < m.capacity

/-- Canonical placement: an occupied slot of table `i` sits at its key's
`hash_i(key) mod capacity` position. -/
def ckCanon (m : CkMap K V) : Prop :=
  (∀ i kv, m.table1.getD i none = some kv → i = ckHash1 m kv.1) ∧
  (∀ i kv, m.table2.getD i none = some kv → i = ckHash2 m kv.1)

/-- Key uniqueness across the live entries of both tables. -/
def ckUniq (m : CkMap K V) : Prop := ∀ q : K, ckKeyCount m q ≤ 1

/-- The maintained state invariant of the cuckoo map. -/
def ckGood (m : CkMap K V) : Prop := ckWf m ∧ ckCanon m ∧ ckUniq m

/-- The fields of a cuckoo map not touched by an eviction walk. -/
def ckFixed (m m2 : CkMap K V) : Prop :=
  m2.capacity = m.capacity ∧ m2.hasher1 = m.hasher1 ∧ m2.hasher2 = m.hasher2 ∧
  m2.seeds = m.seeds ∧ m2.epoch = m.epoch

omit [DecidableEq K] in
lemma ckFixed_refl (m : CkMap K V) : ckFixed m m := ⟨rfl, rfl, rfl, rfl, rfl⟩

omit [DecidableEq K] in
lemma ckFixed_trans {m1 m2 m3 : CkMap K V} (h : ckFixed m1 m2) (h2 : ckFixed m2 m3) :
    ckFixed m1 m3 :=
  ⟨h2.1.trans h.1, h2.2.1.trans h.2.1, h2.2.2.1.trans h.2.2.1,
   h2.2.2.2.1.trans h.2.2.2.1, h2.2.2.2.2.trans h.2.2.2.2⟩

omit [DecidableEq K] in
lemma ckFixed_hash {m m2 : CkMap K V} (h : ckFixed m m2) (q : K) :
    ckHash1 m2 q = ckHash1 m q ∧ ckHash2 m2 q = ckHash2 m q := by
  unfold ckHash1 ckHash2
  rw [h.1, h.2.1, h.2.2.1]
  exact ⟨rfl, rfl⟩

lemma ckSlotKeyIs_some {kv : K × V} {q : K} :
    ckSlotKeyIs (some kv) q = true ↔ kv.1 = q := by
  simp [ckSlotKeyIs]

lemma ckSlotKeyIs_none (q : K) : ckSlotKeyIs (none : Option (K × V)) q = false := rfl

/-- If an occupied slot of a list holds key `q`, the key count of that
list is positive. -/
lemma ck_countP_pos {t : List (Option (K × V))} {i : Nat} {q : K}
    (h : ckSlotKeyIs (t.getD i none) q = true) :
    0 < t.countP (fun s => ckSlotKeyIs s q) :=
  countP_pos_of_getD t _ i none h (ckSlotKeyIs_none q)

/-- If neither canonical slot of `k` holds `k`, then `k` is nowhere in
the tables (canonical placement rules out other slots). -/
lemma ckKeyCount_zero {m : CkMap K V} (hcanon : ckCanon m) {k : K}
    (h1 : ckSlotKeyIs (m.table1.getD (ckHash1 m k) none) k = false)
    (h2 : ckSlotKeyIs (m.table2.getD (ckHash2 m k) none) k = false) :
    ckKeyCount m k = 0 := by
  unfold ckKeyCount
  have e1 : m.table1.countP (fun s => ckSlotKeyIs s k) = 0 := by
    by_contra hc
    obtain ⟨s, hmem, hkey⟩ := List.countP_pos_iff.mp (Nat.pos_of_ne_zero hc)
    obtain ⟨i, hilen, hieq⟩ := List.mem_iff_getElem.mp hmem
    rcases s with _ | kv
    · exact absurd hkey (by simp [ckSlotKeyIs])
    · have hgd : m.table1.getD i none = some kv := by
        rw [List.getD_eq_getElem _ _ hilen, hieq]
      have hcan := hcanon.1 i kv hgd
      rw [ckSlotKeyIs_some.mp hkey] at hcan
      rw [hcan] at hgd
      rw [hgd] at h1
      rw [hkey] at h1
      exact absurd h1 (by simp)
  have e2 : m.table2.countP (fun s => ckSlotKeyIs s k) = 0 := by
    by_contra hc
    obtain ⟨s, hmem, hkey⟩ := List.countP_pos_iff.mp (Nat.pos_of_ne_zero hc)
    obtain ⟨i, hilen, hieq⟩ := List.mem_iff_getElem.mp hmem
    rcases s with _ | kv
    · exact absurd hkey (by simp [ckSlotKeyIs])
    · have hgd : m.table2.getD i none = some kv := by
        rw [List.getD_eq_getElem _ _ hilen, hieq]
      have hcan := hcanon.2 i kv hgd
      rw [ckSlotKeyIs_some.mp hkey] at hcan
      rw [hcan] at hgd
      rw [hgd] at h2
      rw [hkey] at h2
      exact absurd h2 (by simp)
  omega

lemma ckKeyCount_split {m : CkMap K V} {q : K} (h : ckKeyCount m q = 0) :
    m.table1.countP (fun s => ckSlotKeyIs s q) = 0 ∧
    m.table2.countP (fun s => ckSlotKeyIs s q) = 0 := by
  unfold ckKeyCount at h
  omega

lemma ckPlace1_spec (m : CkMap K V) (cur : K × V)
    (hgood : ckGood m) (hcnt : ckKeyCount m cur.1 = 0)
    (hs : m.table1.getD (ckHash1 m cur.1) none = none) :
    ckFixed m { m with table1 := m.table1.set (ckHash1 m cur.1) (some cur)
                       size_count := m.size_count + 1 } ∧
    ckGood { m with table1 := m.table1.set (ckHash1 m cur.1) (some cur)
                    size_count := m.size_count + 1 } ∧
    ckOcc { m with table1 := m.table1.set (ckHash1 m cur.1) (some cur)
                   size_count := m.size_count + 1 } = ckOcc m + 1 ∧
    ∀ q, ckAt { m with table1 := m.table1.set (ckHash1 m cur.1) (some cur)
                       size_count := m.size_count + 1 } q =
      if q = cur.1 then some cur.2 else ckAt m q := by
  obtain ⟨hwf, hcanon, huniq⟩ := hgood
  set p1 := ckHash1 m cur.1 with hp1
  set m2 : CkMap K V :=
    { m with table1 := m.table1.set p1 (some cur), size_count := m.size_count + 1 }
    with hm2
  have hplt : p1 < m.table1.length := by
    rw [hwf.1]
    exact Nat.mod_lt _ hwf.2.2
  have hget_self : m2.table1.getD p1 none = some cur := getD_set_self _ _ _ _ hplt
  have hget_ne : ∀ j, j ≠ p1 → m2.table1.getD j none = m.table1.getD j none := by
    intro j hj
    exact getD_set_ne _ _ _ (fun hh => hj hh.symm)
  have hfix : ckFixed m m2 := ⟨rfl, rfl, rfl, rfl, rfl⟩
  have hhash1 : ∀ q, ckHash1 m2 q = ckHash1 m q := fun q => (ckFixed_hash hfix q).1
  have hhash2 : ∀ q, ckHash2 m2 q = ckHash2 m q := fun q => (ckFixed_hash hfix q).2
  have ht2 : m2.table2 = m.table2 := rfl
  have hbal : ∀ p : Option (K × V) → Bool, p none = false →
      m2.table1.countP p = m.table1.countP p + (if p (some cur) then 1 else 0) := by
    intro p hp
    have hb := countP_set_balance p m.table1 p1 (some cur) none hplt
    rw [hs, hp] at hb
    simp only [Bool.false_eq_true, if_false] at hb
    show (m.table1.set p1 (some cur)).countP p = _
    omega
  refine ⟨hfix, ⟨⟨?_, ?_, ?_⟩, ⟨?_, ?_⟩, ?_⟩, ?_, ?_⟩
  · show (m.table1.set p1 (some cur)).length = m.capacity
    rw [List.length_set]
    exact hwf.1
  · exact hwf.2.1
  · exact hwf.2.2
  · intro i kv hkv
    rw [hhash1]
    by_cases hip : i = p1
    · subst hip
      rw [hget_self] at hkv
      obtain rfl := Option.some_inj.mp hkv
      exact hp1
    · exact hcanon.1 i kv ((hget_ne i hip) ▸ hkv)
  · intro i kv hkv
    rw [hhash2]
    exact hcanon.2 i kv hkv
  · intro q
    unfold ckKeyCount
    rw [hbal _ (ckSlotKeyIs_none q)]
    by_cases hq : q = cur.1
    · subst hq
      obtain ⟨e1, e2⟩ := ckKeyCount_split hcnt
      rw [show m2.table2 = m.table2 from rfl, e1, e2]
      have hcc : ckSlotKeyIs (some cur) cur.1 = true := ckSlotKeyIs_some.mpr rfl
      rw [hcc, if_pos rfl]
    · have : ckSlotKeyIs (some cur) q = false := by
        simp [ckSlotKeyIs]
        exact fun hh => hq hh.symm
      rw [this]
      simp only [Bool.false_eq_true, if_false]
      have hu := huniq q
      unfold ckKeyCount at hu
      rw [show m2.table2 = m.table2 from rfl]
      omega
  · show m2.table1.countP Option.isSome + m2.table2.countP Option.isSome =
      m.table1.countP Option.isSome + m.table2.countP Option.isSome + 1
    rw [hbal Option.isSome rfl, show m2.table2 = m.table2 from rfl]
    norm_num
    omega
  · intro q
    by_cases hq : q = cur.1
    · subst hq
      rw [if_pos rfl]
      unfold ckAt
      rw [hhash1, ← hp1, hget_self]
      simp [ckSlotKeyIs]
    · rw [if_neg hq]
      unfold ckAt
      rw [hhash1, hhash2, ht2]
      by_cases hqp : ckHash1 m q = p1
      · rw [hqp, hget_self, hs]
        have hck : ckSlotKeyIs (some cur) q = false := by
          simp [ckSlotKeyIs]
          exact fun hh => hq hh.symm
        simp only [hck, ckSlotKeyIs_none, Bool.false_eq_true, if_false]
      · rw [hget_ne _ hqp]

lemma ckSwap1_spec (m : CkMap K V) (cur old : K × V)
    (hgood : ckGood m) (hcnt : ckKeyCount m cur.1 = 0)
    (hs : m.table1.getD (ckHash1 m cur.1) none = some old) :
    ckFixed m { m with table1 := m.table1.set (ckHash1 m cur.1) (some cur) } ∧
    ckGood { m with table1 := m.table1.set (ckHash1 m cur.1) (some cur) } ∧
    ckOcc { m with table1 := m.table1.set (ckHash1 m cur.1) (some cur) } = ckOcc m ∧
    ckKeyCount { m with table1 := m.table1.set (ckHash1 m cur.1) (some cur) } old.1 = 0 ∧
    cur.1 ≠ old.1 ∧
    ckAt { m with table1 := m.table1.set (ckHash1 m cur.1) (some cur) } cur.1 = some cur.2 ∧
    ckAt m old.1 = some old.2 ∧
    (∀ q, q ≠ cur.1 → q ≠ old.1 →
      ckAt { m with table1 := m.table1.set (ckHash1 m cur.1) (some cur) } q = ckAt m q) := by
  obtain ⟨hwf, hcanon, huniq⟩ := hgood
  set p1 := ckHash1 m cur.1 with hp1
  set m2 : CkMap K V := { m with table1 := m.table1.set p1 (some cur) } with hm2
  have hplt : p1 < m.table1.length := by
    rw [hwf.1]
    exact Nat.mod_lt _ hwf.2.2
  have hget_self : m2.table1.getD p1 none = some cur := getD_set_self _ _ _ _ hplt
  have hget_ne : ∀ j, j ≠ p1 → m2.table1.getD j none = m.table1.getD j none := by
    intro j hj
    exact getD_set_ne _ _ _ (fun hh => hj hh.symm)
  have hfix : ckFixed m m2 := ⟨rfl, rfl, rfl, rfl, rfl⟩
  have hhash1 : ∀ q, ckHash1 m2 q = ckHash1 m q := fun q => (ckFixed_hash hfix q).1
  have hhash2 : ∀ q, ckHash2 m2 q = ckHash2 m q := fun q => (ckFixed_hash hfix q).2
  have ht2 : m2.table2 = m.table2 := rfl
  have hbal : ∀ p : Option (K × V) → Bool,
      m2.table1.countP p + (if p (some old) then 1 else 0) =
        m.table1.countP p + (if p (some cur) then 1 else 0) := by
    intro p
    have hb := countP_set_balance p m.table1 p1 (some cur) none hplt
    rw [hs] at hb
    exact hb
  have hpold : p1 = ckHash1 m old.1 := hcanon.1 p1 old hs
  have hneq : cur.1 ≠ old.1 := by
    intro hh
    have hpos : 0 < m.table1.countP (fun s => ckSlotKeyIs s cur.1) :=
      ck_countP_pos (by rw [hs]; exact ckSlotKeyIs_some.mpr hh.symm)
    have := (ckKeyCount_split hcnt).1
    omega
  have ht1old : m.table1.countP (fun s => ckSlotKeyIs s old.1) = 1 ∧
      m.table2.countP (fun s => ckSlotKeyIs s old.1) = 0 := by
    have hpos : 0 < m.table1.countP (fun s => ckSlotKeyIs s old.1) :=
      ck_countP_pos (by rw [hs]; exact ckSlotKeyIs_some.mpr rfl)
    have hu := huniq old.1
    unfold ckKeyCount at hu
    omega
  have hcnt2 : ckKeyCount m2 old.1 = 0 := by
    have hb := hbal (fun s => ckSlotKeyIs s old.1)
    simp only [] at hb
    rw [ckSlotKeyIs_some.mpr rfl] at hb
    have hfalse : ckSlotKeyIs (some cur) old.1 = false := by
      simp [ckSlotKeyIs]
      exact hneq
    rw [hfalse] at hb
    simp only [Bool.false_eq_true, if_false, if_pos rfl, if_true] at hb
    unfold ckKeyCount
    rw [show m2.table1 = m.table1.set p1 (some cur) from rfl,
      show m2.table2 = m.table2 from rfl]
    have := ht1old.1
    have := ht1old.2
    omega
  refine ⟨hfix, ⟨⟨?_, ?_, ?_⟩, ⟨?_, ?_⟩, ?_⟩, ?_, hcnt2, hneq, ?_, ?_, ?_⟩
  · show (m.table1.set p1 (some cur)).length = m.capacity
    rw [List.length_set]
    exact hwf.1
  · exact hwf.2.1
  · exact hwf.2.2
  · intro i kv hkv
    rw [hhash1]
    by_cases hip : i = p1
    · subst hip
      rw [hget_self] at hkv
      obtain rfl := Option.some_inj.mp hkv
      exact hp1
    · exact hcanon.1 i kv ((hget_ne i hip) ▸ hkv)
  · intro i kv hkv
    rw [hhash2]
    exact hcanon.2 i kv hkv
  · intro q
    have hb := hbal (fun s => ckSlotKeyIs s q)
    simp only [] at hb
    unfold ckKeyCount
    rw [show m2.table1 = m.table1.set p1 (some cur) from rfl,
      show m2.table2 = m.table2 from rfl]
    by_cases hq : q = cur.1
    · subst hq
      obtain ⟨e1, e2⟩ := ckKeyCount_split hcnt
      have hfo : ckSlotKeyIs (some old) cur.1 = false := by
        simp [ckSlotKeyIs]
        exact fun hh => hneq hh.symm
      have hfc : ckSlotKeyIs (some cur) cur.1 = true := ckSlotKeyIs_some.mpr rfl
      rw [hfo, hfc, if_pos rfl] at hb
      simp only [Bool.false_eq_true, if_false, if_true] at hb
      omega
    · by_cases hqo : q = old.1
      · subst hqo
        unfold ckKeyCount at hcnt2
        rw [show m2.table1 = m.table1.set p1 (some cur) from rfl,
          show m2.table2 = m.table2 from rfl] at hcnt2
        omega
      · have hfo : ckSlotKeyIs (some old) q = false := by
          simp [ckSlotKeyIs]
          exact fun hh => hqo hh.symm
        have hfc : ckSlotKeyIs (some cur) q = false := by
          simp [ckSlotKeyIs]
          exact fun hh => hq hh.symm
        rw [hfo, hfc] at hb
        have hu := huniq q
        unfold ckKeyCount at hu
        omega
  · show m2.table1.countP Option.isSome + m2.table2.countP Option.isSome =
      m.table1.countP Option.isSome + m.table2.countP Option.isSome
    have hb := hbal Option.isSome
    simp only [] at hb
    simp only [Option.isSome_some, if_pos rfl, if_true] at hb
    rw [show m2.table1 = m.table1.set p1 (some cur) from rfl,
      show m2.table2 = m.table2 from rfl]
    omega
  · unfold ckAt
    rw [hhash1, ← hp1, hget_self]
    simp [ckSlotKeyIs]
  · unfold ckAt
    rw [← hpold, hs]
    simp [ckSlotKeyIs]
  · intro q hqc hqo
    unfold ckAt
    rw [hhash1, hhash2, ht2]
    by_cases hqp : ckHash1 m q = p1
    · rw [hqp, hget_self, hs]
      have hfc : ckSlotKeyIs (some cur) q = false := by
        simp [ckSlotKeyIs]
        exact fun hh => hqc hh.symm
      have hfo : ckSlotKeyIs (some old) q = false := by
        simp [ckSlotKeyIs]
        exact fun hh => hqo hh.symm
      simp only [hfc, hfo, Bool.false_eq_true, if_false]
    · rw [hget_ne _ hqp]

lemma ck_countP_zero_all {t : List (Option (K × V))} {q : K}
    (h : t.countP (fun s => ckSlotKeyIs s q) = 0) (i : Nat) :
    ckSlotKeyIs (t.getD i none) q = false := by
  by_contra hc
  have := ck_countP_pos (t := t) (i := i) (q := q) (by
    rcases hb : ckSlotKeyIs (t.getD i none) q with _ | _
    · exact absurd hb hc
    · rfl)
  omega

lemma ckPlace2_spec (m : CkMap K V) (cur : K × V)
    (hgood : ckGood m) (hcnt : ckKeyCount m cur.1 = 0)
    (hs : m.table2.getD (ckHash2 m cur.1) none = none) :
    ckFixed m { m with table2 := m.table2.set (ckHash2 m cur.1) (some cur)
                       size_count := m.size_count + 1 } ∧
    ckGood { m with table2 := m.table2.set (ckHash2 m cur.1) (some cur)
                    size_count := m.size_count + 1 } ∧
    ckOcc { m with table2 := m.table2.set (ckHash2 m cur.1) (some cur)
                   size_count := m.size_count + 1 } = ckOcc m + 1 ∧
    ∀ q, ckAt { m with table2 := m.table2.set (ckHash2 m cur.1) (some cur)
                       size_count := m.size_count + 1 } q =
      if q = cur.1 then some cur.2 else ckAt m q := by
  obtain ⟨hwf, hcanon, huniq⟩ := hgood
  set p2 := ckHash2 m cur.1 with hp2
  set m2 : CkMap K V :=
    { m with table2 := m.table2.set p2 (some cur), size_count := m.size_count + 1 }
    with hm2
  have hplt : p2 < m.table2.length := by
    rw [hwf.2.1]
    exact Nat.mod_lt _ hwf.2.2
  have hget_self : m2.table2.getD p2 none = some cur := getD_set_self _ _ _ _ hplt
  have hget_ne : ∀ j, j ≠ p2 → m2.table2.getD j none = m.table2.getD j none := by
    intro j hj
    exact getD_set_ne _ _ _ (fun hh => hj hh.symm)
  have hfix : ckFixed m m2 := ⟨rfl, rfl, rfl, rfl, rfl⟩
  have hhash1 : ∀ q, ckHash1 m2 q = ckHash1 m q := fun q => (ckFixed_hash hfix q).1
  have hhash2 : ∀ q, ckHash2 m2 q = ckHash2 m q := fun q => (ckFixed_hash hfix q).2
  have ht1 : m2.table1 = m.table1 := rfl
  have hbal : ∀ p : Option (K × V) → Bool, p none = false →
      (m.table2.set p2 (some cur)).countP p =
        m.table2.countP p + (if p (some cur) then 1 else 0) := by
    intro p hp
    have hb := countP_set_balance p m.table2 p2 (some cur) none hplt
    rw [hs, hp] at hb
    simp only [Bool.false_eq_true, if_false] at hb
    omega
  refine ⟨hfix, ⟨⟨?_, ?_, ?_⟩, ⟨?_, ?_⟩, ?_⟩, ?_, ?_⟩
  · exact hwf.1
  · show (m.table2.set p2 (some cur)).length = m.capacity
    rw [List.length_set]
    exact hwf.2.1
  · exact hwf.2.2
  · intro i kv hkv
    rw [hhash1]
    exact hcanon.1 i kv hkv
  · intro i kv hkv
    rw [hhash2]
    by_cases hip : i = p2
    · subst hip
      rw [hget_self] at hkv
      obtain rfl := Option.some_inj.mp hkv
      exact hp2
    · exact hcanon.2 i kv ((hget_ne i hip) ▸ hkv)
  · intro q
    unfold ckKeyCount
    rw [show m2.table1 = m.table1 from rfl,
      show m2.table2 = m.table2.set p2 (some cur) from rfl,
      hbal _ (ckSlotKeyIs_none q)]
    by_cases hq : q = cur.1
    · subst hq
      obtain ⟨e1, e2⟩ := ckKeyCount_split hcnt
      rw [e1, e2]
      have hcc : ckSlotKeyIs (some cur) cur.1 = true := ckSlotKeyIs_some.mpr rfl
      rw [hcc, if_pos rfl]
    · have hfc : ckSlotKeyIs (some cur) q = false := by
        simp [ckSlotKeyIs]
        exact fun hh => hq hh.symm
      rw [hfc]
      simp only [Bool.false_eq_true, if_false]
      have hu := huniq q
      unfold ckKeyCount at hu
      omega
  · show m2.table1.countP Option.isSome + m2.table2.countP Option.isSome =
      m.table1.countP Option.isSome + m.table2.countP Option.isSome + 1
    rw [show m2.table1 = m.table1 from rfl,
      show m2.table2 = m.table2.set p2 (some cur) from rfl,
      hbal Option.isSome rfl]
    norm_num
    omega
  · intro q
    by_cases hq : q = cur.1
    · subst hq
      rw [if_pos rfl]
      unfold ckAt
      rw [hhash1, hhash2, ← hp2, hget_self, ht1]
      have h1f : ckSlotKeyIs (m.table1.getD (ckHash1 m cur.1) none) cur.1 = false :=
        ck_countP_zero_all (ckKeyCount_split hcnt).1 _
      have hcc : ckSlotKeyIs (some cur) cur.1 = true := ckSlotKeyIs_some.mpr rfl
      simp only [h1f, Bool.false_eq_true, if_false, hcc, if_pos rfl, if_true]
      rfl
    · rw [if_neg hq]
      unfold ckAt
      rw [hhash1, hhash2, ht1]
      by_cases hqp : ckHash2 m q = p2
      · rw [hqp, hget_self, hs]
        have hfc : ckSlotKeyIs (some cur) q = false := by
          simp [ckSlotKeyIs]
          exact fun hh => hq hh.symm
        simp only [hfc, ckSlotKeyIs_none, Bool.false_eq_true, if_false]
      · rw [hget_ne _ hqp]

lemma ckSwap2_spec (m : CkMap K V) (cur old : K × V)
    (hgood : ckGood m) (hcnt : ckKeyCount m cur.1 = 0)
    (hs : m.table2.getD (ckHash2 m cur.1) none = some old) :
    ckFixed m { m with table2 := m.table2.set (ckHash2 m cur.1) (some cur) } ∧
    ckGood { m with table2 := m.table2.set (ckHash2 m cur.1) (some cur) } ∧
    ckOcc { m with table2 := m.table2.set (ckHash2 m cur.1) (some cur) } = ckOcc m ∧
    ckKeyCount { m with table2 := m.table2.set (ckHash2 m cur.1) (some cur) } old.1 = 0 ∧
    cur.1 ≠ old.1 ∧
    ckAt { m with table2 := m.table2.set (ckHash2 m cur.1) (some cur) } cur.1 = some cur.2 ∧
    ckAt m old.1 = some old.2 ∧
    (∀ q, q ≠ cur.1 → q ≠ old.1 →
      ckAt { m with table2 := m.table2.set (ckHash2 m cur.1) (some cur) } q = ckAt m q) := by
  obtain ⟨hwf, hcanon, huniq⟩ := hgood
  set p2 := ckHash2 m cur.1 with hp2
  set m2 : CkMap K V := { m with table2 := m.table2.set p2 (some cur) } with hm2
  have hplt : p2 < m.table2.length := by
    rw [hwf.2.1]
    exact Nat.mod_lt _ hwf.2.2
  have hget_self : m2.table2.getD p2 none = some cur := getD_set_self _ _ _ _ hplt
  have hget_ne : ∀ j, j ≠ p2 → m2.table2.getD j none = m.table2.getD j none := by
    intro j hj
    exact getD_set_ne _ _ _ (fun hh => hj hh.symm)
  have hfix : ckFixed m m2 := ⟨rfl, rfl, rfl, rfl, rfl⟩
  have hhash1 : ∀ q, ckHash1 m2 q = ckHash1 m q := fun q => (ckFixed_hash hfix q).1
  have hhash2 : ∀ q, ckHash2 m2 q = ckHash2 m q := fun q => (ckFixed_hash hfix q).2
  have ht1 : m2.table1 = m.table1 := rfl
  have hbal : ∀ p : Option (K × V) → Bool,
      (m.table2.set p2 (some cur)).countP p + (if p (some old) then 1 else 0) =
        m.table2.countP p + (if p (some cur) then 1 else 0) := by
    intro p
    have hb := countP_set_balance p m.table2 p2 (some cur) none hplt
    rw [hs] at hb
    exact hb
  have hpold : p2 = ckHash2 m old.1 := hcanon.2 p2 old hs
  have hneq : cur.1 ≠ old.1 := by
    intro hh
    have hpos : 0 < m.table2.countP (fun s => ckSlotKeyIs s cur.1) :=
      ck_countP_pos (by rw [hs]; exact ckSlotKeyIs_some.mpr hh.symm)
    have := (ckKeyCount_split hcnt).2
    omega
  have ht2old : m.table2.countP (fun s => ckSlotKeyIs s old.1) = 1 ∧
      m.table1.countP (fun s => ckSlotKeyIs s old.1) = 0 := by
    have hpos : 0 < m.table2.countP (fun s => ckSlotKeyIs s old.1) :=
      ck_countP_pos (by rw [hs]; exact ckSlotKeyIs_some.mpr rfl)
    have hu := huniq old.1
    unfold ckKeyCount at hu
    omega
  have hcnt2 : ckKeyCount m2 old.1 = 0 := by
    have hb := hbal (fun s => ckSlotKeyIs s old.1)
    simp only [] at hb
    rw [ckSlotKeyIs_some.mpr rfl] at hb
    have hfalse : ckSlotKeyIs (some cur) old.1 = false := by
      simp [ckSlotKeyIs]
      exact hneq
    rw [hfalse] at hb
    simp only [Bool.false_eq_true, if_false, if_pos rfl, if_true] at hb
    unfold ckKeyCount
    rw [show m2.table1 = m.table1 from rfl,
      show m2.table2 = m.table2.set p2 (some cur) from rfl]
    have := ht2old.1
    have := ht2old.2
    omega
  refine ⟨hfix, ⟨⟨?_, ?_, ?_⟩, ⟨?_, ?_⟩, ?_⟩, ?_, hcnt2, hneq, ?_, ?_, ?_⟩
  · exact hwf.1
  · show (m.table2.set p2 (some cur)).length = m.capacity
    rw [List.length_set]
    exact hwf.2.1
  · exact hwf.2.2
  · intro i kv hkv
    rw [hhash1]
    exact hcanon.1 i kv hkv
  · intro i kv hkv
    rw [hhash2]
    by_cases hip : i = p2
    · subst hip
      rw [hget_self] at hkv
      obtain rfl := Option.some_inj.mp hkv
      exact hp2
    · exact hcanon.2 i kv ((hget_ne i hip) ▸ hkv)
  · intro q
    have hb := hbal (fun s => ckSlotKeyIs s q)
    simp only [] at hb
    unfold ckKeyCount
    rw [show m2.table1 = m.table1 from rfl,
      show m2.table2 = m.table2.set p2 (some cur) from rfl]
    by_cases hq : q = cur.1
    · subst hq
      obtain ⟨e1, e2⟩ := ckKeyCount_split hcnt
      have hfo : ckSlotKeyIs (some old) cur.1 = false := by
        simp [ckSlotKeyIs]
        exact fun hh => hneq hh.symm
      have hfc : ckSlotKeyIs (some cur) cur.1 = true := ckSlotKeyIs_some.mpr rfl
      rw [hfo, hfc, if_pos rfl] at hb
      simp only [Bool.false_eq_true, if_false, if_true] at hb
      omega
    · by_cases hqo : q = old.1
      · subst hqo
        unfold ckKeyCount at hcnt2
        rw [show m2.table1 = m.table1 from rfl,
          show m2.table2 = m.table2.set p2 (some cur) from rfl] at hcnt2
        omega
      · have hfo : ckSlotKeyIs (some old) q = false := by
          simp [ckSlotKeyIs]
          exact fun hh => hqo hh.symm
        have hfc : ckSlotKeyIs (some cur) q = false := by
          simp [ckSlotKeyIs]
          exact fun hh => hq hh.symm
        rw [hfo, hfc] at hb
        have hu := huniq q
        unfold ckKeyCount at hu
        omega
  · show m2.table1.countP Option.isSome + m2.table2.countP Option.isSome =
      m.table1.countP Option.isSome + m.table2.countP Option.isSome
    have hb := hbal Option.isSome
    simp only [] at hb
    simp only [Option.isSome_some, if_pos rfl, if_true] at hb
    rw [show m2.table1 = m.table1 from rfl,
      show m2.table2 = m.table2.set p2 (some cur) from rfl]
    omega
  · unfold ckAt
    rw [hhash1, hhash2, ← hp2, hget_self, ht1]
    have h1f : ckSlotKeyIs (m.table1.getD (ckHash1 m cur.1) none) cur.1 = false :=
      ck_countP_zero_all (ckKeyCount_split hcnt).1 _
    have hcc : ckSlotKeyIs (some cur) cur.1 = true := ckSlotKeyIs_some.mpr rfl
    simp only [h1f, Bool.false_eq_true, if_false, hcc, if_pos rfl, if_true]
    rfl
  · unfold ckAt
    rw [← hpold, hs]
    have h1f : ckSlotKeyIs (m.table1.getD (ckHash1 m old.1) none) old.1 = false :=
      ck_countP_zero_all ht2old.2 _
    have hoo : ckSlotKeyIs (some old) old.1 = true := ckSlotKeyIs_some.mpr rfl
    simp only [h1f, Bool.false_eq_true, if_false, hoo, if_pos rfl, if_true]
    rfl
  · intro q hqc hqo
    unfold ckAt
    rw [hhash1, hhash2, ht1]
    by_cases hqp : ckHash2 m q = p2
    · rw [hqp, hget_self, hs]
      have hfc : ckSlotKeyIs (some cur) q = false := by
        simp [ckSlotKeyIs]
        exact fun hh => hqc hh.symm
      have hfo : ckSlotKeyIs (some old) q = false := by
        simp [ckSlotKeyIs]
        exact fun hh => hqo hh.symm
      simp only [hfc, hfo, Bool.false_eq_true, if_false]
    · rw [hget_ne _ hqp]

lemma ckEvict_spec : ∀ (fuel : Nat) (m : CkMap K V) (cur : K × V) (b : Bool),
    ckGood m → ckKeyCount m cur.1 = 0 →
    ckFixed m (ckEvict m cur b fuel).1 ∧
    ckGood (ckEvict m cur b fuel).1 ∧
    (ckEvict m cur b fuel).1.size_count =
      m.size_count + (if (ckEvict m cur b fuel).2 then 1 else 0) ∧
    ckOcc (ckEvict m cur b fuel).1 =
      ckOcc m + (if (ckEvict m cur b fuel).2 then 1 else 0) ∧
    ((ckEvict m cur b fuel).2 = true →
      ∀ q, ckAt (ckEvict m cur b fuel).1 q = if q = cur.1 then some cur.2 else ckAt m q) := by
  intro fuel
  induction fuel with
  | zero =>
    intro m cur b hgood hcnt
    cases b <;>
      exact ⟨ckFixed_refl m, hgood, by simp [ckEvict], by simp [ckEvict],
        fun hh => absurd hh (by simp [ckEvict])⟩
  | succ f ih =>
    intro m cur b hgood hcnt
    cases b with
    | true =>
      rcases hs : m.table1.getD (ckHash1 m cur.1) none with _ | old
      · have heq : ckEvict m cur true (f + 1) =
            ({ m with table1 := m.table1.set (ckHash1 m cur.1) (some cur)
                      size_count := m.size_count + 1 }, true) := by
          simp only [ckEvict, hs]
        obtain ⟨hfix, hgood2, hocc, hat⟩ := ckPlace1_spec m cur hgood hcnt hs
        rw [heq]
        exact ⟨hfix, hgood2, by simp, by simpa using hocc, fun _ => hat⟩
      · have heq : ckEvict m cur true (f + 1) =
            ckEvict { m with table1 := m.table1.set (ckHash1 m cur.1) (some cur) }
              old false f := by
          simp only [ckEvict, hs]
        obtain ⟨hfix1, hgood1, hocc1, hcnt1, hneq, hatc, hato, hatoth⟩ :=
          ckSwap1_spec m cur old hgood hcnt hs
        set m1 : CkMap K V :=
          { m with table1 := m.table1.set (ckHash1 m cur.1) (some cur) } with hm1
        obtain ⟨hfixr, hgoodr, hsizer, hoccr, hatr⟩ := ih m1 old false hgood1 hcnt1
        rw [heq]
        refine ⟨ckFixed_trans hfix1 hfixr, hgoodr, ?_, ?_, ?_⟩
        · rw [hsizer]
        · rw [hoccr, hocc1]
        · intro hok q
          rw [hatr hok q]
          by_cases hqo : q = old.1
          · subst hqo
            rw [if_pos rfl, if_neg (fun hh => hneq hh.symm), hato]
          · rw [if_neg hqo]
            by_cases hqc : q = cur.1
            · subst hqc
              rw [if_pos rfl]
              exact hatc
            · rw [if_neg hqc]
              exact hatoth q hqc hqo
    | false =>
      rcases hs : m.table2.getD (ckHash2 m cur.1) none with _ | old
      · have heq : ckEvict m cur false (f + 1) =
            ({ m with table2 := m.table2.set (ckHash2 m cur.1) (some cur)
                      size_count := m.size_count + 1 }, true) := by
          simp only [ckEvict, hs]
        obtain ⟨hfix, hgood2, hocc, hat⟩ := ckPlace2_spec m cur hgood hcnt hs
        rw [heq]
        exact ⟨hfix, hgood2, by simp, by simpa using hocc, fun _ => hat⟩
      · have heq : ckEvict m cur false (f + 1) =
            ckEvict { m with table2 := m.table2.set (ckHash2 m cur.1) (some cur) }
              old true f := by
          simp only [ckEvict, hs]
        obtain ⟨hfix1, hgood1, hocc1, hcnt1, hneq, hatc, hato, hatoth⟩ :=
          ckSwap2_spec m cur old hgood hcnt hs
        set m1 : CkMap K V :=
          { m with table2 := m.table2.set (ckHash2 m cur.1) (some cur) } with hm1
        obtain ⟨hfixr, hgoodr, hsizer, hoccr, hatr⟩ := ih m1 old true hgood1 hcnt1
        rw [heq]
        refine ⟨ckFixed_trans hfix1 hfixr, hgoodr, ?_, ?_, ?_⟩
        · rw [hsizer]
        · rw [hoccr, hocc1]
        · intro hok q
          rw [hatr hok q]
          by_cases hqo : q = old.1
          · subst hqo
            rw [if_pos rfl, if_neg (fun hh => hneq hh.symm), hato]
          · rw [if_neg hqo]
            by_cases hqc : q = cur.1
            · subst hqc
              rw [if_pos rfl]
              exact hatc
            · rw [if_neg hqc]
              exact hatoth q hqc hqo

lemma ckUpd1_spec (m : CkMap K V) (k : K) (v : V) (kv0 : K × V)
    (hgood : ckGood m) (hs : m.table1.getD (ckHash1 m k) none = some kv0)
    (hk : kv0.1 = k) :
    ckFixed m { m with table1 := m.table1.set (ckHash1 m k) (some (k, v)) } ∧
    ckGood { m with table1 := m.table1.set (ckHash1 m k) (some (k, v)) } ∧
    ckOcc { m with table1 := m.table1.set (ckHash1 m k) (some (k, v)) } = ckOcc m ∧
    ∀ q, ckAt { m with table1 := m.table1.set (ckHash1 m k) (some (k, v)) } q =
      if q = k then some v else ckAt m q := by
  obtain ⟨hwf, hcanon, huniq⟩ := hgood
  set p1 := ckHash1 m k with hp1
  set m2 : CkMap K V := { m with table1 := m.table1.set p1 (some (k, v)) } with hm2
  have hplt : p1 < m.table1.length := by
    rw [hwf.1]
    exact Nat.mod_lt _ hwf.2.2
  have hget_self : m2.table1.getD p1 none = some (k, v) := getD_set_self _ _ _ _ hplt
  have hget_ne : ∀ j, j ≠ p1 → m2.table1.getD j none = m.table1.getD j none := by
    intro j hj
    exact getD_set_ne _ _ _ (fun hh => hj hh.symm)
  have hfix : ckFixed m m2 := ⟨rfl, rfl, rfl, rfl, rfl⟩
  have hhash1 : ∀ q, ckHash1 m2 q = ckHash1 m q := fun q => (ckFixed_hash hfix q).1
  have hhash2 : ∀ q, ckHash2 m2 q = ckHash2 m q := fun q => (ckFixed_hash hfix q).2
  have ht2 : m2.table2 = m.table2 := rfl
  have hbal : ∀ p : Option (K × V) → Bool,
      (m.table1.set p1 (some (k, v))).countP p + (if p (some kv0) then 1 else 0) =
        m.table1.countP p + (if p (some (k, v))then 1 else 0) := by
    intro p
    have hb := countP_set_balance p m.table1 p1 (some (k, v)) none hplt
    rw [hs] at hb
    exact hb
  have hsame : ∀ q, ckSlotKeyIs (some kv0) q = ckSlotKeyIs (some (k, v)) q := by
    intro q
    simp [ckSlotKeyIs, hk]
  refine ⟨hfix, ⟨⟨?_, ?_, ?_⟩, ⟨?_, ?_⟩, ?_⟩, ?_, ?_⟩
  · show (m.table1.set p1 (some (k, v))).length = m.capacity
    rw [List.length_set]
    exact hwf.1
  · exact hwf.2.1
  · exact hwf.2.2
  · intro i kv hkv
    rw [hhash1]
    by_cases hip : i = p1
    · subst hip
      rw [hget_self] at hkv
      obtain rfl := Option.some_inj.mp hkv
      exact hp1
    · exact hcanon.1 i kv ((hget_ne i hip) ▸ hkv)
  · intro i kv hkv
    rw [hhash2]
    exact hcanon.2 i kv hkv
  · intro q
    have hb := hbal (fun s => ckSlotKeyIs s q)
    simp only [] at hb
    rw [hsame q] at hb
    unfold ckKeyCount
    rw [show m2.table1 = m.table1.set p1 (some (k, v)) from rfl,
      show m2.table2 = m.table2 from rfl]
    have hu := huniq q
    unfold ckKeyCount at hu
    omega
  · show m2.table1.countP Option.isSome + m2.table2.countP Option.isSome =
      m.table1.countP Option.isSome + m.table2.countP Option.isSome
    have hb := hbal Option.isSome
    simp only [] at hb
    simp only [Option.isSome_some, if_pos rfl, if_true] at hb
    rw [show m2.table1 = m.table1.set p1 (some (k, v)) from rfl,
      show m2.table2 = m.table2 from rfl]
    omega
  · intro q
    by_cases hq : q = k
    · subst hq
      rw [if_pos rfl]
      unfold ckAt
      rw [hhash1, ← hp1, hget_self]
      have : ckSlotKeyIs (some (q, v)) q = true := ckSlotKeyIs_some.mpr rfl
      simp only [this, if_pos rfl, if_true]
      rfl
    · rw [if_neg hq]
      unfold ckAt
      rw [hhash1, hhash2, ht2]
      by_cases hqp : ckHash1 m q = p1
      · rw [hqp, hget_self, hs]
        have hf1 : ckSlotKeyIs (some (k, v)) q = false := by
          simp [ckSlotKeyIs]
          exact fun hh => hq hh.symm
        have hf2 : ckSlotKeyIs (some kv0) q = false := by
          rw [hsame q]
          exact hf1
        simp only [hf1, hf2, Bool.false_eq_true, if_false]
      · rw [hget_ne _ hqp]

lemma ckUpd2_spec (m : CkMap K V) (k : K) (v : V) (kv0 : K × V)
    (hgood : ckGood m) (hs : m.table2.getD (ckHash2 m k) none = some kv0)
    (hk : kv0.1 = k)
    (hc1 : ckSlotKeyIs (m.table1.getD (ckHash1 m k) none) k = false) :
    ckFixed m { m with table2 := m.table2.set (ckHash2 m k) (some (k, v)) } ∧
    ckGood { m with table2 := m.table2.set (ckHash2 m k) (some (k, v)) } ∧
    ckOcc { m with table2 := m.table2.set (ckHash2 m k) (some (k, v)) } = ckOcc m ∧
    ∀ q, ckAt { m with table2 := m.table2.set (ckHash2 m k) (some (k, v)) } q =
      if q = k then some v else ckAt m q := by
  obtain ⟨hwf, hcanon, huniq⟩ := hgood
  set p2 := ckHash2 m k with hp2
  set m2 : CkMap K V := { m with table2 := m.table2.set p2 (some (k, v)) } with hm2
  have hplt : p2 < m.table2.length := by
    rw [hwf.2.1]
    exact Nat.mod_lt _ hwf.2.2
  have hget_self : m2.table2.getD p2 none = some (k, v) := getD_set_self _ _ _ _ hplt
  have hget_ne : ∀ j, j ≠ p2 → m2.table2.getD j none = m.table2.getD j none := by
    intro j hj
    exact getD_set_ne _ _ _ (fun hh => hj hh.symm)
  have hfix : ckFixed m m2 := ⟨rfl, rfl, rfl, rfl, rfl⟩
  have hhash1 : ∀ q, ckHash1 m2 q = ckHash1 m q := fun q => (ckFixed_hash hfix q).1
  have hhash2 : ∀ q, ckHash2 m2 q = ckHash2 m q := fun q => (ckFixed_hash hfix q).2
  have ht1 : m2.table1 = m.table1 := rfl
  have hbal : ∀ p : Option (K × V) → Bool,
      (m.table2.set p2 (some (k, v))).countP p + (if p (some kv0) then 1 else 0) =
        m.table2.countP p + (if p (some (k, v))then 1 else 0) := by
    intro p
    have hb := countP_set_balance p m.table2 p2 (some (k, v)) none hplt
    rw [hs] at hb
    exact hb
  have hsame : ∀ q, ckSlotKeyIs (some kv0) q = ckSlotKeyIs (some (k, v)) q := by
    intro q
    simp [ckSlotKeyIs, hk]
  refine ⟨hfix, ⟨⟨?_, ?_, ?_⟩, ⟨?_, ?_⟩, ?_⟩, ?_, ?_⟩
  · exact hwf.1
  · show (m.table2.set p2 (some (k, v))).length = m.capacity
    rw [List.length_set]
    exact hwf.2.1
  · exact hwf.2.2
  · intro i kv hkv
    rw [hhash1]
    exact hcanon.1 i kv hkv
  · intro i kv hkv
    rw [hhash2]
    by_cases hip : i = p2
    · subst hip
      rw [hget_self] at hkv
      obtain rfl := Option.some_inj.mp hkv
      exact hp2
    · exact hcanon.2 i kv ((hget_ne i hip) ▸ hkv)
  · intro q
    have hb := hbal (fun s => ckSlotKeyIs s q)
    simp only [] at hb
    rw [hsame q] at hb
    unfold ckKeyCount
    rw [show m2.table1 = m.table1 from rfl,
      show m2.table2 = m.table2.set p2 (some (k, v)) from rfl]
    have hu := huniq q
    unfold ckKeyCount at hu
    omega
  · show m2.table1.countP Option.isSome + m2.table2.countP Option.isSome =
      m.table1.countP Option.isSome + m.table2.countP Option.isSome
    have hb := hbal Option.isSome
    simp only [] at hb
    simp only [Option.isSome_some, if_pos rfl, if_true] at hb
    rw [show m2.table1 = m.table1 from rfl,
      show m2.table2 = m.table2.set p2 (some (k, v)) from rfl]
    omega
  · intro q
    by_cases hq : q = k
    · subst hq
      rw [if_pos rfl]
      unfold ckAt
      rw [hhash1, hhash2, ← hp2, hget_self, ht1]
      have : ckSlotKeyIs (some (q, v)) q = true := ckSlotKeyIs_some.mpr rfl
      simp only [hc1, Bool.false_eq_true, if_false, this, if_pos rfl, if_true]
      rfl
    · rw [if_neg hq]
      unfold ckAt
      rw [hhash1, hhash2, ht1]
      by_cases hqp : ckHash2 m q = p2
      · rw [hqp, hget_self, hs]
        have hf1 : ckSlotKeyIs (some (k, v)) q = false := by
          simp [ckSlotKeyIs]
          exact fun hh => hq hh.symm
        have hf2 : ckSlotKeyIs (some kv0) q = false := by
          rw [hsame q]
          exact hf1
        simp only [hf1, hf2, Bool.false_eq_true, if_false]
      · rw [hget_ne _ hqp]

lemma ckInnerInsert_spec (m : CkMap K V) (k : K) (v : V) (hgood : ckGood m) :
    ckFixed m (ckInnerInsert m k v).1 ∧
    ckGood (ckInnerInsert m k v).1 ∧
    (ckInnerInsert m k v).1.size_count + ckOcc m =
      m.size_count + ckOcc (ckInnerInsert m k v).1 ∧
    (ckInnerInsert m k v).1.size_count ≤ m.size_count + 1 ∧
    ((ckInnerInsert m k v).2 = true →
      ∀ q, ckAt (ckInnerInsert m k v).1 q = if q = k then some v else ckAt m q) := by
  by_cases hc1 : ckSlotKeyIs (m.table1.getD (ckHash1 m k) none) k = true
  · rcases hs : m.table1.getD (ckHash1 m k) none with _ | kv0
    · rw [hs] at hc1
      exact absurd hc1 (by simp [ckSlotKeyIs])
    · rw [hs] at hc1
      have hk : kv0.1 = k := ckSlotKeyIs_some.mp hc1
      have heq : ckInnerInsert m k v =
          ({ m with table1 := m.table1.set (ckHash1 m k) (some (k, v)) }, true) := by
        simp only [ckInnerInsert, hs, hc1, if_pos]
      obtain ⟨hfix, hgood2, hocc, hat⟩ := ckUpd1_spec m k v kv0 hgood hs hk
      rw [heq]
      exact ⟨hfix, hgood2, by simp only []; omega, by simp, fun _ => hat⟩
  · rw [Bool.not_eq_true] at hc1
    by_cases hc2 : ckSlotKeyIs (m.table2.getD (ckHash2 m k) none) k = true
    · rcases hs : m.table2.getD (ckHash2 m k) none with _ | kv0
      · rw [hs] at hc2
        exact absurd hc2 (by simp [ckSlotKeyIs])
      · rw [hs] at hc2
        have hk : kv0.1 = k := ckSlotKeyIs_some.mp hc2
        have heq : ckInnerInsert m k v =
            ({ m with table2 := m.table2.set (ckHash2 m k) (some (k, v)) }, true) := by
          simp only [ckInnerInsert, hs, hc1, hc2, Bool.false_eq_true, if_false, if_pos]
        obtain ⟨hfix, hgood2, hocc, hat⟩ := ckUpd2_spec m k v kv0 hgood hs hk hc1
        rw [heq]
        exact ⟨hfix, hgood2, by simp only []; omega, by simp, fun _ => hat⟩
    · rw [Bool.not_eq_true] at hc2
      have hcnt : ckKeyCount m k = 0 := ckKeyCount_zero hgood.2.1 hc1 hc2
      rcases hs1 : m.table1.getD (ckHash1 m k) none with _ | old1
      · have heq : ckInnerInsert m k v =
            ({ m with table1 := m.table1.set (ckHash1 m k) (some (k, v))
                      size_count := m.size_count + 1 }, true) := by
          rw [hs1] at hc1
          simp only [ckInnerInsert, hs1, hc1, hc2, Bool.false_eq_true, if_false,
            Option.isNone_none, if_pos]
        obtain ⟨hfix, hgood2, hocc, hat⟩ := ckPlace1_spec m (k, v) hgood hcnt hs1
        rw [heq]
        exact ⟨hfix, hgood2, by simp only [] at hocc ⊢; omega, by simp, fun _ => hat⟩
      · rcases hs2 : m.table2.getD (ckHash2 m k) none with _ | old2
        · have heq : ckInnerInsert m k v =
              ({ m with table2 := m.table2.set (ckHash2 m k) (some (k, v))
                        size_count := m.size_count + 1 }, true) := by
            rw [hs1] at hc1
            rw [hs2] at hc2
            simp only [ckInnerInsert, hs1, hs2, hc1, hc2, Bool.false_eq_true, if_false,
              Option.isNone_some, Option.isNone_none, if_pos]
          obtain ⟨hfix, hgood2, hocc, hat⟩ := ckPlace2_spec m (k, v) hgood hcnt hs2
          rw [heq]
          exact ⟨hfix, hgood2, by simp only [] at hocc ⊢; omega, by simp, fun _ => hat⟩
        · have heq : ckInnerInsert m k v = ckEvict m (k, v) true m.capacity := by
            rw [hs1] at hc1
            rw [hs2] at hc2
            simp only [ckInnerInsert, hs1, hs2, hc1, hc2, Bool.false_eq_true, if_false,
              Option.isNone_some]
          obtain ⟨hfix, hgood2, hsize, hocc, hat⟩ :=
            ckEvict_spec m.capacity m (k, v) true hgood hcnt
          rw [heq]
          have hnum : (ckEvict m (k, v) true m.capacity).1.size_count + ckOcc m =
              m.size_count + ckOcc (ckEvict m (k, v) true m.capacity).1 ∧
              (ckEvict m (k, v) true m.capacity).1.size_count ≤ m.size_count + 1 := by
            cases hev : (ckEvict m (k, v) true m.capacity).2 with
            | false =>
              rw [hev] at hsize hocc
              simp only [Bool.false_eq_true, if_false] at hsize hocc
              omega
            | true =>
              rw [hev] at hsize hocc
              simp only [if_pos rfl, if_true] at hsize hocc
              omega
          exact ⟨hfix, hgood2, hnum.1, hnum.2, hat⟩

lemma ckReinsert_spec (l : List (Option (K × V))) :
    ∀ m : CkMap K V, ckGood m →
      ckFixed m (ckReinsert m l) ∧ ckGood (ckReinsert m l) ∧
      (ckReinsert m l).size_count + ckOcc m = m.size_count + ckOcc (ckReinsert m l) ∧
      ckOcc (ckReinsert m l) ≤ ckOcc m + l.countP Option.isSome := by
  induction l with
  | nil =>
    intro m hgood
    have heq : ckReinsert m ([] : List (Option (K × V))) = m := rfl
    rw [heq]
    exact ⟨ckFixed_refl m, hgood, by omega, by simp⟩
  | cons s rest ih =>
    intro m hgood
    rcases s with _ | kv
    · have heq : ckReinsert m (none :: rest) = ckReinsert m rest := rfl
      rw [heq]
      obtain ⟨h1, h2, h3, h4⟩ := ih m hgood
      refine ⟨h1, h2, h3, ?_⟩
      calc ckOcc (ckReinsert m rest) ≤ ckOcc m + rest.countP Option.isSome := h4
        _ ≤ ckOcc m + (none :: rest).countP Option.isSome := by
            rw [List.countP_cons]
            omega
    · have heq : ckReinsert m (some kv :: rest) =
          ckReinsert (ckInnerInsert m kv.1 kv.2).1 rest := rfl
      rw [heq]
      obtain ⟨hfix0, hgood0, hsync0, hle0, _⟩ := ckInnerInsert_spec m kv.1 kv.2 hgood
      obtain ⟨h1, h2, h3, h4⟩ := ih (ckInnerInsert m kv.1 kv.2).1 hgood0
      refine ⟨ckFixed_trans hfix0 h1, h2, by omega, ?_⟩
      have hocc0 : ckOcc (ckInnerInsert m kv.1 kv.2).1 ≤ ckOcc m + 1 := by omega
      calc ckOcc (ckReinsert (ckInnerInsert m kv.1 kv.2).1 rest)
          ≤ ckOcc (ckInnerInsert m kv.1 kv.2).1 + rest.countP Option.isSome := h4
        _ ≤ ckOcc m + 1 + rest.countP Option.isSome := by omega
        _ = ckOcc m + (some kv :: rest).countP Option.isSome := by
            rw [List.countP_cons]
            simp only [Option.isSome_some, if_pos rfl, if_true]
            omega

lemma ckGood_base (m0 : CkMap K V) (hl1 : m0.table1 = List.replicate m0.capacity none)
    (hl2 : m0.table2 = List.replicate m0.capacity none) (hcap : 0 < m0.capacity) :
    ckGood m0 ∧ ckOcc m0 = 0 := by
  have hz : ∀ (i : Nat), (List.replicate m0.capacity (none : Option (K × V))).getD i none =
      none := fun i => getD_replicate_self _ _ _
  have hcnt : ∀ p : Option (K × V) → Bool, p none = false →
      (List.replicate m0.capacity (none : Option (K × V))).countP p = 0 := by
    intro p hp
    rw [List.countP_eq_zero]
    intro a ha
    rw [List.eq_of_mem_replicate ha, hp]
    exact Bool.false_ne_true
  refine ⟨⟨⟨?_, ?_, hcap⟩, ⟨?_, ?_⟩, ?_⟩, ?_⟩
  · rw [hl1, List.length_replicate]
  · rw [hl2, List.length_replicate]
  · intro i kv hkv
    rw [hl1, hz i] at hkv
    exact absurd hkv (by simp)
  · intro i kv hkv
    rw [hl2, hz i] at hkv
    exact absurd hkv (by simp)
  · intro q
    unfold ckKeyCount
    rw [hl1, hl2, hcnt _ (ckSlotKeyIs_none q)]
    omega
  · unfold ckOcc
    rw [hl1, hl2, hcnt Option.isSome rfl]

lemma ckRehash_spec (m : CkMap K V) (hwf : ckWf m) :
    ckGood (ckRehash m) ∧
    (ckRehash m).capacity = m.capacity * 2 ∧
    (ckRehash m).seeds = m.seeds ∧
    (ckRehash m).size_count = ckOcc (ckRehash m) ∧
    (ckRehash m).size_count ≤ ckOcc m := by
  set m0 : CkMap K V :=
    { table1 := List.replicate (m.capacity * 2) none
      table2 := List.replicate (m.capacity * 2) none
      hasher1 := m.seeds m.epoch
      hasher2 := m.seeds (m.epoch + 1)
      size_count := 0
      capacity := m.capacity * 2
      seeds := m.seeds
      epoch := m.epoch + 2 } with hm0
  obtain ⟨hgood0, hocc0⟩ := ckGood_base m0 rfl rfl (by
    show 0 < m.capacity * 2
    have := hwf.2.2
    omega)
  have heq : ckRehash m = ckReinsert (ckReinsert m0 m.table1) m.table2 := rfl
  obtain ⟨hfixA, hgoodA, hsyncA, hleA⟩ := ckReinsert_spec m.table1 m0 hgood0
  obtain ⟨hfixB, hgoodB, hsyncB, hleB⟩ :=
    ckReinsert_spec m.table2 (ckReinsert m0 m.table1) hgoodA
  rw [heq]
  have hcapA : (ckReinsert m0 m.table1).capacity = m.capacity * 2 := hfixA.1
  have hcapB : (ckReinsert (ckReinsert m0 m.table1) m.table2).capacity = m.capacity * 2 :=
    hfixB.1.trans hcapA
  have hseeds : (ckReinsert (ckReinsert m0 m.table1) m.table2).seeds = m.seeds :=
    hfixB.2.2.2.1.trans hfixA.2.2.2.1
  have hoccm : ckOcc m = m.table1.countP Option.isSome + m.table2.countP Option.isSome := rfl
  have hs0 : m0.size_count = 0 := rfl
  refine ⟨hgoodB, hcapB, hseeds, by omega, by omega⟩

/-- The maintained invariant of reachable cuckoo maps: the structural
invariant plus the `size_count` / occupied-count agreement. -/
def ckInv (m : CkMap K V) : Prop := ckGood m ∧ m.size_count = ckOcc m

lemma ckInnerInsert_inv {m : CkMap K V} {k : K} {v : V} (hinv : ckInv m) :
    ckInv (ckInnerInsert m k v).1 := by
  obtain ⟨hfix, hgood2, hsync, hle, _⟩ := ckInnerInsert_spec m k v hinv.1
  exact ⟨hgood2, by have := hinv.2; omega⟩

lemma ckRehash_inv {m : CkMap K V} (hwf : ckWf m) : ckInv (ckRehash m) := by
  obtain ⟨h1, _, _, h4, _⟩ := ckRehash_spec m hwf
  exact ⟨h1, h4⟩

lemma ckInsertLoop_spec (k : K) (v : V) : ∀ (rem : Nat) (m : CkMap K V) (att : Nat),
    ckInv m →
    ckInv (ckInsertLoop k v m att rem).1 ∧
    ((ckInsertLoop k v m att rem).2.2 = true →
      ∃ mf, ckInv mf ∧ ckInnerInsert mf k v = ((ckInsertLoop k v m att rem).1, true)) ∧
    ((ckInsertLoop k v m att rem).2.2 = false →
      (ckInsertLoop k v m att rem).2.1 = att + rem) := by
  intro rem
  induction rem with
  | zero =>
    intro m att hinv
    have heq : ckInsertLoop k v m att 0 =
        ((ckInnerInsert m k v).1, att, (ckInnerInsert m k v).2) := rfl
    rw [heq]
    refine ⟨ckInnerInsert_inv hinv, ?_, fun _ => rfl⟩
    intro hok
    exact ⟨m, hinv, by rw [← hok]⟩
  | succ r ih =>
    intro m att hinv
    rcases hins : (ckInnerInsert m k v).2 with _ | _
    · have heq : ckInsertLoop k v m att (r + 1) =
          ckInsertLoop k v (ckRehash (ckInnerInsert m k v).1) (att + 1) r := by
        simp only [ckInsertLoop, hins, Bool.false_eq_true, if_false]
      rw [heq]
      have hinv1 : ckInv (ckInnerInsert m k v).1 := ckInnerInsert_inv hinv
      have hinv2 : ckInv (ckRehash (ckInnerInsert m k v).1) := ckRehash_inv hinv1.1.1
      obtain ⟨g1, g2, g3⟩ := ih (ckRehash (ckInnerInsert m k v).1) (att + 1) hinv2
      refine ⟨g1, g2, ?_⟩
      intro hfalse
      rw [g3 hfalse]
      omega
    · have heq : ckInsertLoop k v m att (r + 1) = ((ckInnerInsert m k v).1, att, true) := by
        simp only [ckInsertLoop, hins, if_pos]
      rw [heq]
      refine ⟨ckInnerInsert_inv hinv, ?_, fun hc => absurd hc (by simp)⟩
      intro _
      exact ⟨m, hinv, by rw [← hins]⟩

lemma ckInsert_spec {m : CkMap K V} {k : K} {v : V} {m2 : CkMap K V}
    (hinv : ckInv m) (h : ckInsert m k v = some m2) :
    ckInv m2 ∧ ∃ mf, ckInv mf ∧ ckInnerInsert mf k v = (m2, true) := by
  have hd : ckInsert m k v =
      (if (ckInsertLoop k v (if ckTrigger m then ckRehash m else m) 0 8).2.1 ≥ 8
        then none
        else some (ckInsertLoop k v (if ckTrigger m then ckRehash m else m) 0 8).1) := rfl
  set m0 := if ckTrigger m then ckRehash m else m with hm0
  have hinv0 : ckInv m0 := by
    rw [hm0]
    by_cases ht : ckTrigger m
    · rw [if_pos ht]
      exact ckRehash_inv hinv.1.1
    · rw [if_neg ht]
      exact hinv
  rw [hd] at h
  by_cases hge : (ckInsertLoop k v m0 0 8).2.1 ≥ 8
  · rw [if_pos hge] at h
    exact absurd h (by simp)
  · rw [if_neg hge] at h
    obtain rfl := Option.some_inj.mp h
    obtain ⟨g1, g2, g3⟩ := ckInsertLoop_spec k v 8 m0 0 hinv0
    rcases hok : (ckInsertLoop k v m0 0 8).2.2 with _ | _
    · exact absurd (g3 hok) (by omega)
    · exact ⟨g1, g2 hok⟩

lemma ckContains_eq_at (m : CkMap K V) (q : K) :
    ckContains m q = (ckAt m q).isSome := by
  unfold ckContains ckAt
  rcases h1 : ckSlotKeyIs (m.table1.getD (ckHash1 m q) none) q with _ | _
  · rcases h2 : ckSlotKeyIs (m.table2.getD (ckHash2 m q) none) q with _ | _
    · simp only [h1, h2, Bool.false_eq_true, if_false, Bool.or_self]
      rfl
    · rcases hs : m.table2.getD (ckHash2 m q) none with _ | kv
      · rw [hs] at h2
        exact absurd h2 (by simp [ckSlotKeyIs])
      · rw [hs] at h2
        simp only [h1, h2, hs, Bool.false_eq_true, if_false, Bool.false_or, if_true,
          if_pos rfl]
        rfl
  · rcases hs : m.table1.getD (ckHash1 m q) none with _ | kv
    · rw [hs] at h1
      exact absurd h1 (by simp [ckSlotKeyIs])
    · rw [hs] at h1
      simp only [h1, hs, Bool.true_or, if_pos rfl, if_true]
      rfl

lemma ckInsert_at {m : CkMap K V} {k : K} {v : V} {m2 : CkMap K V}
    (hinv : ckInv m) (h : ckInsert m k v = some m2) :
    ckAt m2 k = some v ∧ ckContains m2 k = true := by
  obtain ⟨hinv2, mf, hinvf, hif⟩ := ckInsert_spec hinv h
  obtain ⟨_, _, _, _, hat⟩ := ckInnerInsert_spec mf k v hinvf.1
  rw [hif] at hat
  have hm : ckAt m2 k = some v := by
    have := hat rfl k
    rwa [if_pos rfl] at this
  refine ⟨hm, ?_⟩
  rw [ckContains_eq_at, hm]
  rfl

lemma ckRemove_inv {m : CkMap K V} (k : K) (hinv : ckInv m) :
    ckInv (ckRemove m k).2 := by
  obtain ⟨⟨hwf, hcanon, huniq⟩, hsync⟩ := hinv
  unfold ckRemove
  by_cases hc1 : ckSlotKeyIs (m.table1.getD (ckHash1 m k) none) k = true
  · rw [if_pos hc1]
    simp only []
    have hplt : ckHash1 m k < m.table1.length := by
      rw [hwf.1]
      exact Nat.mod_lt _ hwf.2.2
    have hpos1 : 0 < m.table1.countP Option.isSome := by
      rcases hs : m.table1.getD (ckHash1 m k) none with _ | kv
      · rw [hs] at hc1
        exact absurd hc1 (by simp [ckSlotKeyIs])
      · exact countP_pos_of_getD _ _ (ckHash1 m k) none (by rw [hs]; rfl) rfl
    have hbal : ∀ p : Option (K × V) → Bool, p none = false →
        (m.table1.set (ckHash1 m k) none).countP p +
          (if p (m.table1.getD (ckHash1 m k) none) then 1 else 0) = m.table1.countP p := by
      intro p hp
      have hb := countP_set_balance p m.table1 (ckHash1 m k) none none hplt
      rw [hp] at hb
      simp only [Bool.false_eq_true, if_false] at hb
      omega
    constructor
    constructor
    · exact ⟨by rw [List.length_set]; exact hwf.1, hwf.2.1, hwf.2.2⟩
    constructor
    · constructor
      · intro i kv hkv
        by_cases hip : i = ckHash1 m k
        · subst hip
          rw [getD_set_self _ _ _ _ hplt] at hkv
          exact absurd hkv (by simp)
        · rw [getD_set_ne _ _ _ (fun hh => hip hh.symm)] at hkv
          exact hcanon.1 i kv hkv
      · exact hcanon.2
    · intro q
      have hb := hbal (fun s => ckSlotKeyIs s q) (ckSlotKeyIs_none q)
      simp only [] at hb
      have hu := huniq q
      unfold ckKeyCount at hu ⊢
      simp only []
      omega
    · show m.size_count - 1 = (m.table1.set (ckHash1 m k) none).countP Option.isSome +
        m.table2.countP Option.isSome
      have hb := hbal Option.isSome rfl
      have hsome : Option.isSome (m.table1.getD (ckHash1 m k) none) = true := by
        rcases hs : m.table1.getD (ckHash1 m k) none with _ | kv
        · rw [hs] at hc1
          exact absurd hc1 (by simp [ckSlotKeyIs])
        · rfl
      rw [hsome, if_pos rfl] at hb
      unfold ckOcc at hsync
      omega
  · rw [if_neg hc1]
    by_cases hc2 : ckSlotKeyIs (m.table2.getD (ckHash2 m k) none) k = true
    · rw [if_pos hc2]
      simp only []
      have hplt : ckHash2 m k < m.table2.length := by
        rw [hwf.2.1]
        exact Nat.mod_lt _ hwf.2.2
      have hbal : ∀ p : Option (K × V) → Bool, p none = false →
          (m.table2.set (ckHash2 m k) none).countP p +
            (if p (m.table2.getD (ckHash2 m k) none) then 1 else 0) =
            m.table2.countP p := by
        intro p hp
        have hb := countP_set_balance p m.table2 (ckHash2 m k) none none hplt
        rw [hp] at hb
        simp only [Bool.false_eq_true, if_false] at hb
        omega
      constructor
      constructor
      · exact ⟨hwf.1, by rw [List.length_set]; exact hwf.2.1, hwf.2.2⟩
      constructor
      · constructor
        · exact hcanon.1
        · intro i kv hkv
          by_cases hip : i = ckHash2 m k
          · subst hip
            rw [getD_set_self _ _ _ _ hplt] at hkv
            exact absurd hkv (by simp)
          · rw [getD_set_ne _ _ _ (fun hh => hip hh.symm)] at hkv
            exact hcanon.2 i kv hkv
      · intro q
        have hb := hbal (fun s => ckSlotKeyIs s q) (ckSlotKeyIs_none q)
        simp only [] at hb
        have hu := huniq q
        unfold ckKeyCount at hu ⊢
        simp only []
        omega
      · show m.size_count - 1 = m.table1.countP Option.isSome +
          (m.table2.set (ckHash2 m k) none).countP Option.isSome
        have hb := hbal Option.isSome rfl
        have hsome : Option.isSome (m.table2.getD (ckHash2 m k) none) = true := by
          rcases hs : m.table2.getD (ckHash2 m k) none with _ | kv
          · rw [hs] at hc2
            exact absurd hc2 (by simp [ckSlotKeyIs])
          · rfl
        rw [hsome, if_pos rfl] at hb
        unfold ckOcc at hsync
        omega
    · rw [if_neg hc2]
      exact ⟨⟨hwf, hcanon, huniq⟩, hsync⟩

lemma ckClear_inv {m : CkMap K V} (hinv : ckInv m) : ckInv (ckClear m) := by
  obtain ⟨⟨hwf, hcanon, huniq⟩, hsync⟩ := hinv
  have hz1 : ∀ (i : Nat), (ckClear m).table1.getD i none = none := by
    intro i
    show (m.table1.map (fun _ => none)).getD i none = none
    rcases Nat.lt_or_ge i (m.table1.map (fun _ => (none : Option (K × V)))).length with h | h
    · rw [List.getD_eq_getElem _ _ h, List.getElem_map]
    · rw [List.getD, List.get?_eq_none.mpr (by omega)]
      rfl
  have hz2 : ∀ (i : Nat), (ckClear m).table2.getD i none = none := by
    intro i
    show (m.table2.map (fun _ => none)).getD i none = none
    rcases Nat.lt_or_ge i (m.table2.map (fun _ => (none : Option (K × V)))).length with h | h
    · rw [List.getD_eq_getElem _ _ h, List.getElem_map]
    · rw [List.getD, List.get?_eq_none.mpr (by omega)]
      rfl
  have hcnt : ∀ (t : List (Option (K × V))) (p : Option (K × V) → Bool), p none = false →
      (t.map (fun _ => (none : Option (K × V)))).countP p = 0 := by
    intro t p hp
    rw [List.countP_eq_zero]
    intro a ha
    obtain ⟨b, _, hb⟩ := List.mem_map.mp ha
    rw [← hb, hp]
    exact Bool.false_ne_true
  constructor
  constructor
  · exact ⟨by show (m.table1.map _).length = m.capacity; rw [List.length_map]; exact hwf.1,
      by show (m.table2.map _).length = m.capacity; rw [List.length_map]; exact hwf.2.1,
      hwf.2.2⟩
  constructor
  · constructor
    · intro i kv hkv
      rw [hz1 i] at hkv
      exact absurd hkv (by simp)
    · intro i kv hkv
      rw [hz2 i] at hkv
      exact absurd hkv (by simp)
  · intro q
    show (m.table1.map _).countP _ + (m.table2.map _).countP _ ≤ 1
    rw [hcnt _ _ (ckSlotKeyIs_none q), hcnt _ _ (ckSlotKeyIs_none q)]
    omega
  · show (0 : Nat) = (m.table1.map _).countP _ + (m.table2.map _).countP _
    rw [hcnt _ Option.isSome rfl, hcnt _ Option.isSome rfl]

lemma ckBracket_inv {m : CkMap K V} {k : K} {d : V} {r : V × CkMap K V}
    (hinv : ckInv m) (h : ckBracket m k d = some r) : ckInv r.2 := by
  unfold ckBracket at h
  by_cases hc1 : ckSlotKeyIs (m.table1.getD (ckHash1 m k) none) k = true
  · rw [if_pos hc1] at h
    rcases hs : m.table1.getD (ckHash1 m k) none with _ | kv
    · rw [hs] at hc1
      exact absurd hc1 (by simp [ckSlotKeyIs])
    · rw [hs] at h
      simp only [Option.map_some'] at h
      obtain rfl := Option.some_inj.mp h.symm
      exact hinv
  · rw [if_neg hc1] at h
    by_cases hc2 : ckSlotKeyIs (m.table2.getD (ckHash2 m k) none) k = true
    · rw [if_pos hc2] at h
      rcases hs : m.table2.getD (ckHash2 m k) none with _ | kv
      · rw [hs] at hc2
        exact absurd hc2 (by simp [ckSlotKeyIs])
      · rw [hs] at h
        simp only [Option.map_some'] at h
        obtain rfl := Option.some_inj.mp h.symm
        exact hinv
    · rw [if_neg hc2] at h
      rcases hins : ckInsert m k d with _ | m1
      · rw [hins] at h
        exact absurd h (by simp)
      · rw [hins] at h
        simp only [Option.some_bind] at h
        have hinv1 : ckInv m1 := (ckInsert_spec hinv hins).1
        by_cases hd1 : ckSlotKeyIs (m1.table1.getD (ckHash1 m k) none) k = true
        · rw [if_pos hd1] at h
          rcases hs : m1.table1.getD (ckHash1 m k) none with _ | kv
          · rw [hs] at hd1
            exact absurd hd1 (by simp [ckSlotKeyIs])
          · rw [hs] at h
            simp only [Option.map_some'] at h
            obtain rfl := Option.some_inj.mp h.symm
            exact hinv1
        · rw [if_neg hd1] at h
          by_cases hd2 : ckSlotKeyIs (m1.table2.getD (ckHash2 m k) none) k = true
          · rw [if_pos hd2] at h
            rcases hs : m1.table2.getD (ckHash2 m k) none with _ | kv
            · rw [hs] at hd2
              exact absurd hd2 (by simp [ckSlotKeyIs])
            · rw [hs] at h
              simp only [Option.map_some'] at h
              obtain rfl := Option.some_inj.mp h.symm
              exact hinv1
          · rw [if_neg hd2] at h
            exact absurd h (by simp)

lemma ckStep_inv {m m2 : CkMap K V} {op : MapOp K V}
    (hinv : ckInv m) (h : ckStep m op = some m2) : ckInv m2 := by
  cases op with
  | ins k v => exact (ckInsert_spec hinv h).1
  | del k =>
    obtain rfl := Option.some_inj.mp h
    exact ckRemove_inv k hinv
  | clr =>
    obtain rfl := Option.some_inj.mp h
    exact ckClear_inv hinv
  | idx k d =>
    rcases hb : ckBracket m k d with _ | r
    · rw [ckStep, hb] at h
      exact absurd h (by simp)
    · rw [ckStep, hb] at h
      simp only [Option.map_some'] at h
      obtain rfl := Option.some_inj.mp h
      exact ckBracket_inv hinv hb

lemma ckRun_inv : ∀ (ops : List (MapOp K V)) (m m2 : CkMap K V),
    ckInv m → ckRun m ops = some m2 → ckInv m2 := by
  intro ops
  induction ops with
  | nil =>
    intro m m2 hinv h
    obtain rfl := Option.some_inj.mp h
    exact hinv
  | cons op rest ih =>
    intro m m2 hinv h
    rw [ckRun] at h
    rcases hst : ckStep m op with _ | mmid
    · rw [hst] at h
      exact absurd h (by simp)
    · rw [hst] at h
      simp only [Option.some_bind] at h
      exact ih mmid m2 (ckStep_inv hinv hst) h

lemma ckNew_inv (seeds : Nat → K → Nat) (cap0 : Nat) (hpos : 0 < cap0) :
    ckInv (ckNew seeds cap0 : CkMap K V) := by
  obtain ⟨hgood, hocc⟩ := ckGood_base (ckNew seeds cap0 : CkMap K V) rfl rfl hpos
  exact ⟨hgood, by rw [hocc]; rfl⟩

/-! ## Chaining map: size accounting and load-factor bound -/

/-- Total number of stored entries over all buckets. -/
def scTotal (m : ScMap K V) : Nat := (m.buckets.map List.length).sum

lemma scBucketUpsert_length (b : List (K × V)) (k : K) (v : V) :
    (scBucketUpsert b k v).1.length =
      b.length + (if (scBucketUpsert b k v).2 then 1 else 0) := by
  induction b with
  | nil => simp [scBucketUpsert]
  | cons e rest ih =>
    rcases e with ⟨k0, v0⟩
    by_cases hk : k0 = k
    · simp [scBucketUpsert, hk]
    · simp only [scBucketUpsert, if_neg hk, List.length_cons]
      rw [ih]
      by_cases hb : (scBucketUpsert rest k v).2 <;> simp [hb] <;> omega

lemma scInnerInsert_numeric {m : ScMap K V} (hwf : scWf m) (k : K) (v : V) :
    (scInnerInsert m k v).size_count + scTotal m =
      m.size_count + scTotal (scInnerInsert m k v) ∧
    (scInnerInsert m k v).size_count ≤ m.size_count + 1 ∧
    (scInnerInsert m k v).capacity = m.capacity ∧
    (scInnerInsert m k v).buckets.length = m.buckets.length := by
  have hidx : scBucketIndex m k < m.buckets.length := by
    rw [hwf.1]
    exact Nat.mod_lt _ hwf.2
  have hsum := map_sum_set_balance List.length m.buckets (scBucketIndex m k)
    (scBucketUpsert (m.buckets.getD (scBucketIndex m k) []) k v).1 [] hidx
  have hlen := scBucketUpsert_length (m.buckets.getD (scBucketIndex m k) []) k v
  have ht : scTotal (scInnerInsert m k v) =
      ((m.buckets.set (scBucketIndex m k)
        (scBucketUpsert (m.buckets.getD (scBucketIndex m k) []) k v).1).map
          List.length).sum := rfl
  have hsz : (scInnerInsert m k v).size_count =
      (if (scBucketUpsert (m.buckets.getD (scBucketIndex m k) []) k v).2
        then m.size_count + 1 else m.size_count) := rfl
  have hc : (scInnerInsert m k v).capacity = m.capacity := rfl
  have hb : (scInnerInsert m k v).buckets.length = m.buckets.length := by
    show (m.buckets.set _ _).length = m.buckets.length
    rw [List.length_set]
  have htm : scTotal m = (m.buckets.map List.length).sum := rfl
  refine ⟨?_, ?_, hc, hb⟩
  · rcases hup : (scBucketUpsert (m.buckets.getD (scBucketIndex m k) []) k v).2 with _ | _ <;>
      rw [hup] at hsz hlen <;>
      simp only [Bool.false_eq_true, if_false, if_true, if_pos rfl] at hsz hlen <;>
      rw [hsz, ht, htm] <;>
      omega
  · rcases hup : (scBucketUpsert (m.buckets.getD (scBucketIndex m k) []) k v).2 with _ | _ <;>
      rw [hup] at hsz <;>
      simp only [Bool.false_eq_true, if_false, if_true, if_pos rfl] at hsz <;>
      rw [hsz] <;>
      omega

/-- The invariant giving the chaining map's load-factor bound. -/
def scInv (m : ScMap K V) : Prop :=
  scWf m ∧ 2 ≤ m.capacity ∧ m.size_count = scTotal m ∧
    4 * m.size_count ≤ 3 * m.capacity

lemma scFoldInsert_numeric (b : List (K × V)) :
    ∀ m : ScMap K V, scWf m →
      (b.foldl (fun acc e => scInnerInsert acc e.1 e.2) m).size_count + scTotal m =
        m.size_count + scTotal (b.foldl (fun acc e => scInnerInsert acc e.1 e.2) m) ∧
      (b.foldl (fun acc e => scInnerInsert acc e.1 e.2) m).size_count ≤
        m.size_count + b.length := by
  induction b with
  | nil =>
    intro m _
    rw [List.foldl_nil]
    exact ⟨by omega, by omega⟩
  | cons e rest ih =>
    intro m hwf
    rw [List.foldl_cons]
    obtain ⟨h1, h2, h3, h4⟩ := scInnerInsert_numeric hwf e.1 e.2
    have hwf2 : scWf (scInnerInsert m e.1 e.2) := ⟨by rw [h4, h3]; exact hwf.1,
      by rw [h3]; exact hwf.2⟩
    obtain ⟨g1, g2⟩ := ih (scInnerInsert m e.1 e.2) hwf2
    constructor
    · omega
    · rw [List.length_cons]
      omega

lemma scReinsert_numeric (l : List (List (K × V))) :
    ∀ m : ScMap K V, scWf m →
      (scReinsert m l).size_count + scTotal m =
        m.size_count + scTotal (scReinsert m l) ∧
      (scReinsert m l).size_count ≤ m.size_count + (l.map List.length).sum := by
  induction l with
  | nil =>
    intro m _
    have heq : scReinsert m ([] : List (List (K × V))) = m := rfl
    rw [heq]
    exact ⟨by omega, by simp⟩
  | cons b rest ih =>
    intro m hwf
    rw [scReinsert]
    obtain ⟨f1, f2, f3⟩ := scFoldInsert_fields b m
    have hwf2 : scWf (b.foldl (fun acc e => scInnerInsert acc e.1 e.2) m) :=
      ⟨by rw [f3, f1]; exact hwf.1, by rw [f1]; exact hwf.2⟩
    obtain ⟨g1, g2⟩ := scFoldInsert_numeric b m hwf
    obtain ⟨j1, j2⟩ := ih (b.foldl (fun acc e => scInnerInsert acc e.1 e.2) m) hwf2
    constructor
    · omega
    · rw [List.map_cons, List.sum_cons]
      omega

lemma scResize_numeric {m : ScMap K V} (hinv : scInv m) :
    scWf (scResize m) ∧ (scResize m).capacity = m.capacity * 2 ∧
    (scResize m).size_count ≤ m.size_count ∧
    (scResize m).size_count = scTotal (scResize m) := by
  obtain ⟨hwf, hc2, hsync, hbound⟩ := hinv
  set m0 : ScMap K V :=
    { m with capacity := m.capacity * 2
             buckets := List.replicate (m.capacity * 2) []
             size_count := 0 } with hm0
  have hl0 : m0.buckets.length = m0.capacity := by
    show (List.replicate (m.capacity * 2) ([] : List (K × V))).length = m.capacity * 2
    rw [List.length_replicate]
  have hp0 : 0 < m0.capacity := by
    show 0 < m.capacity * 2
    omega
  have hwf0 : scWf m0 := ⟨hl0, hp0⟩
  have heq : scResize m = scReinsert m0 m.buckets := rfl
  obtain ⟨j1, j2⟩ := scReinsert_numeric m.buckets m0 hwf0
  obtain ⟨f1, f2, f3⟩ := scReinsert_fields m.buckets m0
  have hs0 : m0.size_count = 0 := rfl
  have ht0 : scTotal m0 = 0 := by
    show ((List.replicate (m.capacity * 2) ([] : List (K × V))).map List.length).sum = 0
    rw [List.map_replicate]
    simp
  have htot : (m.buckets.map List.length).sum = scTotal m := rfl
  refine ⟨⟨?_, ?_⟩, ?_, ?_, ?_⟩
  · rw [heq, f3, f1]
    exact hl0
  · rw [heq, f1]
    exact hp0
  · rw [heq, f1]
  · rw [heq]
    omega
  · rw [heq]
    omega

lemma scInsert_inv {m : ScMap K V} (hinv : scInv m) (k : K) (v : V) :
    scInv (scInsert m k v) := by
  obtain ⟨hwf, hc2, hsync, hbound⟩ := hinv
  unfold scInsert
  by_cases ht : scTrigger m
  · rw [if_pos ht]
    obtain ⟨hwfr, hcapr, hszr, hsyncr⟩ := scResize_numeric ⟨hwf, hc2, hsync, hbound⟩
    obtain ⟨n1, n2, n3, n4⟩ := scInnerInsert_numeric hwfr k v
    refine ⟨⟨by rw [n4, n3]; exact hwfr.1, by rw [n3]; exact hwfr.2⟩, ?_, ?_, ?_⟩
    · rw [n3, hcapr]
      omega
    · omega
    · rw [n3, hcapr]
      omega
  · rw [if_neg ht]
    have htt : ¬ 4 * (m.size_count + 1) > 3 * m.capacity := by
      unfold scTrigger at ht
      exact of_decide_eq_false (Bool.not_eq_true _ ▸ eq_false_of_ne_true ht)
    obtain ⟨n1, n2, n3, n4⟩ := scInnerInsert_numeric hwf k v
    refine ⟨⟨by rw [n4, n3]; exact hwf.1, by rw [n3]; exact hwf.2⟩, ?_, ?_, ?_⟩
    · rw [n3]
      omega
    · omega
    · rw [n3]
      omega

lemma scBucketRemove_spec (b : List (K × V)) (k : K) :
    ((scBucketRemove b k).1.isSome = true →
      (scBucketRemove b k).2.length + 1 = b.length) ∧
    ((scBucketRemove b k).1 = none → (scBucketRemove b k).2 = b) := by
  induction b with
  | nil => exact ⟨fun h => by simp [scBucketRemove] at h, fun _ => rfl⟩
  | cons e rest ih =>
    rcases e with ⟨k0, v0⟩
    by_cases hk : k0 = k
    · constructor
      · intro _
        simp [scBucketRemove, hk]
      · intro h
        simp [scBucketRemove, hk] at h
    · constructor
      · intro h
        simp only [scBucketRemove, if_neg hk] at h ⊢
        rw [List.length_cons, List.length_cons]
        have := ih.1 h
        omega
      · intro h
        simp only [scBucketRemove, if_neg hk] at h ⊢
        rw [ih.2 h]

lemma scRemove_inv {m : ScMap K V} (k : K) (hinv : scInv m) :
    scInv (scRemove m k).2 := by
  obtain ⟨hwf, hc2, hsync, hbound⟩ := hinv
  unfold scRemove
  rcases hr : (scBucketRemove (m.buckets.getD (scBucketIndex m k) []) k).1 with _ | v
  · simp only [hr]
    exact ⟨hwf, hc2, hsync, hbound⟩
  · simp only [hr]
    have hidx : scBucketIndex m k < m.buckets.length := by
      rw [hwf.1]
      exact Nat.mod_lt _ hwf.2
    have hsum := map_sum_set_balance List.length m.buckets (scBucketIndex m k)
      (scBucketRemove (m.buckets.getD (scBucketIndex m k) []) k).2 [] hidx
    have hlen := (scBucketRemove_spec (m.buckets.getD (scBucketIndex m k) []) k).1
      (by rw [hr]; rfl)
    have htm : scTotal m = (m.buckets.map List.length).sum := rfl
    refine ⟨⟨?_, ?_⟩, hc2, ?_, ?_⟩
    · show (m.buckets.set _ _).length = m.capacity
      rw [List.length_set]
      exact hwf.1
    · exact hwf.2
    · show m.size_count - 1 =
        ((m.buckets.set (scBucketIndex m k)
          (scBucketRemove (m.buckets.getD (scBucketIndex m k) []) k).2).map List.length).sum
      omega
    · show 4 * (m.size_count - 1) ≤ 3 * m.capacity
      omega

lemma scClear_inv {m : ScMap K V} (hinv : scInv m) : scInv (scClear m) := by
  obtain ⟨hwf, hc2, _, _⟩ := hinv
  have hz : ∀ (l : List (List (K × V))),
      ((l.map (fun _ => ([] : List (K × V)))).map List.length).sum = 0 := by
    intro l
    induction l with
    | nil => rfl
    | cons x xs ih => simpa using ih
  have ht : scTotal (scClear m) = 0 := by
    show ((m.buckets.map fun _ => ([] : List (K × V))).map List.length).sum = 0
    exact hz m.buckets
  refine ⟨⟨?_, hwf.2⟩, hc2, by rw [ht]; rfl, by show 4 * 0 ≤ 3 * m.capacity; omega⟩
  show (m.buckets.map _).length = m.capacity
  rw [List.length_map]
  exact hwf.1

lemma scBracket_inv {m : ScMap K V} {k : K} {d : V} {r : V × ScMap K V}
    (hinv : scInv m) (h : scBracket m k d = some r) : scInv r.2 := by
  unfold scBracket at h
  rcases h1 : scBucketFind (m.buckets.getD (scBucketIndex m k) []) k with _ | v
  · rw [h1] at h
    simp only [] at h
    rcases h2 : scBucketFind ((scInsert m k d).buckets.getD
        (scBucketIndex (scInsert m k d) k) []) k with _ | v2
    · rw [h2] at h
      exact absurd h (by simp)
    · rw [h2] at h
      obtain rfl := Option.some_inj.mp h.symm
      exact scInsert_inv hinv k d
  · rw [h1] at h
    simp only [] at h
    obtain rfl := Option.some_inj.mp h.symm
    exact hinv

lemma scStep_inv {m m2 : ScMap K V} {op : MapOp K V}
    (hinv : scInv m) (h : scStep m op = some m2) : scInv m2 := by
  cases op with
  | ins k v =>
    obtain rfl := Option.some_inj.mp h
    exact scInsert_inv hinv k v
  | del k =>
    obtain rfl := Option.some_inj.mp h
    exact scRemove_inv k hinv
  | clr =>
    obtain rfl := Option.some_inj.mp h
    exact scClear_inv hinv
  | idx k d =>
    rcases hb : scBracket m k d with _ | r
    · rw [scStep, hb] at h
      exact absurd h (by simp)
    · rw [scStep, hb] at h
      simp only [Option.map_some'] at h
      obtain rfl := Option.some_inj.mp h
      exact scBracket_inv hinv hb

lemma scRun_inv : ∀ (ops : List (MapOp K V)) (m m2 : ScMap K V),
    scInv m → scRun m ops = some m2 → scInv m2 := by
  intro ops
  induction ops with
  | nil =>
    intro m m2 hinv h
    obtain rfl := Option.some_inj.mp h
    exact hinv
  | cons op rest ih =>
    intro m m2 hinv h
    rw [scRun] at h
    rcases hst : scStep m op with _ | mmid
    · rw [hst] at h
      exact absurd h (by simp)
    · rw [hst] at h
      simp only [Option.some_bind] at h
      exact ih mmid m2 (scStep_inv hinv hst) h

lemma scNew_inv (hasher : K → Nat) (cap0 : Nat) (h2 : 2 ≤ cap0) :
    scInv (scNew hasher cap0 : ScMap K V) := by
  refine ⟨⟨?_, by show 0 < cap0; omega⟩, h2, ?_, by show 4 * 0 ≤ 3 * cap0; omega⟩
  · show (List.replicate cap0 ([] : List (K × V))).length = cap0
    rw [List.length_replicate]
  · show (0 : Nat) = scTotal (scNew hasher cap0)
    unfold scTotal
    show (0 : Nat) = ((List.replicate cap0 ([] : List (K × V))).map List.length).sum
    rw [List.map_replicate]
    simp

/-! ## Probing map: size accounting and load-factor bound -/

/-- Number of `Occupied` slots of the table. -/
def lpOcc (m : LpMap K V) : Nat := m.table.countP lpIsOccupied

/-- The invariant giving the probing map's load-factor bound. -/
def lpInv (m : LpMap K V) : Prop :=
  lpWf m ∧ 2 ≤ m.capacity ∧ m.size_count = lpOcc m ∧
    10 * m.size_count ≤ 7 * m.capacity

lemma lpFindInsertAux_stop (m : LpMap K V) (key : K) :
    ∀ fuel idx i, lpFindInsertAux m key idx fuel = some i →
      lpIsOccupied (m.table.getD i .empty) = false ∨
        ∃ v0, m.table.getD i .empty = .occupied key v0 := by
  intro fuel
  induction fuel with
  | zero => intro idx i h; simp [lpFindInsertAux] at h
  | succ f ih =>
    intro idx i h
    rcases hs : m.table.getD idx .empty with _ | ⟨k, v⟩ | ⟨k, v⟩
    · rw [lpFindInsertAux_free f (by rw [hs]; rfl)] at h
      obtain rfl : idx = i := Option.some_inj.mp h
      left
      rw [hs]
      rfl
    · by_cases hk : k = key
      · rw [lpFindInsertAux_occ_hit f hs hk] at h
        obtain rfl : idx = i := Option.some_inj.mp h
        right
        subst hk
        exact ⟨v, hs⟩
      · rw [lpFindInsertAux_occ_miss f hs hk] at h
        exact ih _ _ h
    · rw [lpFindInsertAux_free f (by rw [hs]; rfl)] at h
      obtain rfl : idx = i := Option.some_inj.mp h
      left
      rw [hs]
      rfl

lemma lpInnerInsert_numeric {m : LpMap K V} {k : K} {v : V} {m2 : LpMap K V}
    (hwf : lpWf m) (h : lpInnerInsert m k v = some m2) :
    m2.size_count + lpOcc m = m.size_count + lpOcc m2 ∧
    m2.size_count ≤ m.size_count + 1 ∧ lpWf m2 ∧ m2.capacity = m.capacity := by
  obtain ⟨i, hfind, htab, hcap, hhash, hle, hge⟩ := lpInnerInsert_table h
  have hstart : lpGetHash m k < m.capacity := Nat.mod_lt _ hwf.2
  have hi : i < m.capacity := by
    obtain ⟨s, _, hieq, _⟩ :=
      lpFindInsertAux_shape m k m.capacity (lpGetHash m k) i hstart hfind
    rw [hieq]
    exact Nat.mod_lt _ hwf.2
  have hilen : i < m.table.length := by
    rw [hwf.1]
    exact hi
  have hwf2 : lpWf m2 := ⟨by rw [htab, List.length_set, hwf.1, hcap], by rw [hcap]; exact hwf.2⟩
  have hbal := countP_set_balance lpIsOccupied m.table i (.occupied k v) .empty hilen
  have hocc2 : lpOcc m2 = (m.table.set i (.occupied k v)).countP lpIsOccupied := by
    unfold lpOcc
    rw [htab]
  have hnew : lpIsOccupied (.occupied k v : LpSlot K V) = true := rfl
  rw [hnew, if_pos rfl] at hbal
  have hstop := lpFindInsertAux_stop m k m.capacity (lpGetHash m k) i hfind
  -- size relation from the branch structure of inner_insert
  have hsz : (lpIsOccupied (m.table.getD i .empty) = true ∧
        m2.size_count = m.size_count) ∨
      (lpIsOccupied (m.table.getD i .empty) = false ∧
        m2.size_count = m.size_count + 1) := by
    unfold lpInnerInsert at h
    rw [show lpFindSlotForInsert m k = some i from hfind] at h
    simp only [] at h
    rcases hs : m.table.getD i .empty with _ | ⟨k0, v0⟩ | ⟨k0, v0⟩ <;> rw [hs] at h <;>
      simp only [] at h
    · right
      obtain rfl := Option.some_inj.mp h.symm
      exact ⟨rfl, rfl⟩
    · left
      rcases hstop with hocc | ⟨v1, hv1⟩
      · rw [hs] at hocc
        exact absurd hocc (by simp [lpIsOccupied])
      · rw [hs] at hv1
        obtain ⟨rfl, _⟩ := LpSlot.occupied.inj hv1
        rw [if_pos rfl] at h
        obtain rfl := Option.some_inj.mp h.symm
        exact ⟨rfl, rfl⟩
    · right
      obtain rfl := Option.some_inj.mp h.symm
      exact ⟨rfl, rfl⟩
  rcases hsz with ⟨hocc, hsame⟩ | ⟨hnocc, hplus⟩
  · rw [hocc, if_pos rfl] at hbal
    refine ⟨?_, by omega, hwf2, hcap⟩
    rw [hsame, hocc2]
    unfold lpOcc
    omega
  · rw [hnocc] at hbal
    simp only [Bool.false_eq_true, if_false] at hbal
    refine ⟨?_, by omega, hwf2, hcap⟩
    rw [hplus, hocc2]
    unfold lpOcc
    omega

lemma lpReinsert_numeric (l : List (LpSlot K V)) :
    ∀ (m m2 : LpMap K V), lpWf m → lpReinsert m l = some m2 →
      m2.size_count + lpOcc m = m.size_count + lpOcc m2 ∧
      m2.size_count ≤ m.size_count + l.countP lpIsOccupied ∧ lpWf m2 := by
  induction l with
  | nil =>
    intro m m2 hwf h
    obtain rfl := Option.some_inj.mp h.symm
    exact ⟨by omega, by simp, hwf⟩
  | cons s rest ih =>
    intro m m2 hwf h
    rcases s with _ | ⟨k, v⟩ | ⟨k, v⟩
    · have heq : lpReinsert m (LpSlot.empty :: rest) = lpReinsert m rest := rfl
      rw [heq] at h
      obtain ⟨g1, g2, g3⟩ := ih m m2 hwf h
      refine ⟨g1, ?_, g3⟩
      rw [List.countP_cons]
      simp only [lpIsOccupied, Bool.false_eq_true, if_false]
      omega
    · rw [lpReinsert] at h
      rcases hmid : lpInnerInsert m k v with _ | mmid
      · rw [hmid] at h
        exact absurd h (by simp)
      · rw [hmid] at h
        simp only [Option.some_bind] at h
        obtain ⟨n1, n2, n3, n4⟩ := lpInnerInsert_numeric hwf hmid
        obtain ⟨g1, g2, g3⟩ := ih mmid m2 n3 h
        refine ⟨by omega, ?_, g3⟩
        rw [List.countP_cons]
        simp only [lpIsOccupied, if_pos rfl, if_true]
        omega
    · have heq : lpReinsert m (LpSlot.deleted k v :: rest) = lpReinsert m rest := rfl
      rw [heq] at h
      obtain ⟨g1, g2, g3⟩ := ih m m2 hwf h
      refine ⟨g1, ?_, g3⟩
      rw [List.countP_cons]
      simp only [lpIsOccupied, Bool.false_eq_true, if_false]
      omega

lemma lpRehash_numeric {m m2 : LpMap K V} (hwf : lpWf m) (h : lpRehash m = some m2) :
    m2.size_count = lpOcc m2 ∧ m2.size_count ≤ lpOcc m ∧ lpWf m2 ∧
    m2.capacity = m.capacity * 2 := by
  have hcap2 := (lpRehash_fields h).1
  unfold lpRehash at h
  set m0 : LpMap K V :=
    { m with capacity := m.capacity * 2
             table := List.replicate (m.capacity * 2) .empty
             size_count := 0
             deleted_count := 0 } with hm0
  have hwf0 : lpWf m0 := ⟨by show (List.replicate (m.capacity * 2)
      (LpSlot.empty : LpSlot K V)).length = m.capacity * 2; rw [List.length_replicate],
    by show 0 < m.capacity * 2; have := hwf.2; omega⟩
  have hocc0 : lpOcc m0 = 0 := by
    show (List.replicate (m.capacity * 2) (LpSlot.empty : LpSlot K V)).countP
      lpIsOccupied = 0
    rw [List.countP_eq_zero]
    intro a ha
    rw [List.eq_of_mem_replicate ha]
    simp [lpIsOccupied]
  have hs0 : m0.size_count = 0 := rfl
  obtain ⟨g1, g2, g3⟩ := lpReinsert_numeric m.table m0 m2 hwf0 h
  have hoccm : m.table.countP lpIsOccupied = lpOcc m := rfl
  exact ⟨by omega, by omega, g3, hcap2⟩

lemma lpRemove_inv {m : LpMap K V} (k : K) (hinv : lpInv m) :
    lpInv (lpRemove m k).2 := by
  obtain ⟨hwf, hc2, hsync, hbound⟩ := hinv
  unfold lpRemove
  rcases hf : lpFindSlotForLookup m k with _ | j
  · exact ⟨hwf, hc2, hsync, hbound⟩
  · obtain ⟨v1, hj⟩ := lpFindSlotForLookup_found hf
    simp only []
    rw [hj]
    simp only []
    have hjlen : j < m.table.length := lt_length_of_getD_ne (by rw [hj]; simp)
    have hbal := countP_set_balance lpIsOccupied m.table j (.deleted k v1) .empty hjlen
    rw [hj] at hbal
    have h1 : lpIsOccupied (LpSlot.occupied k v1 : LpSlot K V) = true := rfl
    have h2 : lpIsOccupied (LpSlot.deleted k v1 : LpSlot K V) = false := rfl
    rw [h1, h2, if_pos rfl] at hbal
    simp only [Bool.false_eq_true, if_false] at hbal
    have hoccpos : 0 < lpOcc m :=
      countP_pos_of_getD m.table lpIsOccupied j .empty (by rw [hj]; rfl) rfl
    refine ⟨⟨?_, hwf.2⟩, hc2, ?_, ?_⟩
    · show (m.table.set j (LpSlot.deleted k v1)).length = m.capacity
      rw [List.length_set]
      exact hwf.1
    · show m.size_count - 1 = (m.table.set j (LpSlot.deleted k v1)).countP lpIsOccupied
      unfold lpOcc at hsync hoccpos
      omega
    · show 10 * (m.size_count - 1) ≤ 7 * m.capacity
      omega

lemma lpClear_inv {m : LpMap K V} (hinv : lpInv m) : lpInv (lpClear m) := by
  obtain ⟨hwf, hc2, _, _⟩ := hinv
  have hocc : lpOcc (lpClear m) = 0 := by
    show (m.table.map fun _ => (LpSlot.empty : LpSlot K V)).countP lpIsOccupied = 0
    rw [List.countP_eq_zero]
    intro a ha
    obtain ⟨b, _, hb⟩ := List.mem_map.mp ha
    rw [← hb]
    simp [lpIsOccupied]
  refine ⟨⟨?_, hwf.2⟩, hc2, by rw [hocc]; rfl, by show 10 * 0 ≤ 7 * m.capacity; omega⟩
  show (m.table.map _).length = m.capacity
  rw [List.length_map]
  exact hwf.1

lemma lpInsert_inv {m : LpMap K V} {k : K} {v : V} {m2 : LpMap K V}
    (hinv : lpInv m) (h : lpInsert m k v = some m2) : lpInv m2 := by
  obtain ⟨hwf, hc2, hsync, hbound⟩ := hinv
  unfold lpInsert at h
  by_cases ht : lpTrigger m
  · rw [ht] at h
    simp only [if_pos] at h
    rcases hre : lpRehash m with _ | m1
    · rw [hre] at h
      exact absurd h (by simp)
    · rw [hre] at h
      simp only [Option.some_bind] at h
      obtain ⟨r1, r2, r3, r4⟩ := lpRehash_numeric hwf hre
      obtain ⟨n1, n2, n3, n4⟩ := lpInnerInsert_numeric r3 h
      refine ⟨n3, by rw [n4, r4]; omega, ?_, ?_⟩
      · unfold lpOcc at r1 n1 ⊢
        omega
      · rw [n4, r4]
        have hoccm : lpOcc m ≤ m.capacity := by
          unfold lpOcc
          rw [← hwf.1]
          exact List.countP_le_length _
        unfold lpOcc at r2 hsync
        omega
  · rw [Bool.not_eq_true] at ht
    rw [ht] at h
    simp only [Bool.false_eq_true, if_false, Option.some_bind] at h
    have htt : ¬ (10 * (m.size_count + 1) > 7 * m.capacity ∨
        10 * (m.size_count + m.deleted_count) > 7 * m.capacity) := by
      unfold lpTrigger at ht
      intro hc
      rcases hc with hc | hc
      · rw [decide_eq_true hc] at ht
        simp at ht
      · rw [decide_eq_true hc] at ht
        simp at ht
    obtain ⟨hA, hB⟩ := not_or.mp htt
    obtain ⟨n1, n2, n3, n4⟩ := lpInnerInsert_numeric hwf h
    exact ⟨n3, by rw [n4]; omega, by unfold lpOcc at n1 hsync ⊢; omega,
      by rw [n4]; omega⟩

lemma lpBracket_inv {m : LpMap K V} {k : K} {d : V} {r : V × LpMap K V}
    (hinv : lpInv m) (h : lpBracket m k d = some r) : lpInv r.2 := by
  unfold lpBracket at h
  rcases h1 : lpFindSlotForLookup m k with _ | i
  · rw [h1] at h
    simp only [] at h
    rcases hins : lpInsert m k d with _ | m1
    · rw [hins] at h
      exact absurd h (by simp)
    · rw [hins] at h
      simp only [Option.some_bind] at h
      have hinv1 : lpInv m1 := lpInsert_inv hinv hins
      rcases h2 : lpFindSlotForLookup m1 k with _ | j
      · rw [h2] at h
        exact absurd h (by simp)
      · rw [h2] at h
        simp only [] at h
        rcases hs : m1.table.getD j .empty with _ | ⟨k0, v0⟩ | ⟨k0, v0⟩ <;> rw [hs] at h <;>
          simp only [] at h
        · exact absurd h (by simp)
        · obtain rfl := Option.some_inj.mp h.symm
          exact hinv1
        · obtain rfl := Option.some_inj.mp h.symm
          exact hinv1
  · rw [h1] at h
    simp only [] at h
    rcases hs : m.table.getD i .empty with _ | ⟨k0, v0⟩ | ⟨k0, v0⟩ <;> rw [hs] at h <;>
      simp only [] at h
    · exact absurd h (by simp)
    · obtain rfl := Option.some_inj.mp h.symm
      exact hinv
    · obtain rfl := Option.some_inj.mp h.symm
      exact hinv

lemma lpStep_inv {m m2 : LpMap K V} {op : MapOp K V}
    (hinv : lpInv m) (h : lpStep m op = some m2) : lpInv m2 := by
  cases op with
  | ins k v => exact lpInsert_inv hinv h
  | del k =>
    obtain rfl := Option.some_inj.mp h
    exact lpRemove_inv k hinv
  | clr =>
    obtain rfl := Option.some_inj.mp h
    exact lpClear_inv hinv
  | idx k d =>
    rcases hb : lpBracket m k d with _ | r
    · rw [lpStep, hb] at h
      exact absurd h (by simp)
    · rw [lpStep, hb] at h
      simp only [Option.map_some'] at h
      obtain rfl := Option.some_inj.mp h
      exact lpBracket_inv hinv hb

lemma lpRun_inv : ∀ (ops : List (MapOp K V)) (m m2 : LpMap K V),
    lpInv m → lpRun m ops = some m2 → lpInv m2 := by
  intro ops
  induction ops with
  | nil =>
    intro m m2 hinv h
    obtain rfl := Option.some_inj.mp h
    exact hinv
  | cons op rest ih =>
    intro m m2 hinv h
    rw [lpRun] at h
    rcases hst : lpStep m op with _ | mmid
    · rw [hst] at h
      exact absurd h (by simp)
    · rw [hst] at h
      simp only [Option.some_bind] at h
      exact ih mmid m2 (lpStep_inv hinv hst) h

lemma lpNew_inv (hasher : K → Nat) (cap0 : Nat) (h2 : 2 ≤ cap0) :
    lpInv (lpNew hasher cap0 : LpMap K V) := by
  refine ⟨⟨?_, by show 0 < cap0; omega⟩, h2, ?_, by show 10 * 0 ≤ 7 * cap0; omega⟩
  · show (List.replicate cap0 (LpSlot.empty : LpSlot K V)).length = cap0
    rw [List.length_replicate]
  · show (0 : Nat) = lpOcc (lpNew hasher cap0)
    unfold lpOcc
    show (0 : Nat) = (List.replicate cap0 (LpSlot.empty : LpSlot K V)).countP lpIsOccupied
    have hz : (List.replicate cap0 (LpSlot.empty : LpSlot K V)).countP lpIsOccupied = 0 := by
      rw [List.countP_eq_zero]
      intro a ha
      rw [List.eq_of_mem_replicate ha]
      simp [lpIsOccupied]
    omega

/-! ## Cuckoo map: load-factor bound -/

lemma ckBracket_state {m : CkMap K V} {k : K} {d : V} {r : V × CkMap K V}
    (h : ckBracket m k d = some r) :
    r.2 = m ∨ ∃ m1, ckInsert m k d = some m1 ∧ r.2 = m1 := by
  unfold ckBracket at h
  by_cases hc1 : ckSlotKeyIs (m.table1.getD (ckHash1 m k) none) k = true
  · rw [if_pos hc1] at h
    rcases hs : m.table1.getD (ckHash1 m k) none with _ | kv
    · rw [hs] at hc1
      exact absurd hc1 (by simp [ckSlotKeyIs])
    · rw [hs] at h
      simp only [Option.map_some'] at h
      obtain rfl := Option.some_inj.mp h.symm
      exact Or.inl rfl
  · rw [if_neg hc1] at h
    by_cases hc2 : ckSlotKeyIs (m.table2.getD (ckHash2 m k) none) k = true
    · rw [if_pos hc2] at h
      rcases hs : m.table2.getD (ckHash2 m k) none with _ | kv
      · rw [hs] at hc2
        exact absurd hc2 (by simp [ckSlotKeyIs])
      · rw [hs] at h
        simp only [Option.map_some'] at h
        obtain rfl := Option.some_inj.mp h.symm
        exact Or.inl rfl
    · rw [if_neg hc2] at h
      rcases hins : ckInsert m k d with _ | m1
      · rw [hins] at h
        exact absurd h (by simp)
      · rw [hins] at h
        simp only [Option.some_bind] at h
        refine Or.inr ⟨m1, rfl, ?_⟩
        by_cases hd1 : ckSlotKeyIs (m1.table1.getD (ckHash1 m k) none) k = true
        · rw [if_pos hd1] at h
          rcases hs : m1.table1.getD (ckHash1 m k) none with _ | kv
          · rw [hs] at hd1
            exact absurd hd1 (by simp [ckSlotKeyIs])
          · rw [hs] at h
            simp only [Option.map_some'] at h
            obtain rfl := Option.some_inj.mp h.symm
            rfl
        · rw [if_neg hd1] at h
          by_cases hd2 : ckSlotKeyIs (m1.table2.getD (ckHash2 m k) none) k = true
          · rw [if_pos hd2] at h
            rcases hs : m1.table2.getD (ckHash2 m k) none with _ | kv
            · rw [hs] at hd2
              exact absurd hd2 (by simp [ckSlotKeyIs])
            · rw [hs] at h
              simp only [Option.map_some'] at h
              obtain rfl := Option.some_inj.mp h.symm
              rfl
          · rw [if_neg hd2] at h
            exact absurd h (by simp)

lemma ckInsertLoopB (k : K) (v : V) : ∀ (rem : Nat) (m : CkMap K V) (att : Nat),
    ckInv m → 2 ≤ m.capacity → 2 * (m.size_count + 1) ≤ m.capacity →
    2 ≤ (ckInsertLoop k v m att rem).1.capacity ∧
    2 * (ckInsertLoop k v m att rem).1.size_count ≤ (ckInsertLoop k v m att rem).1.capacity := by
  intro rem
  induction rem with
  | zero =>
    intro m att hinv hc2 hload
    have heq : ckInsertLoop k v m att 0 =
        ((ckInnerInsert m k v).1, att, (ckInnerInsert m k v).2) := rfl
    rw [heq]
    obtain ⟨hfix, _, _, hle, _⟩ := ckInnerInsert_spec m k v hinv.1
    have hcap : (ckInnerInsert m k v).1.capacity = m.capacity := hfix.1
    constructor
    · show 2 ≤ (ckInnerInsert m k v).1.capacity
      rw [hcap]
      omega
    · show 2 * (ckInnerInsert m k v).1.size_count ≤ (ckInnerInsert m k v).1.capacity
      rw [hcap]
      omega
  | succ r ih =>
    intro m att hinv hc2 hload
    rcases hins : (ckInnerInsert m k v).2 with _ | _
    · have heq : ckInsertLoop k v m att (r + 1) =
          ckInsertLoop k v (ckRehash (ckInnerInsert m k v).1) (att + 1) r := by
        simp only [ckInsertLoop, hins, Bool.false_eq_true, if_false]
      rw [heq]
      obtain ⟨hfix, _, _, hle, _⟩ := ckInnerInsert_spec m k v hinv.1
      have hinv1 : ckInv (ckInnerInsert m k v).1 := ckInnerInsert_inv hinv
      have hcap1 : (ckInnerInsert m k v).1.capacity = m.capacity := hfix.1
      obtain ⟨r1, r2, r3, r4, r5⟩ := ckRehash_spec (ckInnerInsert m k v).1 hinv1.1.1
      refine ih (ckRehash (ckInnerInsert m k v).1) (att + 1) ⟨r1, r4⟩ ?_ ?_
      · rw [r2, hcap1]
        omega
      · rw [r2, hcap1]
        have hocc1 : ckOcc (ckInnerInsert m k v).1 = (ckInnerInsert m k v).1.size_count :=
          hinv1.2.symm
        omega
    · have heq : ckInsertLoop k v m att (r + 1) = ((ckInnerInsert m k v).1, att, true) := by
        simp only [ckInsertLoop, hins, if_pos]
      rw [heq]
      obtain ⟨hfix, _, _, hle, _⟩ := ckInnerInsert_spec m k v hinv.1
      have hcap : (ckInnerInsert m k v).1.capacity = m.capacity := hfix.1
      constructor
      · show 2 ≤ (ckInnerInsert m k v).1.capacity
        rw [hcap]
        omega
      · show 2 * (ckInnerInsert m k v).1.size_count ≤ (ckInnerInsert m k v).1.capacity
        rw [hcap]
        omega

lemma ckInsertB {m m2 : CkMap K V} {k : K} {v : V}
    (hinv : ckInv m) (hc2 : 2 ≤ m.capacity) (hb : 2 * m.size_count ≤ m.capacity)
    (h : ckInsert m k v = some m2) :
    2 ≤ m2.capacity ∧ 2 * m2.size_count ≤ m2.capacity := by
  have hd : ckInsert m k v =
      (if (ckInsertLoop k v (if ckTrigger m then ckRehash m else m) 0 8).2.1 ≥ 8
        then none
        else some (ckInsertLoop k v (if ckTrigger m then ckRehash m else m) 0 8).1) := rfl
  rw [hd] at h
  set m0 := if ckTrigger m then ckRehash m else m with hm0
  have hstart : ckInv m0 ∧ 2 ≤ m0.capacity ∧ 2 * (m0.size_count + 1) ≤ m0.capacity := by
    rw [hm0]
    by_cases ht : ckTrigger m
    · rw [if_pos ht]
      obtain ⟨r1, r2, r3, r4, r5⟩ := ckRehash_spec m hinv.1.1
      have hocc : ckOcc m = m.size_count := hinv.2.symm
      exact ⟨⟨r1, r4⟩, by rw [r2]; omega, by rw [r2]; omega⟩
    · rw [if_neg ht]
      have htt : ¬ 2 * (m.size_count + 1) > m.capacity := by
        unfold ckTrigger at ht
        intro hc
        rw [decide_eq_true hc] at ht
        simp at ht
      exact ⟨hinv, hc2, by omega⟩
  obtain ⟨g1, g2⟩ := ckInsertLoopB k v 8 m0 0 hstart.1 hstart.2.1 hstart.2.2
  by_cases hge : (ckInsertLoop k v m0 0 8).2.1 ≥ 8
  · rw [if_pos hge] at h
    exact absurd h (by simp)
  · rw [if_neg hge] at h
    obtain rfl := Option.some_inj.mp h
    exact ⟨g1, g2⟩

/-- The reachable-state property used for the cuckoo load-factor bound. -/
def ckB (m : CkMap K V) : Prop := ckInv m ∧ 2 ≤ m.capacity ∧ 2 * m.size_count ≤ m.capacity

lemma ckStep_B {m m2 : CkMap K V} {op : MapOp K V}
    (hb : ckB m) (h : ckStep m op = some m2) : ckB m2 := by
  obtain ⟨hinv, hc2, hbound⟩ := hb
  have hinv2 : ckInv m2 := ckStep_inv hinv h
  cases op with
  | ins k v =>
    obtain ⟨g1, g2⟩ := ckInsertB hinv hc2 hbound h
    exact ⟨hinv2, g1, g2⟩
  | del k =>
    obtain rfl := Option.some_inj.mp h
    have hcs : (ckRemove m k).2.capacity = m.capacity ∧
        (ckRemove m k).2.size_count ≤ m.size_count := by
      unfold ckRemove
      by_cases hc1 : ckSlotKeyIs (m.table1.getD (ckHash1 m k) none) k = true
      · rw [if_pos hc1]
        exact ⟨rfl, by show m.size_count - 1 ≤ m.size_count; omega⟩
      · rw [if_neg hc1]
        by_cases hc2b : ckSlotKeyIs (m.table2.getD (ckHash2 m k) none) k = true
        · rw [if_pos hc2b]
          exact ⟨rfl, by show m.size_count - 1 ≤ m.size_count; omega⟩
        · rw [if_neg hc2b]
          exact ⟨rfl, le_refl _⟩
    exact ⟨hinv2, by omega, by omega⟩
  | clr =>
    obtain rfl := Option.some_inj.mp h
    exact ⟨hinv2, hc2, by show 2 * 0 ≤ m.capacity; omega⟩
  | idx k d =>
    rcases hbk : ckBracket m k d with _ | r
    · rw [ckStep, hbk] at h
      exact absurd h (by simp)
    · rw [ckStep, hbk] at h
      simp only [Option.map_some'] at h
      obtain rfl := Option.some_inj.mp h
      rcases ckBracket_state hbk with hsame | ⟨m1, hins, hstate⟩
      · rw [hsame]
        exact ⟨hsame ▸ hinv2, hc2, hbound⟩
      · obtain ⟨g1, g2⟩ := ckInsertB hinv hc2 hbound hins
        rw [hstate]
        exact ⟨hstate ▸ hinv2, g1, g2⟩

lemma ckRun_B : ∀ (ops : List (MapOp K V)) (m m2 : CkMap K V),
    ckB m → ckRun m ops = some m2 → ckB m2 := by
  intro ops
  induction ops with
  | nil =>
    intro m m2 hb h
    obtain rfl := Option.some_inj.mp h
    exact hb
  | cons op rest ih =>
    intro m m2 hb h
    rw [ckRun] at h
    rcases hst : ckStep m op with _ | mmid
    · rw [hst] at h
      exact absurd h (by simp)
    · rw [hst] at h
      simp only [Option.some_bind] at h
      exact ih mmid m2 (ckStep_B hb hst) h

/-! ## Capacity positivity (all variants) -/

lemma lpInsert_wf {m m2 : LpMap K V} {k : K} {v : V}
    (hwf : lpWf m) (h : lpInsert m k v = some m2) : lpWf m2 := by
  unfold lpInsert at h
  by_cases ht : lpTrigger m
  · rw [ht] at h
    simp only [if_pos] at h
    rcases hre : lpRehash m with _ | m1
    · rw [hre] at h
      exact absurd h (by simp)
    · rw [hre] at h
      simp only [Option.some_bind] at h
      obtain ⟨r1, r2, r3⟩ := lpRehash_fields hre
      have hwf1 : lpWf m1 := ⟨by rw [r3, r1], by rw [r1]; have := hwf.2; omega⟩
      exact (lpInnerInsert_numeric hwf1 h).2.2.1
  · rw [Bool.not_eq_true] at ht
    rw [ht] at h
    simp only [Bool.false_eq_true, if_false, Option.some_bind] at h
    exact (lpInnerInsert_numeric hwf h).2.2.1

lemma lpStep_wf {m m2 : LpMap K V} {op : MapOp K V}
    (hwf : lpWf m) (h : lpStep m op = some m2) : lpWf m2 := by
  cases op with
  | ins k v => exact lpInsert_wf hwf h
  | del k =>
    obtain rfl := Option.some_inj.mp h
    unfold lpRemove
    rcases hf : lpFindSlotForLookup m k with _ | j
    · exact hwf
    · obtain ⟨v1, hj⟩ := lpFindSlotForLookup_found hf
      simp only []
      rw [hj]
      simp only []
      exact ⟨by rw [List.length_set]; exact hwf.1, hwf.2⟩
  | clr =>
    obtain rfl := Option.some_inj.mp h
    exact ⟨by show (m.table.map _).length = m.capacity; rw [List.length_map]; exact hwf.1,
      hwf.2⟩
  | idx k d =>
    rcases hb : lpBracket m k d with _ | r
    · rw [lpStep, hb] at h
      exact absurd h (by simp)
    · rw [lpStep, hb] at h
      simp only [Option.map_some'] at h
      obtain rfl := Option.some_inj.mp h
      unfold lpBracket at hb
      rcases h1 : lpFindSlotForLookup m k with _ | i
      · rw [h1] at hb
        simp only [] at hb
        rcases hins : lpInsert m k d with _ | m1
        · rw [hins] at hb
          exact absurd hb (by simp)
        · rw [hins] at hb
          simp only [Option.some_bind] at hb
          have hwf1 : lpWf m1 := lpInsert_wf hwf hins
          rcases h2 : lpFindSlotForLookup m1 k with _ | j
          · rw [h2] at hb
            exact absurd hb (by simp)
          · rw [h2] at hb
            simp only [] at hb
            rcases hs : m1.table.getD j .empty with _ | ⟨k0, v0⟩ | ⟨k0, v0⟩ <;>
              rw [hs] at hb <;> simp only [] at hb
            · exact absurd hb (by simp)
            · obtain rfl := Option.some_inj.mp hb.symm
              exact hwf1
            · obtain rfl := Option.some_inj.mp hb.symm
              exact hwf1
      · rw [h1] at hb
        simp only [] at hb
        rcases hs : m.table.getD i .empty with _ | ⟨k0, v0⟩ | ⟨k0, v0⟩ <;>
          rw [hs] at hb <;> simp only [] at hb
        · exact absurd hb (by simp)
        · obtain rfl := Option.some_inj.mp hb.symm
          exact hwf
        · obtain rfl := Option.some_inj.mp hb.symm
          exact hwf

lemma lpRun_wf : ∀ (ops : List (MapOp K V)) (m m2 : LpMap K V),
    lpWf m → lpRun m ops = some m2 → lpWf m2 := by
  intro ops
  induction ops with
  | nil =>
    intro m m2 hwf h
    obtain rfl := Option.some_inj.mp h
    exact hwf
  | cons op rest ih =>
    intro m m2 hwf h
    rw [lpRun] at h
    rcases hst : lpStep m op with _ | mmid
    · rw [hst] at h
      exact absurd h (by simp)
    · rw [hst] at h
      simp only [Option.some_bind] at h
      exact ih mmid m2 (lpStep_wf hwf hst) h

lemma scResize_wf {m : ScMap K V} (hwf : scWf m) : scWf (scResize m) := by
  set m0 : ScMap K V :=
    { m with capacity := m.capacity * 2
             buckets := List.replicate (m.capacity * 2) []
             size_count := 0 } with hm0
  obtain ⟨f1, f2, f3⟩ := scReinsert_fields m.buckets m0
  have heq : scResize m = scReinsert m0 m.buckets := rfl
  constructor
  · rw [heq, f3, f1]
    show (List.replicate (m.capacity * 2) ([] : List (K × V))).length = m.capacity * 2
    rw [List.length_replicate]
  · rw [heq, f1]
    show 0 < m.capacity * 2
    have := hwf.2
    omega

lemma scInsert_wf {m : ScMap K V} (hwf : scWf m) (k : K) (v : V) :
    scWf (scInsert m k v) := by
  unfold scInsert
  by_cases ht : scTrigger m
  · rw [if_pos ht]
    obtain ⟨_, _, n3, n4⟩ := scInnerInsert_numeric (scResize_wf hwf) k v
    exact ⟨by rw [n4, n3]; exact (scResize_wf hwf).1, by rw [n3]; exact (scResize_wf hwf).2⟩
  · rw [if_neg ht]
    obtain ⟨_, _, n3, n4⟩ := scInnerInsert_numeric hwf k v
    exact ⟨by rw [n4, n3]; exact hwf.1, by rw [n3]; exact hwf.2⟩

lemma scStep_wf {m m2 : ScMap K V} {op : MapOp K V}
    (hwf : scWf m) (h : scStep m op = some m2) : scWf m2 := by
  cases op with
  | ins k v =>
    obtain rfl := Option.some_inj.mp h
    exact scInsert_wf hwf k v
  | del k =>
    obtain rfl := Option.some_inj.mp h
    unfold scRemove
    rcases hr : (scBucketRemove (m.buckets.getD (scBucketIndex m k) []) k).1 with _ | v
    · simp only [hr]
      exact hwf
    · simp only [hr]
      refine ⟨?_, hwf.2⟩
      show (m.buckets.set _ _).length = m.capacity
      rw [List.length_set]
      exact hwf.1
  | clr =>
    obtain rfl := Option.some_inj.mp h
    exact ⟨by show (m.buckets.map _).length = m.capacity; rw [List.length_map]; exact hwf.1,
      hwf.2⟩
  | idx k d =>
    rcases hb : scBracket m k d with _ | r
    · rw [scStep, hb] at h
      exact absurd h (by simp)
    · rw [scStep, hb] at h
      simp only [Option.map_some'] at h
      obtain rfl := Option.some_inj.mp h
      unfold scBracket at hb
      rcases h1 : scBucketFind (m.buckets.getD (scBucketIndex m k) []) k with _ | v
      · rw [h1] at hb
        simp only [] at hb
        rcases h2 : scBucketFind ((scInsert m k d).buckets.getD
            (scBucketIndex (scInsert m k d) k) []) k with _ | v2
        · rw [h2] at hb
          exact absurd hb (by simp)
        · rw [h2] at hb
          obtain rfl := Option.some_inj.mp hb.symm
          exact scInsert_wf hwf k d
      · rw [h1] at hb
        simp only [] at hb
        obtain rfl := Option.some_inj.mp hb.symm
        exact hwf

lemma scRun_wf : ∀ (ops : List (MapOp K V)) (m m2 : ScMap K V),
    scWf m → scRun m ops = some m2 → scWf m2 := by
  intro ops
  induction ops with
  | nil =>
    intro m m2 hwf h
    obtain rfl := Option.some_inj.mp h
    exact hwf
  | cons op rest ih =>
    intro m m2 hwf h
    rw [scRun] at h
    rcases hst : scStep m op with _ | mmid
    · rw [hst] at h
      exact absurd h (by simp)
    · rw [hst] at h
      simp only [Option.some_bind] at h
      exact ih mmid m2 (scStep_wf hwf hst) h

/-! ## Probing map: what rehash does to the stored entries -/

/-- The live (Occupied) entries of a table, in index order. -/
def lpLive (l : List (LpSlot K V)) : List (K × V) :=
  l.filterMap fun s =>
    match s with
    | .occupied k v => some (k, v)
    | _ => none

/-- The key `q` is stored with value `w` (an `Occupied` slot holds it). -/
def lpMapsTo (m : LpMap K V) (q : K) (w : V) : Prop :=
  ∃ i, m.table.getD i .empty = .occupied q w

/-- No slot of the table is a tombstone. -/
def lpTombFree (m : LpMap K V) : Prop :=
  ∀ i, lpIsDeleted (m.table.getD i .empty) = false

lemma lpMapsTo_iff_mem_live (m : LpMap K V) (q : K) (w : V) :
    lpMapsTo m q w ↔ (q, w) ∈ lpLive m.table := by
  constructor
  · rintro ⟨i, hi⟩
    have hlen : i < m.table.length := lt_length_of_getD_ne (by rw [hi]; simp)
    unfold lpLive
    rw [List.mem_filterMap]
    refine ⟨.occupied q w, ?_, rfl⟩
    rw [← hi, List.getD_eq_getElem _ _ hlen]
    exact List.getElem_mem hlen
  · intro hmem
    unfold lpLive at hmem
    rw [List.mem_filterMap] at hmem
    obtain ⟨s, hs, hmatch⟩ := hmem
    rcases s with _ | ⟨k0, v0⟩ | ⟨k0, v0⟩
    · exact absurd hmatch (by simp)
    · simp only [Option.some_inj] at hmatch
      obtain ⟨rfl, rfl⟩ := Prod.mk.injEq .. ▸ hmatch
      obtain ⟨i, hilen, hieq⟩ := List.mem_iff_getElem.mp hs
      exact ⟨i, by rw [List.getD_eq_getElem _ _ hilen, hieq]⟩
    · exact absurd hmatch (by simp)

lemma lpFindInsertAux_none_all (m : LpMap K V) (key : K) (hc : 0 < m.capacity) :
    ∀ fuel idx, idx < m.capacity → lpFindInsertAux m key idx fuel = none →
      ∀ t, t < fuel → lpIsOccupied (m.table.getD ((idx + t) % m.capacity) .empty) = true := by
  intro fuel
  induction fuel with
  | zero => intro idx _ _ t ht; omega
  | succ f ih =>
    intro idx hidx h t ht
    rcases hs : m.table.getD idx .empty with _ | ⟨k, v⟩ | ⟨k, v⟩
    · rw [lpFindInsertAux_free f (by rw [hs]; rfl)] at h
      exact absurd h (by simp)
    · by_cases hk : k = key
      · rw [lpFindInsertAux_occ_hit f hs hk] at h
        exact absurd h (by simp)
      · rw [lpFindInsertAux_occ_miss f hs hk] at h
        rcases t with _ | t
        · rw [Nat.add_zero, Nat.mod_eq_of_lt hidx, hs]
          rfl
        · have := ih ((idx + 1) % m.capacity) (Nat.mod_lt _ hc) h t (by omega)
          rwa [Nat.mod_add_mod, show (idx + 1 + t) = idx + (t + 1) by ring] at this
    · rw [lpFindInsertAux_free f (by rw [hs]; rfl)] at h
      exact absurd h (by simp)

lemma lpFindSlotForInsert_succeeds (m : LpMap K V) (key : K) (hwf : lpWf m)
    (hocc : lpOcc m < m.capacity) : ∃ i, lpFindSlotForInsert m key = some i := by
  obtain ⟨hlen, hc⟩ := hwf
  rcases hres : lpFindSlotForInsert m key with _ | i
  · exfalso
    have hstart : lpGetHash m key < m.capacity := Nat.mod_lt _ hc
    have hall := lpFindInsertAux_none_all m key hc m.capacity (lpGetHash m key) hstart hres
    have hallidx : ∀ i, i < m.capacity → lpIsOccupied (m.table.getD i .empty) = true := by
      intro i hi
      have := hall (probeDist m.capacity (lpGetHash m key) i) (probeDist_lt hstart hi)
      rwa [probe_add_dist hstart hi] at this
    have hfull : m.table.countP lpIsOccupied = m.table.length := by
      rw [List.countP_eq_length]
      intro a ha
      obtain ⟨j, hj, hje⟩ := List.mem_iff_getElem.mp ha
      have := hallidx j (hlen ▸ hj)
      rwa [List.getD_eq_getElem _ _ hj, hje] at this
    have : lpOcc m = m.capacity := by rw [lpOcc, hfull, hlen]
    omega
  · exact ⟨i, rfl⟩

lemma lpLive_nil : lpLive ([] : List (LpSlot K V)) = [] := rfl

lemma lpLive_cons_empty (rest : List (LpSlot K V)) :
    lpLive (.empty :: rest) = lpLive rest := rfl

lemma lpLive_cons_del (k : K) (v : V) (rest : List (LpSlot K V)) :
    lpLive (.deleted k v :: rest) = lpLive rest := rfl

lemma lpLive_cons_occ (k : K) (v : V) (rest : List (LpSlot K V)) :
    lpLive (.occupied k v :: rest) = (k, v) :: lpLive rest := rfl

lemma lpInnerInsert_fresh {m : LpMap K V} {k : K} {v : V}
    (hwf : lpWf m) (htf : lpTombFree m)
    (hfresh : ∀ w, ¬ lpMapsTo m k w)
    (hocc : lpOcc m < m.capacity) :
    ∃ m2, lpInnerInsert m k v = some m2 ∧
      lpWf m2 ∧ lpTombFree m2 ∧
      lpOcc m2 = lpOcc m + 1 ∧
      m2.capacity = m.capacity ∧ m2.deleted_count = m.deleted_count ∧
      (∀ q w, lpMapsTo m2 q w ↔ (lpMapsTo m q w ∨ (q = k ∧ w = v))) := by
  obtain ⟨hlen, hc⟩ := hwf
  obtain ⟨i, hfind⟩ := lpFindSlotForInsert_succeeds m k ⟨hlen, hc⟩ hocc
  have hstart : lpGetHash m k < m.capacity := Nat.mod_lt _ hc
  obtain ⟨s, hsf, hieq, -⟩ :=
    lpFindInsertAux_shape m k m.capacity (lpGetHash m k) i hstart hfind
  have hicap : i < m.capacity := hieq ▸ Nat.mod_lt _ hc
  have hilen : i < m.table.length := hlen ▸ hicap
  have hstop := lpFindInsertAux_stop m k m.capacity (lpGetHash m k) i hfind
  have hs : m.table.getD i .empty = .empty := by
    rcases hslot : m.table.getD i .empty with _ | ⟨k0, v0⟩ | ⟨k0, v0⟩
    · rfl
    · rcases hstop with hno | ⟨v1, hv1⟩
      · rw [hslot] at hno
        exact absurd hno (by simp [lpIsOccupied])
      · rw [hslot] at hv1
        have hk0 : k0 = k := by
          have h2 : k0 = k ∧ v0 = v1 := by simpa [LpSlot.occupied.injEq] using hv1
          exact h2.1
        exact absurd ⟨i, hk0 ▸ hslot⟩ (hfresh v0)
    · have := htf i
      rw [hslot] at this
      exact absurd this (by simp [lpIsDeleted])
  refine ⟨{ m with table := m.table.set i (.occupied k v),
                   size_count := m.size_count + 1 }, ?_, ?_, ?_, ?_, rfl, rfl, ?_⟩
  · simp only [lpInnerInsert, hfind, hs]
  · exact ⟨by simpa using hlen, hc⟩
  · intro j
    by_cases hj : i = j
    · subst hj
      rw [getD_set_self _ _ _ _ hilen]
      rfl
    · rw [getD_set_ne _ _ _ hj]
      exact htf j
  · have hbal := countP_set_balance lpIsOccupied m.table i (.occupied k v) .empty hilen
    rw [hs] at hbal
    simp only [lpIsOccupied, Bool.false_eq_true, if_false, if_pos rfl, if_true] at hbal
    show (m.table.set i (.occupied k v)).countP lpIsOccupied =
      m.table.countP lpIsOccupied + 1
    omega
  · intro q w
    constructor
    · rintro ⟨j, hj⟩
      simp only at hj
      by_cases hji : i = j
      · subst hji
        rw [getD_set_self _ _ _ _ hilen] at hj
        have h2 : k = q ∧ v = w := by simpa [LpSlot.occupied.injEq] using hj
        exact Or.inr ⟨h2.1.symm, h2.2.symm⟩
      · rw [getD_set_ne _ _ _ hji] at hj
        exact Or.inl ⟨j, hj⟩
    · rintro (⟨j, hj⟩ | ⟨rfl, rfl⟩)
      · have hji : i ≠ j := by
          intro hh
          rw [← hh, hs] at hj
          exact absurd hj (by simp)
        exact ⟨j, by simp only; rw [getD_set_ne _ _ _ hji]; exact hj⟩
      · exact ⟨i, by simp only; rw [getD_set_self _ _ _ _ hilen]⟩

lemma lpReinsert_fresh :
    ∀ (l : List (LpSlot K V)) (m : LpMap K V) (P : List (K × V)),
      lpWf m → lpTombFree m →
      (∀ q w, lpMapsTo m q w ↔ (q, w) ∈ P) →
      lpOcc m = P.length →
      ((P ++ lpLive l).map Prod.fst).Nodup →
      P.length + (lpLive l).length ≤ m.capacity →
      ∃ m2, lpReinsert m l = some m2 ∧
        lpWf m2 ∧ lpTombFree m2 ∧
        m2.capacity = m.capacity ∧ m2.deleted_count = m.deleted_count ∧
        (∀ q w, lpMapsTo m2 q w ↔ (q, w) ∈ P ++ lpLive l) := by
  intro l
  induction l with
  | nil =>
    intro m P hwf htf hmap hocc _ _
    exact ⟨m, rfl, hwf, htf, rfl, rfl, by simpa [lpLive_nil] using hmap⟩
  | cons s rest ih =>
    intro m P hwf htf hmap hocc hnod hbound
    rcases s with _ | ⟨k, w⟩ | ⟨k, w⟩
    · rw [lpLive_cons_empty] at hnod hbound ⊢
      exact ih m P hwf htf hmap hocc hnod hbound
    · rw [lpLive_cons_occ] at hnod hbound
      have hfresh : ∀ w', ¬ lpMapsTo m k w' := by
        intro w' hm
        have hP : (k, w') ∈ P := (hmap k w').mp hm
        have hkP : k ∈ P.map Prod.fst := List.mem_map.mpr ⟨(k, w'), hP, rfl⟩
        rw [List.map_append, List.nodup_append] at hnod
        exact absurd (by simp) (hnod.2.2 hkP)
      have hofull : lpOcc m < m.capacity := by
        simp only [List.length_cons] at hbound
        omega
      obtain ⟨m1, hins, hwf1, htf1, hocc1, hcap1, hdel1, hmap1⟩ :=
        @lpInnerInsert_fresh _ _ _ m k w hwf htf hfresh hofull
      have hmap1' : ∀ q w', lpMapsTo m1 q w' ↔ (q, w') ∈ P ++ [(k, w)] := by
        intro q w'
        rw [hmap1 q w', hmap q w']
        simp [Prod.ext_iff]
      have hocc1' : lpOcc m1 = (P ++ [(k, w)]).length := by
        rw [hocc1, hocc]
        simp
      have hnod' : (((P ++ [(k, w)]) ++ lpLive rest).map Prod.fst).Nodup := by
        rw [List.append_assoc, List.singleton_append]
        exact hnod
      have hbound' : (P ++ [(k, w)]).length + (lpLive rest).length ≤ m1.capacity := by
        have hb2 : P.length + ((lpLive rest).length + 1) ≤ m.capacity := by
          simpa using hbound
        rw [hcap1, List.length_append, List.length_singleton]
        omega
      obtain ⟨m2, hrec, hwf2, htf2, hcap2, hdel2, hmap2⟩ :=
        ih m1 (P ++ [(k, w)]) hwf1 htf1 hmap1' hocc1' hnod' hbound'
      refine ⟨m2, ?_, hwf2, htf2, hcap2.trans hcap1, hdel2.trans hdel1, ?_⟩
      · show (lpInnerInsert m k w).bind (lpReinsert · rest) = some m2
        rw [hins, Option.some_bind]
        exact hrec
      · intro q w'
        rw [hmap2 q w', lpLive_cons_occ, List.append_assoc, List.singleton_append]
    · rw [lpLive_cons_del] at hnod hbound ⊢
      exact ih m P hwf htf hmap hocc hnod hbound

/-- The fresh accumulator with which `LpHashMap::rehash` starts its
reinsertion loop. -/
def lpRehashBase (m : LpMap K V) : LpMap K V :=
  { m with capacity := m.capacity * 2,
           table := List.replicate (m.capacity * 2) LpSlot.empty,
           size_count := 0,
           deleted_count := 0 }

lemma lpRehash_eq_base (m : LpMap K V) :
    lpRehash m = lpReinsert (lpRehashBase m) m.table := rfl

lemma lpRehash_full (m : LpMap K V) (hwf : lpWf m)
    (hnd : ((lpLive m.table).map Prod.fst).Nodup) :
    ∃ m2, lpRehash m = some m2 ∧
      m2.capacity = m.capacity * 2 ∧ m2.deleted_count = 0 ∧
      lpWf m2 ∧ lpTombFree m2 ∧
      (∀ q w, lpMapsTo m2 q w ↔ lpMapsTo m q w) := by
  obtain ⟨hlen, hc⟩ := hwf
  have hwf0 : lpWf (lpRehashBase m) := by
    constructor
    · show (List.replicate (m.capacity * 2) LpSlot.empty).length = m.capacity * 2
      exact List.length_replicate _ _
    · show 0 < m.capacity * 2
      omega
  have htf0 : lpTombFree (lpRehashBase m) := by
    intro i
    show lpIsDeleted ((List.replicate (m.capacity * 2) LpSlot.empty).getD i .empty) = false
    rw [getD_replicate_self]
    rfl
  have hmap0 : ∀ q w, lpMapsTo (lpRehashBase m) q w ↔ (q, w) ∈ ([] : List (K × V)) := by
    intro q w
    constructor
    · rintro ⟨i, hi⟩
      rw [show (lpRehashBase m).table = List.replicate (m.capacity * 2) LpSlot.empty from rfl,
        getD_replicate_self] at hi
      exact absurd hi (by simp)
    · intro h
      exact absurd h (List.not_mem_nil _)
  have hocc0 : lpOcc (lpRehashBase m) = ([] : List (K × V)).length := by
    show (List.replicate (m.capacity * 2) LpSlot.empty).countP lpIsOccupied = 0
    rw [List.countP_eq_zero]
    intro a ha
    rw [List.eq_of_mem_replicate ha]
    simp [lpIsOccupied]
  have hnod0 : ((([] : List (K × V)) ++ lpLive m.table).map Prod.fst).Nodup := by
    rwa [List.nil_append]
  have hbound0 : ([] : List (K × V)).length + (lpLive m.table).length ≤
      (lpRehashBase m).capacity := by
    show 0 + (lpLive m.table).length ≤ m.capacity * 2
    have h1 : (lpLive m.table).length ≤ m.table.length := List.length_filterMap_le _ _
    omega
  obtain ⟨m2, hrun, hwf2, htf2, hcap2, hdel2, hmap2⟩ :=
    lpReinsert_fresh m.table (lpRehashBase m) [] hwf0 htf0 hmap0 hocc0 hnod0 hbound0
  refine ⟨m2, ?_, ?_, ?_, hwf2, htf2, ?_⟩
  · rw [lpRehash_eq_base]
    exact hrun
  · rw [hcap2]
    rfl
  · rw [hdel2]
    rfl
  · intro q w
    rw [hmap2 q w, List.nil_append, ← lpMapsTo_iff_mem_live]

/-! ## Cuckoo map: the rehash-retry cycle of insert, attempt by attempt -/

/-- The map on which the `j`-th `inner_insert` attempt of the retry loop
of `CkHashMap::insert` operates: attempt `0` runs on the starting map,
and each later attempt runs after one more rehash of the previous
attempt's result. -/
def ckAttemptState (key : K) (value : V) (m : CkMap K V) : Nat → CkMap K V
  | 0 => m
  | j + 1 => ckRehash (ckInnerInsert (ckAttemptState key value m j) key value).1

lemma ckAttemptState_shift (key : K) (value : V) (m : CkMap K V) :
    ∀ j, ckAttemptState key value (ckRehash (ckInnerInsert m key value).1) j =
      ckAttemptState key value m (j + 1) := by
  intro j
  induction j with
  | zero => rfl
  | succ j ih =>
    rw [ckAttemptState, ih]
    exact rfl

lemma ckInsertLoop_all_fail (key : K) (value : V) :
    ∀ (rem : Nat) (m : CkMap K V) (att : Nat),
      (∀ j, j < rem → (ckInnerInsert (ckAttemptState key value m j) key value).2 = false) →
      ckInsertLoop key value m att rem =
        ((ckInnerInsert (ckAttemptState key value m rem) key value).1, att + rem,
          (ckInnerInsert (ckAttemptState key value m rem) key value).2) := by
  intro rem
  induction rem with
  | zero =>
    intro m att _
    rw [ckInsertLoop, ckAttemptState]
    exact rfl
  | succ rem ih =>
    intro m att hfail
    have h0 : (ckInnerInsert m key value).2 = false := hfail 0 (by omega)
    rw [ckInsertLoop]
    simp only [h0, Bool.false_eq_true, if_false]
    have hrec := ih (ckRehash (ckInnerInsert m key value).1) (att + 1) (by
      intro j hj
      rw [ckAttemptState_shift]
      exact hfail (j + 1) (by omega))
    rw [hrec, ckAttemptState_shift]
    have harith : att + 1 + rem = att + (rem + 1) := by omega
    rw [harith]

lemma ckInsertLoop_first_success (key : K) (value : V) :
    ∀ (rem : Nat) (m : CkMap K V) (att : Nat) (j : Nat),
      j < rem →
      (∀ i, i < j → (ckInnerInsert (ckAttemptState key value m i) key value).2 = false) →
      (ckInnerInsert (ckAttemptState key value m j) key value).2 = true →
      ckInsertLoop key value m att rem =
        ((ckInnerInsert (ckAttemptState key value m j) key value).1, att + j, true) := by
  intro rem
  induction rem with
  | zero => intro m att j hj _ _; omega
  | succ rem ih =>
    intro m att j hj hbefore hsucc
    rcases j with _ | j
    · rw [ckAttemptState] at hsucc ⊢
      rw [ckInsertLoop]
      simp only [hsucc, if_true, Nat.add_zero]
    · have h0 : (ckInnerInsert m key value).2 = false := hbefore 0 (by omega)
      rw [ckInsertLoop]
      simp only [h0, Bool.false_eq_true, if_false]
      have hrec := ih (ckRehash (ckInnerInsert m key value).1) (att + 1) j (by omega)
        (by
          intro i hi
          rw [ckAttemptState_shift]
          exact hbefore (i + 1) (by omega))
        (by
          rw [ckAttemptState_shift]
          exact hsucc)
      rw [hrec, ckAttemptState_shift]
      have harith : att + 1 + j = att + (j + 1) := by omega
      rw [harith]

/-! ## SipHash: the source computation matches the specification -/

lemma sip_shift56 (L : Nat) : (L <<< 56) % 2 ^ 64 = (L % 256) <<< 56 := by
  rw [Nat.shiftLeft_eq, Nat.shiftLeft_eq]
  have h : (2 : Nat) ^ 64 = 2 ^ 8 * 2 ^ 56 := by norm_num
  rw [h, Nat.mul_mod_mul_right]
  norm_num

set_option maxHeartbeats 2000000 in
lemma sipSpecBody_eq (L : Nat) : ∀ (st : SipState) (bs : List Nat),
    sipSpecBody L st bs =
      sipFinalize (sipCompress (sipChunkLoop st bs (bs.length / 8)).1
        (((L % 256) <<< 56) ||| leWord (sipChunkLoop st bs (bs.length / 8)).2)) := by
  intro st bs
  induction st, bs using sipSpecBody.induct L with
  | case1 st b0 b1 b2 b3 b4 b5 b6 b7 rest ih =>
    rw [sipSpecBody, ih]
    have hlen : (b0 :: b1 :: b2 :: b3 :: b4 :: b5 :: b6 :: b7 :: rest).length / 8 =
        rest.length / 8 + 1 := by
      simp only [List.length_cons]
      omega
    rw [hlen, sipChunkLoop]
    rfl
  | case2 st tail h =>
    rcases tail with _ | ⟨a0, _ | ⟨a1, _ | ⟨a2, _ | ⟨a3, _ | ⟨a4, _ | ⟨a5, _ | ⟨a6, _ | ⟨a7, r⟩⟩⟩⟩⟩⟩⟩⟩
    · simp [sipSpecBody, sipChunkLoop]
    · simp [sipSpecBody, sipChunkLoop]
    · simp [sipSpecBody, sipChunkLoop]
    · simp [sipSpecBody, sipChunkLoop]
    · simp [sipSpecBody, sipChunkLoop]
    · simp [sipSpecBody, sipChunkLoop]
    · simp [sipSpecBody, sipChunkLoop]
    · simp [sipSpecBody, sipChunkLoop]
    · exact absurd rfl (h a0 a1 a2 a3 a4 a5 a6 a7 r)

lemma sipHash_eq_spec (k0 k1 : Nat) (bytes : List Nat) :
    sipHash k0 k1 bytes = sipHashSpec k0 k1 bytes := by
  unfold sipHash sipHashSpec
  rw [sipSpecBody_eq]
  simp only
  rw [sip_shift56]

/-! ## Concrete instances used by the claim counterexamples -/

/-- The keys of the live (Occupied) entries of a probing map, in index
order. -/
def lpLiveKeys (m : LpMap K V) : List K := (lpLive m.table).map Prod.fst

/-- A seed stream over `K = Nat`: the constructor's two hashers map every
key to 0, every later (rehash-drawn) hasher is the identity. -/
def ckSeedsA : Nat → Nat → Nat := fun i => if i < 2 then (fun _ => 0) else (fun k => k)

/-- A seed stream over `K = Nat`: the first sixteen hashers map every key
to 0 (so the constructor's pair and the first seven rehash-drawn pairs
all collide), every later hasher is the identity. -/
def ckSeedsB : Nat → Nat → Nat := fun i => if i < 16 then (fun _ => 0) else (fun k => k)

/-! ## The claims -/

/-- Claim C1: key uniqueness across live entries fails for the probing
map.  From a fresh `LpHashMap` (capacity 16, all keys hashing alike),
the public sequence insert(1,10), insert(2,20), remove(1), insert(2,21)
runs normally and leaves two distinct `Occupied` slots both holding key
2: `find_slot_for_insert` stops at the tombstone left by remove(1)
before reaching the slot that already holds key 2. -/
theorem claim_C1_duplicate_live_keys :
    ((lpRun (lpNew (fun _ => 0) 16 : LpMap Nat Nat)
        [.ins 1 10, .ins 2 20, .del 1, .ins 2 21]).map
      (fun m => decide (lpLiveKeys m).Nodup)) = some false := by decide

/-- Claim C2 (amended): for the cuckoo map, on an insert whose first
`inner_insert` attempt succeeds with no load-triggered rehash, every
other key's lookup result is unchanged and the inserted key maps to the
new value.  (The unrestricted claim is false: a failed eviction walk
drops the in-flight entry, see the counterexample.) -/
theorem claim_C2_insert_preserves_entries (m : CkMap K V) (k : K) (v : V)
    (hgood : ckGood m) (hnt : ckTrigger m = false)
    (hfirst : (ckInnerInsert m k v).2 = true) :
    ∃ m2, ckInsert m k v = some m2 ∧ ckAt m2 k = some v ∧
      ∀ q, q ≠ k → ckAt m2 q = ckAt m q := by
  have hloop := ckInsertLoop_first_success k v 8 m 0 0 (by omega)
    (fun i hi => absurd hi (by omega)) (by rw [ckAttemptState]; exact hfirst)
  rw [ckAttemptState] at hloop
  have hd : ckInsert m k v =
      (if (ckInsertLoop k v (if ckTrigger m then ckRehash m else m) 0 8).2.1 ≥ 8 then none
       else some (ckInsertLoop k v (if ckTrigger m then ckRehash m else m) 0 8).1) := rfl
  rw [hnt] at hd
  simp only [Bool.false_eq_true, if_false] at hd
  rw [hloop] at hd
  have hd2 : ckInsert m k v = some (ckInnerInsert m k v).1 := by
    rw [hd]
    rfl
  obtain ⟨-, -, -, -, hat⟩ := ckInnerInsert_spec m k v hgood
  refine ⟨(ckInnerInsert m k v).1, hd2, ?_, ?_⟩
  · have h2 := hat hfirst k
    rwa [if_pos rfl] at h2
  · intro q hq
    have h2 := hat hfirst q
    rwa [if_neg hq] at h2

/-- Claim C2, counterexample: with both constructor hashers mapping every
key to 0 on a capacity-7 cuckoo map, after insert(1,10) and insert(2,20)
the key 1 is present with value 10; the call insert(3,30) returns
normally (some map), yet key 1 is gone afterwards: the eviction walk
exhausted its budget holding 1's entry in flight and the rehash dropped
it. -/
theorem claim_C2_inflight_entry_dropped :
    ((ckRun (ckNew ckSeedsA 7 : CkMap Nat Nat) [.ins 1 10, .ins 2 20]).map
      (fun m => (ckAt m 1, (ckInsert m 3 30).map (fun m2 => ckAt m2 1)))) =
    some (some 10, some none) := by decide

/-- Claim C2, witness: the amended theorem applied to a fresh capacity-4
cuckoo map and insert(1,10). -/
theorem claim_C2_witness :
    ∃ m2, ckInsert (ckNew (fun _ _ => 0) 4 : CkMap Nat Nat) 1 10 = some m2 ∧
      ckAt m2 1 = some 10 ∧
      ∀ q, q ≠ 1 → ckAt m2 q = ckAt (ckNew (fun _ _ => 0) 4 : CkMap Nat Nat) q :=
  claim_C2_insert_preserves_entries (ckNew (fun _ _ => 0) 4 : CkMap Nat Nat) 1 10
    (ckNew_inv (fun _ _ => 0) 4 (by decide)).1 rfl rfl

/-- Claim C3 (amended): cuckoo insert throws if and only if the first
eight `inner_insert` attempts of the retry loop (attempt `j` running on
the `j`-times-rehashed map) all fail.  The `attempts >= 8` check runs
after the loop, so the result of the ninth `inner_insert` call, made
after the eighth rehash, is ignored: insert throws then even when that
final placement succeeded (see the counterexample). -/
theorem claim_C3_throw_iff_8_failed_attempts (m : CkMap K V) (k : K) (v : V) :
    ckInsert m k v = none ↔
      ∀ j, j < 8 →
        (ckInnerInsert
          (ckAttemptState k v (if ckTrigger m then ckRehash m else m) j) k v).2 = false := by
  have hd : ckInsert m k v =
      (if (ckInsertLoop k v (if ckTrigger m then ckRehash m else m) 0 8).2.1 ≥ 8 then none
       else some (ckInsertLoop k v (if ckTrigger m then ckRehash m else m) 0 8).1) := rfl
  set m0 := if ckTrigger m then ckRehash m else m with hm0
  have hval : ∀ j0, j0 < 8 →
      (∀ i, i < j0 → (ckInnerInsert (ckAttemptState k v m0 i) k v).2 = false) →
      (ckInnerInsert (ckAttemptState k v m0 j0) k v).2 = true →
      ckInsert m k v = some (ckInnerInsert (ckAttemptState k v m0 j0) k v).1 := by
    intro j0 h8 hmin hsucc
    have hloop := ckInsertLoop_first_success k v 8 m0 0 j0 h8 hmin hsucc
    rw [hd, hloop, if_neg (by show ¬(0 + j0 ≥ 8); omega)]
  have hfail : (∀ j, j < 8 → (ckInnerInsert (ckAttemptState k v m0 j) k v).2 = false) →
      ckInsert m k v = none := by
    intro hall
    have hloop := ckInsertLoop_all_fail k v 8 m0 0 hall
    rw [hd, hloop, if_pos (by show 0 + 8 ≥ 8; omega)]
  constructor
  · intro hnone j hj
    by_contra hne
    have hsucc : (ckInnerInsert (ckAttemptState k v m0 j) k v).2 = true := by
      cases hx : (ckInnerInsert (ckAttemptState k v m0 j) k v).2 with
      | false => exact absurd hx hne
      | true => rfl
    have hex : ∃ i, (ckInnerInsert (ckAttemptState k v m0 i) k v).2 = true := ⟨j, hsucc⟩
    have hj0 : Nat.find hex < 8 := lt_of_le_of_lt (Nat.find_min' hex hsucc) hj
    have hmin : ∀ i, i < Nat.find hex →
        (ckInnerInsert (ckAttemptState k v m0 i) k v).2 = false := by
      intro i hi
      cases hx : (ckInnerInsert (ckAttemptState k v m0 i) k v).2 with
      | false => rfl
      | true => exact absurd hx (Nat.find_min hex hi)
    have hsome := hval (Nat.find hex) hj0 hmin (Nat.find_spec hex)
    rw [hsome] at hnone
    exact absurd hnone (by simp)
  · exact hfail

set_option maxRecDepth 10000 in
/-- Claim C3, counterexample: with seed stream `ckSeedsB` (all hashers
collide until the eighth rehash) and capacity 6, after insert(1,10) and
insert(2,20) the call insert(3,30) runs the retry loop to
`attempts = 8`; the final `inner_insert`, made after the eighth rehash,
succeeds and the pair (3,30) sits in the resulting map, yet insert
throws (returns `none`). -/
theorem claim_C3_throws_despite_placement :
    ((ckRun (ckNew ckSeedsB 6 : CkMap Nat Nat) [.ins 1 10, .ins 2 20]).map
      (fun m => ((ckInsertLoop 3 30 m 0 8).2, ckAt (ckInsertLoop 3 30 m 0 8).1 3,
        (ckInsert m 3 30).isSome))) = some ((8, true), some 30, false) := by decide

/-- Claim C4: `Sip13Hasher::hash` computes SipHash-1-3 exactly as
specified: for any seeds and any byte sequence, the source-side
computation (word loop driven by `len / 8` pointer arithmetic, padding
word `((uint64_t)len) << 56` ORed with the 0-7 tail bytes) agrees with
the specification-side recursion (full 8-byte little-endian words
absorbed one mixing round each, then the padding word carrying
`len % 256` in the most significant byte, then the 0xff/3-round
finalization). -/
theorem claim_C4_siphash_matches_spec (k0 k1 : Nat) (bytes : List Nat) :
    sipHash k0 k1 bytes = sipHashSpec k0 k1 bytes :=
  sipHash_eq_spec k0 k1 bytes

/-- Claim C5: probing-map lookup never terminates at a tombstone: a
`Deleted` slot makes `find_slot_for_lookup` step to the next probe
index; consequently removing one key is invisible to lookups of any
other key — `at` and `contains_key` of every other key are unchanged by
`remove`. -/
theorem claim_C5_lookup_skips_tombstones (m : LpMap K V) (k1 k2 : K) (hne : k1 ≠ k2) :
    (∀ idx fuel k0 v0, m.table.getD idx .empty = .deleted k0 v0 →
      lpFindLookupAux m k2 idx (fuel + 1) =
        lpFindLookupAux m k2 ((idx + 1) % m.capacity) fuel) ∧
    lpAt (lpRemove m k1).2 k2 = lpAt m k2 ∧
    lpContains (lpRemove m k1).2 k2 = lpContains m k2 := by
  refine ⟨?_, lpRemove_transparent m k1 k2 hne⟩
  intro idx fuel k0 v0 h
  simp only [lpFindLookupAux, h]

/-- Claim C5, witness: the theorem applied to a fresh capacity-4 probing
map with keys 1 and 2. -/
theorem claim_C5_witness :
    lpAt (lpRemove (lpNew (fun _ => 0) 4 : LpMap Nat Nat) 1).2 2 =
      lpAt (lpNew (fun _ => 0) 4 : LpMap Nat Nat) 2 ∧
    lpContains (lpRemove (lpNew (fun _ => 0) 4 : LpMap Nat Nat) 1).2 2 =
      lpContains (lpNew (fun _ => 0) 4 : LpMap Nat Nat) 2 :=
  (claim_C5_lookup_skips_tombstones (lpNew (fun _ => 0) 4 : LpMap Nat Nat) 1 2
    (by decide)).2

/-- Claim C6: round trip for all three variants — on a well-formed map,
whenever insert(k,v) returns normally, an immediate at(k) returns v and
contains_key(k) returns true. -/
theorem claim_C6_insert_then_lookup (ml : LpMap K V) (ms : ScMap K V) (mc : CkMap K V)
    (k : K) (v : V) (hlw : lpWf ml) (hsw : scWf ms) (hcv : ckInv mc) :
    (∀ ml2, lpInsert ml k v = some ml2 →
      lpAt ml2 k = some v ∧ lpContains ml2 k = true) ∧
    (scAt (scInsert ms k v) k = some v ∧ scContains (scInsert ms k v) k = true) ∧
    (∀ mc2, ckInsert mc k v = some mc2 →
      ckAt mc2 k = some v ∧ ckContains mc2 k = true) := by
  refine ⟨?_, ?_, ?_⟩
  · intro ml2 h
    exact lpInsert_at hlw h
  · exact scInsert_at hsw k v
  · intro mc2 h
    exact ckInsert_at hcv h

/-- Claim C6, witness: the theorem applied to fresh capacity-16 maps and
insert(1,10); the chaining conjunct is extracted after all three
well-formedness hypotheses are discharged. -/
theorem claim_C6_witness :
    scAt (scInsert (scNew (fun _ => 0) 16 : ScMap Nat Nat) 1 10) 1 = some 10 ∧
    scContains (scInsert (scNew (fun _ => 0) 16 : ScMap Nat Nat) 1 10) 1 = true :=
  (claim_C6_insert_then_lookup (lpNew (fun _ => 0) 16 : LpMap Nat Nat)
    (scNew (fun _ => 0) 16 : ScMap Nat Nat) (ckNew (fun _ _ => 0) 16 : CkMap Nat Nat)
    1 10 ⟨by decide, by decide⟩ ⟨by decide, by decide⟩
    (ckNew_inv (fun _ _ => 0) 16 (by decide))).2.1

/-- Claim C7: load-factor bounds along every normally-returning run from
the default initial capacity 16 — the chaining map keeps
size/capacity ≤ 0.75, the probing map ≤ 0.7, the cuckoo map ≤ 0.5
(stated in exact arithmetic). -/
theorem claim_C7_load_factor_bounds (hs hl : K → Nat) (seeds : Nat → K → Nat)
    (ops : List (MapOp K V)) :
    (scRun (scNew hs 16) ops).elim True
      (fun m => 4 * m.size_count ≤ 3 * m.capacity) ∧
    (lpRun (lpNew hl 16) ops).elim True
      (fun m => 10 * m.size_count ≤ 7 * m.capacity) ∧
    (ckRun (ckNew seeds 16) ops).elim True
      (fun m => 2 * m.size_count ≤ m.capacity) := by
  refine ⟨?_, ?_, ?_⟩
  · rcases hrun : scRun (scNew hs 16) ops with _ | m
    · exact trivial
    · have hinv := scRun_inv ops _ m (scNew_inv hs 16 (by omega)) hrun
      simpa using hinv.2.2.2
  · rcases hrun : lpRun (lpNew hl 16) ops with _ | m
    · exact trivial
    · have hinv := lpRun_inv ops _ m (lpNew_inv hl 16 (by omega)) hrun
      simpa using hinv.2.2.2
  · rcases hrun : ckRun (ckNew seeds 16) ops with _ | m
    · exact trivial
    · have hb : ckB (ckNew seeds 16 : CkMap K V) :=
        ⟨ckNew_inv seeds 16 (by omega), by show (2 : Nat) ≤ 16; omega,
          by show 2 * 0 ≤ 16; omega⟩
      have hinv := ckRun_B ops _ m hb hrun
      simpa using hinv.2.2

/-- Claim C8 (amended): the probing map's insert resizes exactly when
`10*(size+1) > 7*capacity` or `10*(size+deleted) > 7*capacity`
(the exact-arithmetic form of the 0.7 double comparisons); the rehash
doubles capacity, resets `deleted_count` to 0 and rebuilds a
tombstone-free table; and — provided the live keys are unique, as the
counterexample shows is necessary — the set of stored key/value pairs is
unchanged. -/
theorem claim_C8_resize_trigger_and_rebuild (m : LpMap K V) (k : K) (v : V)
    (hwf : lpWf m) (hnd : ((lpLive m.table).map Prod.fst).Nodup) :
    (lpTrigger m = true ↔
      (10 * (m.size_count + 1) > 7 * m.capacity ∨
        10 * (m.size_count + m.deleted_count) > 7 * m.capacity)) ∧
    (lpTrigger m = false → lpInsert m k v = lpInnerInsert m k v) ∧
    (lpTrigger m = true →
      lpInsert m k v = (lpRehash m).bind (fun m1 => lpInnerInsert m1 k v)) ∧
    ∃ m2, lpRehash m = some m2 ∧
      m2.capacity = m.capacity * 2 ∧ m2.deleted_count = 0 ∧ lpTombFree m2 ∧
      (∀ q w, lpMapsTo m2 q w ↔ lpMapsTo m q w) := by
  refine ⟨?_, ?_, ?_, ?_⟩
  · simp [lpTrigger]
  · intro h
    simp only [lpInsert, h, Bool.false_eq_true, if_false, Option.some_bind]
  · intro h
    simp only [lpInsert, h, if_true]
  · obtain ⟨m2, h1, h2, h3, _, h5, h6⟩ := lpRehash_full m hwf hnd
    exact ⟨m2, h1, h2, h3, h5, h6⟩

/-- Claim C8, counterexample: all keys hashing alike on capacity 4,
after insert(1,10), insert(2,20), remove(1), insert(2,21) the trigger
holds, `at(2) = 21`, and after the resize performed by insert(3,30) the
map stores `(2,20)` instead: the duplicated key 2 (both (2,21) and the
stale (2,20) exist as live entries) makes the rebuild change the stored
pair set. -/
theorem claim_C8_resize_changes_pairs :
    ((lpRun (lpNew (fun _ => 0) 4 : LpMap Nat Nat)
        [.ins 1 10, .ins 2 20, .del 1, .ins 2 21]).map
      (fun m => (lpTrigger m, lpAt m 2, (lpInsert m 3 30).map (fun m5 => lpAt m5 2)))) =
    some (true, some 21, some (some 20)) := by decide

/-- Claim C8, witness: the amended theorem applied to a fresh capacity-4
probing map (well-formed, duplicate-free) and insert(1,10). -/
theorem claim_C8_witness :
    ∃ m2, lpRehash (lpNew (fun _ => 0) 4 : LpMap Nat Nat) = some m2 ∧
      m2.capacity = (lpNew (fun _ => 0) 4 : LpMap Nat Nat).capacity * 2 ∧
      m2.deleted_count = 0 ∧ lpTombFree m2 ∧
      (∀ q w, lpMapsTo m2 q w ↔ lpMapsTo (lpNew (fun _ => 0) 4 : LpMap Nat Nat) q w) :=
  (claim_C8_resize_trigger_and_rebuild (lpNew (fun _ => 0) 4 : LpMap Nat Nat) 1 10
    ⟨by decide, by decide⟩ (by decide)).2.2.2

/-- Claim C9: `CkHashMap::operator[]` rechecks the positions computed
before its internal insert; a rehash during that insert moves the entry,
so the recheck misses it and operator[] throws even though the insert
succeeded and the key is present.  Concretely, on a fresh capacity-1
cuckoo map, `operator[](5)` with default 0 throws (`none`) while the
same `insert(5, 0)` returns normally and leaves `at(5) = 0`. -/
theorem claim_C9_bracket_spurious_throw :
    ckBracket (ckNew ckSeedsA 1 : CkMap Nat Nat) 5 0 = none ∧
    ((ckInsert (ckNew ckSeedsA 1 : CkMap Nat Nat) 5 0).map (fun m => ckAt m 5)) =
      some (some 0) := by
  constructor <;> rfl

/-- Claim C10 (amended): for a strictly positive initial capacity the
capacity stays strictly positive along every normally-returning run of
public operations, for all three variants; the unamended claim fails
because every constructor accepts an explicit 0 and stores it (see the
counterexample), making every subsequent `hash % capacity` a division by
zero. -/
theorem claim_C10_capacity_stays_positive (hl hs : K → Nat) (seeds : Nat → K → Nat)
    (cap0 : Nat) (hpos : 0 < cap0) (ops : List (MapOp K V)) :
    (lpRun (lpNew hl cap0) ops).elim True (fun m => 0 < m.capacity) ∧
    (scRun (scNew hs cap0) ops).elim True (fun m => 0 < m.capacity) ∧
    (ckRun (ckNew seeds cap0) ops).elim True (fun m => 0 < m.capacity) := by
  refine ⟨?_, ?_, ?_⟩
  · rcases hrun : lpRun (lpNew hl cap0) ops with _ | m
    · exact trivial
    · have hwf := lpRun_wf ops _ m ⟨List.length_replicate _ _, hpos⟩ hrun
      simpa using hwf.2
  · rcases hrun : scRun (scNew hs cap0) ops with _ | m
    · exact trivial
    · have hwf := scRun_wf ops _ m ⟨List.length_replicate _ _, hpos⟩ hrun
      simpa using hwf.2
  · rcases hrun : ckRun (ckNew seeds cap0) ops with _ | m
    · exact trivial
    · have hinv := ckRun_inv ops _ m (ckNew_inv seeds cap0 hpos) hrun
      simpa using hinv.1.1.2.2

/-- Claim C10, counterexample: each public constructor, called with an
explicit initial capacity of 0, stores capacity 0. -/
theorem claim_C10_zero_capacity_accepted :
    (lpNew (fun _ => 0) 0 : LpMap Nat Nat).capacity = 0 ∧
    (scNew (fun _ => 0) 0 : ScMap Nat Nat).capacity = 0 ∧
    (ckNew (fun _ _ => 0) 0 : CkMap Nat Nat).capacity = 0 := ⟨rfl, rfl, rfl⟩

/-- Claim C10, witness: the amended theorem at initial capacity 1 and the
empty operation sequence. -/
theorem claim_C10_witness :
    (lpRun (lpNew (fun _ => 0) 1 : LpMap Nat Nat) []).elim True
      (fun m => 0 < m.capacity) ∧
    (scRun (scNew (fun _ => 0) 1 : ScMap Nat Nat) []).elim True
      (fun m => 0 < m.capacity) :=
  ⟨(@claim_C10_capacity_stays_positive Nat Nat _ (fun _ => 0) (fun _ => 0)
      (fun _ _ => 0) 1 (by decide) []).1,
    (@claim_C10_capacity_stays_positive Nat Nat _ (fun _ => 0) (fun _ => 0)
      (fun _ _ => 0) 1 (by decide) []).2.1⟩
